import Mathlib

/-!
# Verification of the funbus simulation/routing core

Shallow embedding of the bus-simulation engine:
* the generic breadth-first search common to `RoutePlanner.planTrip`
  (src/pathfinding/RoutePlanner.ts) and
  `PathfindingManager.bfsPathfinding` (src/pathfinding/PathfindingManager.ts),
* the LRU `PathCache` (src/pathfinding/PathCache.ts),
* the `SpatialIndex` ring search (src/spatial/SpatialIndex.ts),
* the boarding/alighting protocol of `RouteManager.handleBusAtStop`
  (src/core/RouteManager.ts),
* the bus/route lifecycle operations of `GameEngine`
  (src/core/GameEngine.ts) and the NPC lifecycle pieces of
  `EntityManager.updateNPCs` (src/core/EntityManager.ts).

Conventions:
* JS numbers that hold pixel coordinates, times and money are modelled as `ℚ`;
  grid-cell coordinates are `ℤ`; counters are `ℕ`.
* `Math.round` is modelled by `jsRound q = ⌊q + 1/2⌋`, which is the rounding
  mode of JS `Math.round` (half away from zero towards +∞).
* The source compares Euclidean distances through `Math.sqrt`; since `Real.sqrt`
  is strictly monotone on nonnegative arguments, every comparison
  `sqrt a < sqrt b` (resp. `>`, `≤`) of the source is embedded as the
  equivalent comparison of the squared distances, keeping everything in `ℚ`.
* JS `Map` preserves insertion order; it is modelled by an association list in
  insertion order, `Map.get`/`Map.set`/first-key deletion acting on that list.
-/

set_option maxRecDepth 8192

namespace Funbus

/-- Grid-cell coordinates.  A `Stop` in the source is an `{x, y}` record of
grid coordinates compared by value (`stop.x === other.x && stop.y === other.y`
and string keys `"x,y"`), so a stop is embedded as its coordinate pair. -/
abbrev GridPos := ℤ × ℤ

/-- Pixel-space point. -/
abbrev Point := ℚ × ℚ

/-- `GRID_SIZE` from src/config/constants.ts. -/
def GRID_SIZE : ℚ := 30

/-- `COLS` from src/config/constants.ts. -/
def COLS : ℤ := 60

/-- `ROWS` from src/config/constants.ts. -/
def ROWS : ℤ := 60

/-- JS `Math.round`: round half towards +∞. -/
def jsRound (q : ℚ) : ℤ := ⌊q + 1/2⌋

/-- Squared Euclidean distance between two pixel points (see the `sqrt`
convention in the file header). -/
def distSq (p q : Point) : ℚ := (q.1 - p.1) ^ 2 + (q.2 - p.2) ^ 2

/-! ## Generic breadth-first search

Both `RoutePlanner.planTrip` and `PathfindingManager.bfsPathfinding` run the
same loop: a FIFO queue of entries carrying the node, the accumulated node
path and the accumulated per-hop labels (route indices for the planner,
nothing for the grid); a node is marked visited at enqueue time; the
destination test happens at dequeue time.  The loop is embedded once,
parameterised by the neighbour function, and instantiated twice. -/

/-- A queue entry of the BFS: the reached node, the accumulated path
(`path` in both TS loops) and the accumulated per-hop labels
(`routePath` in the planner, trivial for the grid). -/
structure BfsEntry (α β : Type) where
  node : α
  path : List α
  labels : List β
deriving Repr

/-- Enqueue the not-yet-visited neighbours of the dequeued entry `e`, marking
each visited as it is enqueued — exactly the inner `for` loop of both TS BFS
implementations (`visited.add(key); queue.push(...)`). -/
def bfsEnqueue [DecidableEq α] (e : BfsEntry α β) :
    List (α × β) → List (BfsEntry α β) × List α → List (BfsEntry α β) × List α
  | [], acc => acc
  | (w, lab) :: rest, (q, v) =>
    if w ∈ v then bfsEnqueue e rest (q, v)
    else bfsEnqueue e rest (q ++ [⟨w, e.path ++ [w], e.labels ++ [lab]⟩], w :: v)

/-- The BFS `while (queue.length > 0)` loop.  `fuel` is an upper bound on the
number of iterations; the TS loops terminate because the visited set is
bounded, and the instantiations below supply enough fuel for that bound. -/
def bfsLoop [DecidableEq α] (nbrs : α → List (α × β)) (dest : α) :
    ℕ → List (BfsEntry α β) → List α → Option (BfsEntry α β)
  | 0, _, _ => none
  | _ + 1, [], _ => none
  | fuel + 1, e :: rest, v =>
    if e.node = dest then some e
    else
      let s := bfsEnqueue e (nbrs e.node) (rest, v)
      bfsLoop nbrs dest fuel s.1 s.2

/-- Run the BFS from `start` (initial carried path `p0`, initial visited set
`{start}`), as both TS loops initialise it. -/
def bfsRun [DecidableEq α] (nbrs : α → List (α × β)) (start dest : α)
    (p0 : List α) (fuel : ℕ) : Option (BfsEntry α β) :=
  bfsLoop nbrs dest fuel [⟨start, p0, []⟩] [start]

/-! ### Graph-theoretic vocabulary for the BFS proofs -/

/-- `w` is a successor of `v` in the neighbour function. -/
def Adj (nbrs : α → List (α × β)) (v w : α) : Prop := ∃ lab, (w, lab) ∈ nbrs v

/-- `Chain nbrs a cs b`: starting at `a`, following the successive nodes of
`cs` is a walk in the graph ending at `b` (`cs` lists the nodes after `a`,
so `cs.length` is the number of hops). -/
def Chain (nbrs : α → List (α × β)) : α → List α → α → Prop
  | a, [], b => a = b
  | a, c :: cs, b => Adj nbrs a c ∧ Chain nbrs c cs b

/-- Labelled walk: like `Chain` but also records the per-hop labels, exactly
as the BFS entries accumulate them. -/
def LChain (nbrs : α → List (α × β)) : α → List α → List β → α → Prop
  | a, [], [], b => a = b
  | a, c :: cs, lab :: labs, b => (c, lab) ∈ nbrs a ∧ LChain nbrs c cs labs b
  | _, _ :: _, [], _ => False
  | _, [], _ :: _, _ => False

/-- `b` is reachable from `a` in exactly `n` hops. -/
def Reaches (nbrs : α → List (α × β)) (a b : α) (n : ℕ) : Prop :=
  ∃ cs, Chain nbrs a cs b ∧ cs.length = n

/-- `n` is the graph distance from `a` to `b`. -/
def IsDist (nbrs : α → List (α × β)) (a b : α) (n : ℕ) : Prop :=
  Reaches nbrs a b n ∧ ∀ m, Reaches nbrs a b m → n ≤ m

theorem chain_nil_iff (nbrs : α → List (α × β)) (a b : α) :
    Chain nbrs a [] b ↔ a = b := Iff.rfl

theorem reaches_zero_iff (nbrs : α → List (α × β)) (a b : α) :
    Reaches nbrs a b 0 ↔ a = b := by
  constructor
  · rintro ⟨cs, hc, hl⟩
    cases cs with
    | nil => exact hc
    | cons c cs => simp at hl
  · rintro rfl
    exact ⟨[], rfl, rfl⟩

theorem reaches_self (nbrs : α → List (α × β)) (a : α) : Reaches nbrs a a 0 :=
  ⟨[], rfl, rfl⟩

theorem chain_snoc (nbrs : α → List (α × β)) :
    ∀ (cs : List α) (a b c : α), Chain nbrs a cs b → Adj nbrs b c →
      Chain nbrs a (cs ++ [c]) c := by
  intro cs
  induction cs with
  | nil =>
    intro a b c hc hadj
    cases hc
    exact ⟨hadj, rfl⟩
  | cons d ds ih =>
    intro a b c hc hadj
    exact ⟨hc.1, ih d b c hc.2 hadj⟩

theorem chain_snoc_inv (nbrs : α → List (α × β)) :
    ∀ (cs : List α) (a b d : α), Chain nbrs a (cs ++ [d]) b →
      d = b ∧ ∃ c, Chain nbrs a cs c ∧ Adj nbrs c b := by
  intro cs
  induction cs with
  | nil =>
    intro a b d h
    obtain ⟨hadj, heq⟩ := h
    cases heq
    exact ⟨rfl, a, rfl, hadj⟩
  | cons e es ih =>
    intro a b d h
    obtain ⟨hadj, hrest⟩ := h
    obtain ⟨hdb, c, hc, hcb⟩ := ih e b d hrest
    exact ⟨hdb, c, ⟨hadj, hc⟩, hcb⟩

theorem lchain_to_chain {nbrs : α → List (α × β)} :
    ∀ (cs : List α) (labs : List β) (a b : α), LChain nbrs a cs labs b →
      Chain nbrs a cs b ∧ cs.length = labs.length := by
  intro cs
  induction cs with
  | nil =>
    intro labs a b h
    cases labs with
    | nil => exact ⟨h, rfl⟩
    | cons l ls => exact False.elim h
  | cons c cs ih =>
    intro labs a b h
    cases labs with
    | nil => exact False.elim h
    | cons l ls =>
      obtain ⟨hmem, hrest⟩ := h
      obtain ⟨hch, hlen⟩ := ih ls c b hrest
      exact ⟨⟨⟨l, hmem⟩, hch⟩, by simp [hlen]⟩

theorem lchain_snoc {nbrs : α → List (α × β)} :
    ∀ (cs : List α) (labs : List β) (a b c : α) (lab : β),
      LChain nbrs a cs labs b → (c, lab) ∈ nbrs b →
      LChain nbrs a (cs ++ [c]) (labs ++ [lab]) c := by
  intro cs
  induction cs with
  | nil =>
    intro labs a b c lab h hmem
    cases labs with
    | nil => cases h; exact ⟨hmem, rfl⟩
    | cons l ls => exact False.elim h
  | cons d ds ih =>
    intro labs a b c lab h hmem
    cases labs with
    | nil => exact False.elim h
    | cons l ls =>
      obtain ⟨h1, h2⟩ := h
      exact ⟨h1, ih ls d b c lab h2 hmem⟩

theorem isDist_unique {nbrs : α → List (α × β)} {a b : α} {n m : ℕ}
    (hn : IsDist nbrs a b n) (hm : IsDist nbrs a b m) : n = m :=
  le_antisymm (hn.2 m hm.1) (hm.2 n hn.1)

theorem exists_isDist {nbrs : α → List (α × β)} {a b : α} {n : ℕ}
    (h : Reaches nbrs a b n) : ∃ d, IsDist nbrs a b d := by
  classical
  have hex : ∃ m, Reaches nbrs a b m := ⟨n, h⟩
  exact ⟨Nat.find hex, Nat.find_spec hex, fun m hm => Nat.find_min' hex hm⟩

/-- The node one hop before `b` on a shortest walk lies at distance exactly
one less. -/
theorem isDist_succ_pred {nbrs : α → List (α × β)} {a b : α} {k : ℕ}
    (h : IsDist nbrs a b (k + 1)) :
    ∃ u, IsDist nbrs a u k ∧ Adj nbrs u b := by
  obtain ⟨⟨cs, hc, hl⟩, hmin⟩ := h
  cases hcs : cs.reverse with
  | nil =>
    exfalso
    have : cs = [] := by
      have := congrArg List.reverse hcs
      simpa using this
    simp [this] at hl
  | cons d ds =>
    have hcs' : cs = ds.reverse ++ [d] := by
      have := congrArg List.reverse hcs
      simpa using this
    rw [hcs'] at hc
    obtain ⟨hdb, u, hu, hub⟩ := chain_snoc_inv nbrs ds.reverse a b d hc
    have hulen : ds.reverse.length = k := by
      have : cs.length = ds.reverse.length + 1 := by
        rw [hcs']; simp
      omega
    have hreach : Reaches nbrs a u k := ⟨ds.reverse, hu, hulen⟩
    obtain ⟨du, hdu⟩ := exists_isDist hreach
    have hdu_le : du ≤ k := hdu.2 k hreach
    have hdu_ge : k ≤ du := by
      by_contra hlt
      push_neg at hlt
      obtain ⟨es, he, hel⟩ := hdu.1
      have : Reaches nbrs a b (du + 1) :=
        ⟨es ++ [b], chain_snoc nbrs es a u b he hub, by simp [hel]⟩
      have := hmin (du + 1) this
      omega
    have : du = k := le_antisymm hdu_le hdu_ge
    exact ⟨u, this ▸ hdu, hub⟩

/-- Characterisation of one batch enqueue: the queue grows by one entry per
first occurrence of a not-yet-visited neighbour (marked visited as it is
enqueued), and afterwards every listed neighbour is visited. -/
theorem bfsEnqueue_char [DecidableEq α] (e : BfsEntry α β) :
    ∀ (l : List (α × β)) (q : List (BfsEntry α β)) (v : List α),
      ∃ Δ : List (BfsEntry α β),
        bfsEnqueue e l (q, v) = (q ++ Δ, (Δ.map (·.node)).reverse ++ v) ∧
        (∀ e' ∈ Δ, e'.node ∉ v ∧
          e'.path = e.path ++ [e'.node] ∧
          ∃ lab, (e'.node, lab) ∈ l ∧ e'.labels = e.labels ++ [lab]) ∧
        (Δ.map (·.node)).Nodup ∧
        (∀ w lab, (w, lab) ∈ l → w ∈ v ∨ w ∈ Δ.map (·.node)) := by
  intro l
  induction l with
  | nil =>
    intro q v
    exact ⟨[], by simp [bfsEnqueue], by simp, by simp, by simp⟩
  | cons hd rest ih =>
    intro q v
    obtain ⟨w, lab⟩ := hd
    by_cases hw : w ∈ v
    · obtain ⟨Δ, heq, hent, hnd, hcov⟩ := ih q v
      refine ⟨Δ, by simpa [bfsEnqueue, hw] using heq, ?_, hnd, ?_⟩
      · intro e' he'
        obtain ⟨h1, h2, lab', h3, h4⟩ := hent e' he'
        exact ⟨h1, h2, lab', List.mem_cons_of_mem _ h3, h4⟩
      · intro w' lab' hmem
        rcases List.mem_cons.mp hmem with h | h
        · exact Or.inl (by cases h; exact hw)
        · exact hcov w' lab' h
    · obtain ⟨Δ, heq, hent, hnd, hcov⟩ :=
        ih (q ++ [⟨w, e.path ++ [w], e.labels ++ [lab]⟩]) (w :: v)
      refine ⟨⟨w, e.path ++ [w], e.labels ++ [lab]⟩ :: Δ, ?_, ?_, ?_, ?_⟩
      · rw [show bfsEnqueue e ((w, lab) :: rest) (q, v) =
            bfsEnqueue e rest (q ++ [⟨w, e.path ++ [w], e.labels ++ [lab]⟩], w :: v)
            from by simp [bfsEnqueue, hw], heq]
        simp
      · intro e' he'
        rcases List.mem_cons.mp he' with h | h
        · subst h
          exact ⟨hw, rfl, lab, List.mem_cons_self _ _, rfl⟩
        · obtain ⟨h1, h2, lab', h3, h4⟩ := hent e' h
          exact ⟨fun hx => h1 (List.mem_cons_of_mem _ hx), h2, lab',
            List.mem_cons_of_mem _ h3, h4⟩
      · simp only [List.map_cons, List.nodup_cons]
        refine ⟨?_, hnd⟩
        intro hx
        obtain ⟨e', he', hnode⟩ := List.mem_map.mp hx
        exact (hent e' he').1 (hnode ▸ List.mem_cons_self _ _)
      · intro w' lab' hmem
        rcases List.mem_cons.mp hmem with h | h
        · cases h; simp
        · rcases hcov w' lab' h with h' | h'
          · rcases List.mem_cons.mp h' with h'' | h''
            · subst h''; simp
            · exact Or.inl h''
          · exact Or.inr (List.mem_cons_of_mem _ h')

/-- The inductive invariant of the BFS loop.  `D` is a finite domain of
nodes closed under the neighbour function, `Q` the queue, `V` the visited
list.  The fields spell out the classical BFS facts: queue entries carry
valid walks whose length is the exact graph distance, queue distances are
nondecreasing and span at most two consecutive values, every node at
distance up to the front's distance is already visited, visited nodes that
left the queue have all their neighbours visited, and the destination, once
visited, is still in the queue (the loop returns the first time it dequeues
the destination). -/
structure BfsInv [DecidableEq α] (nbrs : α → List (α × β)) (start dest : α)
    (p0 : List α) (D : Finset α)
    (Q : List (BfsEntry α β)) (V : List α) : Prop where
  v_nodup : V.Nodup
  v_sub : ∀ x ∈ V, x ∈ D
  start_mem : start ∈ V
  q_sub_v : ∀ e ∈ Q, e.node ∈ V
  q_nodes_nodup : (Q.map (·.node)).Nodup
  entry_ok : ∀ e ∈ Q, ∃ cs, LChain nbrs start cs e.labels e.node ∧ e.path = p0 ++ cs
  entry_dist : ∀ e ∈ Q, IsDist nbrs start e.node e.labels.length
  mono : Q.Pairwise (fun e₁ e₂ => e₁.labels.length ≤ e₂.labels.length)
  width : ∀ f ∈ Q.head?, ∀ e ∈ Q, e.labels.length ≤ f.labels.length + 1
  front_cover : ∀ f ∈ Q.head?, ∀ w n, IsDist nbrs start w n →
      n ≤ f.labels.length → w ∈ V
  done_closed : ∀ x ∈ V, x ∉ Q.map (·.node) → ∀ w lab, (w, lab) ∈ nbrs x → w ∈ V
  dest_q : dest ∈ V → dest ∈ Q.map (·.node)

/-- A nodup list contained in a finset is no longer than the finset's card. -/
theorem nodup_sub_length_le {V : List α} {D : Finset α} [DecidableEq α]
    (hnd : V.Nodup) (hsub : ∀ x ∈ V, x ∈ D) : V.length ≤ D.card := by
  have h1 : V.toFinset.card = V.length := List.toFinset_card_of_nodup hnd
  have h2 : V.toFinset ⊆ D := by
    intro x hx
    exact hsub x (List.mem_toFinset.mp hx)
  calc V.length = V.toFinset.card := h1.symm
    _ ≤ D.card := Finset.card_le_card h2

/-- Everything reachable from a node of an `Adj`-closed visited list is in
the list. -/
theorem chain_closed_mem {nbrs : α → List (α × β)} {V : List α}
    (hcl : ∀ x ∈ V, ∀ w lab, (w, lab) ∈ nbrs x → w ∈ V) :
    ∀ (cs : List α) (a b : α), a ∈ V → Chain nbrs a cs b → b ∈ V := by
  intro cs
  induction cs with
  | nil => intro a b ha h; cases h; exact ha
  | cons c cs ih =>
    intro a b ha h
    obtain ⟨⟨lab, hlab⟩, hrest⟩ := h
    exact ih c b (hcl a ha c lab hlab) hrest

/-- Helper: a list whose elements pairwise satisfy a reflexive-like
relation when taken from the list. -/
theorem pairwise_of_forall_mem {R : α → α → Prop} :
    ∀ {l : List α}, (∀ a ∈ l, ∀ b ∈ l, R a b) → l.Pairwise R := by
  intro l
  induction l with
  | nil => intro _; exact List.Pairwise.nil
  | cons a l ih =>
    intro h
    refine List.Pairwise.cons ?_ (ih ?_)
    · intro b hb
      exact h a (List.mem_cons_self _ _) b (List.mem_cons_of_mem _ hb)
    · intro x hx y hy
      exact h x (List.mem_cons_of_mem _ hx) y (List.mem_cons_of_mem _ hy)

/-- One loop iteration (dequeue a non-destination front entry and enqueue its
unvisited neighbours) preserves the invariant; the queue and visited list grow
by the same count of new nodes. -/
theorem bfsInv_step [DecidableEq α] {nbrs : α → List (α × β)} {start dest : α}
    {p0 : List α} {D : Finset α} {e : BfsEntry α β} {rest : List (BfsEntry α β)}
    {V : List α}
    (hclosed : ∀ x ∈ D, ∀ w lab, (w, lab) ∈ nbrs x → w ∈ D)
    (hinv : BfsInv nbrs start dest p0 D (e :: rest) V)
    (hne : e.node ≠ dest) :
    BfsInv nbrs start dest p0 D
      (bfsEnqueue e (nbrs e.node) (rest, V)).1
      (bfsEnqueue e (nbrs e.node) (rest, V)).2 ∧
    ∃ k, (bfsEnqueue e (nbrs e.node) (rest, V)).2.length = V.length + k ∧
      (bfsEnqueue e (nbrs e.node) (rest, V)).1.length = rest.length + k := by
  obtain ⟨Δ, heq, hent, hndΔ, hcov⟩ := bfsEnqueue_char e (nbrs e.node) rest V
  have hfe : e ∈ (e :: rest).head? := rfl
  have henodeV : e.node ∈ V := hinv.q_sub_v e (List.mem_cons_self _ _)
  have henodeD : e.node ∈ D := hinv.v_sub _ henodeV
  have hΔnotV : ∀ e' ∈ Δ, e'.node ∉ V := fun e' h => (hent e' h).1
  have hΔadj : ∀ e' ∈ Δ, ∃ lab, (e'.node, lab) ∈ nbrs e.node := by
    intro e' h
    obtain ⟨_, _, lab, hmem, _⟩ := hent e' h
    exact ⟨lab, hmem⟩
  have hΔlen : ∀ e' ∈ Δ, e'.labels.length = e.labels.length + 1 := by
    intro e' h
    obtain ⟨_, _, lab, _, hl⟩ := hent e' h
    simp [hl]
  have hΔD : ∀ e' ∈ Δ, e'.node ∈ D := by
    intro e' h
    obtain ⟨lab, hmem⟩ := hΔadj e' h
    exact hclosed e.node henodeD _ lab hmem
  have hmemV' : ∀ x, x ∈ (Δ.map (·.node)).reverse ++ V ↔
      x ∈ Δ.map (·.node) ∨ x ∈ V := by
    intro x; simp
  obtain ⟨cs₀, hlch₀, hpath₀⟩ := hinv.entry_ok e (List.mem_cons_self _ _)
  obtain ⟨hch₀, hlen₀⟩ := lchain_to_chain cs₀ e.labels start e.node hlch₀
  have hmonoRest := (List.pairwise_cons.mp hinv.mono).2
  have hheadRest := (List.pairwise_cons.mp hinv.mono).1
  have hwidthOld : ∀ x ∈ e :: rest, x.labels.length ≤ e.labels.length + 1 :=
    fun x hx => hinv.width e hfe x hx
  rw [heq]
  refine ⟨⟨?_, ?_, ?_, ?_, ?_, ?_, ?_, ?_, ?_, ?_, ?_, ?_⟩, Δ.length, ?_, ?_⟩
  · -- v_nodup
    refine List.nodup_append.mpr ⟨List.nodup_reverse.mpr hndΔ, hinv.v_nodup, ?_⟩
    intro a ha
    have ha' : a ∈ Δ.map (·.node) := List.mem_reverse.mp ha
    obtain ⟨e', he', hnode⟩ := List.mem_map.mp ha'
    exact hnode ▸ hΔnotV e' he'
  · -- v_sub
    intro x hx
    rcases (hmemV' x).mp hx with h | h
    · obtain ⟨e', he', hnode⟩ := List.mem_map.mp h
      exact hnode ▸ hΔD e' he'
    · exact hinv.v_sub x h
  · -- start_mem
    exact (hmemV' start).mpr (Or.inr hinv.start_mem)
  · -- q_sub_v
    intro e' he'
    rcases List.mem_append.mp he' with h | h
    · exact (hmemV' _).mpr (Or.inr (hinv.q_sub_v e' (List.mem_cons_of_mem _ h)))
    · exact (hmemV' _).mpr (Or.inl (List.mem_map_of_mem _ h))
  · -- q_nodes_nodup
    rw [List.map_append, List.nodup_append]
    refine ⟨?_, hndΔ, ?_⟩
    · have h := hinv.q_nodes_nodup
      rw [List.map_cons, List.nodup_cons] at h
      exact h.2
    · intro a ha hb
      obtain ⟨e', he', hnode⟩ := List.mem_map.mp ha
      have haV : a ∈ V := hnode ▸ hinv.q_sub_v e' (List.mem_cons_of_mem _ he')
      obtain ⟨e'', he'', hnode'⟩ := List.mem_map.mp hb
      exact hΔnotV e'' he'' (hnode' ▸ haV)
  · -- entry_ok
    intro e' he'
    rcases List.mem_append.mp he' with h | h
    · exact hinv.entry_ok e' (List.mem_cons_of_mem _ h)
    · obtain ⟨hnot, hpath, lab, hmem, hlab⟩ := hent e' h
      refine ⟨cs₀ ++ [e'.node], ?_, ?_⟩
      · rw [hlab]
        exact lchain_snoc cs₀ e.labels start e.node e'.node lab hlch₀ hmem
      · rw [hpath, hpath₀, List.append_assoc]
  · -- entry_dist
    intro e' he'
    rcases List.mem_append.mp he' with h | h
    · exact hinv.entry_dist e' (List.mem_cons_of_mem _ h)
    · obtain ⟨hnot, hpath, lab, hmem, hlab⟩ := hent e' h
      have hreach : Reaches nbrs start e'.node (e.labels.length + 1) :=
        ⟨cs₀ ++ [e'.node],
          chain_snoc nbrs cs₀ start e.node e'.node hch₀ ⟨lab, hmem⟩,
          by simp [hlen₀]⟩
      rw [hΔlen e' h]
      refine ⟨hreach, ?_⟩
      intro m hm
      by_contra hcon
      push_neg at hcon
      obtain ⟨d, hd⟩ := exists_isDist hm
      have hdle : d ≤ m := hd.2 m hm
      exact hnot (hinv.front_cover e hfe e'.node d hd (by omega))
  · -- mono
    refine List.pairwise_append.mpr ⟨hmonoRest, ?_, ?_⟩
    · exact pairwise_of_forall_mem
        (fun a ha b hb => by rw [hΔlen a ha, hΔlen b hb])
    · intro a ha b hb
      rw [hΔlen b hb]
      exact hwidthOld a (List.mem_cons_of_mem _ ha)
  · -- width
    intro f hf x hx
    have hxlen : x.labels.length ≤ e.labels.length + 1 := by
      rcases List.mem_append.mp hx with h | h
      · exact hwidthOld x (List.mem_cons_of_mem _ h)
      · rw [hΔlen x h]
    cases hrest : rest with
    | nil =>
      subst hrest
      have hfΔ : f ∈ Δ := List.mem_of_mem_head? (by simpa using hf)
      rw [hΔlen f hfΔ]
      omega
    | cons c rs =>
      subst hrest
      have hfc : f = c := by
        simp only [List.cons_append, List.head?_cons, Option.mem_def,
          Option.some.injEq] at hf
        exact hf.symm
      subst hfc
      have hcn : e.labels.length ≤ f.labels.length :=
        hheadRest f (List.mem_cons_self _ _)
      omega
  · -- front_cover
    intro f hf w d hd hdle
    have hflen : f.labels.length ≤ e.labels.length + 1 := by
      have hfmem : f ∈ rest ++ Δ := List.mem_of_mem_head? hf
      rcases List.mem_append.mp hfmem with h | h
      · exact hwidthOld f (List.mem_cons_of_mem _ h)
      · exact le_of_eq (hΔlen f h)
    rcases Nat.lt_or_ge d (e.labels.length + 1) with hlt | hge
    · exact (hmemV' w).mpr
        (Or.inr (hinv.front_cover e hfe w d hd (by omega)))
    · have hdeq : d = e.labels.length + 1 := by omega
      subst hdeq
      obtain ⟨u, hu, hadj⟩ := isDist_succ_pred hd
      have huV : u ∈ V := hinv.front_cover e hfe u _ hu (le_refl _)
      by_cases huq : u ∈ (e :: rest).map (·.node)
      · rw [List.map_cons, List.mem_cons] at huq
        rcases huq with hue | hur
        · obtain ⟨lab, hlab⟩ := hadj
          rcases hcov w lab (hue ▸ hlab) with h | h
          · exact (hmemV' w).mpr (Or.inr h)
          · exact (hmemV' w).mpr (Or.inl h)
        · exfalso
          obtain ⟨er, her, hnode⟩ := List.mem_map.mp hur
          have hdu : IsDist nbrs start u er.labels.length :=
            hnode ▸ hinv.entry_dist er (List.mem_cons_of_mem _ her)
          have hulen : er.labels.length = e.labels.length := isDist_unique hdu hu
          have hfl : e.labels.length + 1 ≤ f.labels.length := hdle
          cases hrest : rest with
          | nil => subst hrest; exact absurd her (List.not_mem_nil er)
          | cons c rs =>
            subst hrest
            have hfc : f = c := by
              simp only [List.cons_append, List.head?_cons, Option.mem_def,
                Option.some.injEq] at hf
              exact hf.symm
            subst hfc
            rcases List.mem_cons.mp her with h | h
            · subst h; omega
            · have := (List.pairwise_cons.mp hmonoRest).1 er h
              omega
      · obtain ⟨lab, hlab⟩ := hadj
        exact (hmemV' w).mpr (Or.inr (hinv.done_closed u huV huq w lab hlab))
  · -- done_closed
    intro x hx hxq w lab hlab
    rcases (hmemV' x).mp hx with h | h
    · exact absurd (by rw [List.map_append]; exact List.mem_append_right _ h) hxq
    · by_cases hxe : x = e.node
      · subst hxe
        rcases hcov w lab hlab with h' | h'
        · exact (hmemV' w).mpr (Or.inr h')
        · exact (hmemV' w).mpr (Or.inl h')
      · have hxnot : x ∉ (e :: rest).map (·.node) := by
          rw [List.map_cons, List.mem_cons]
          push_neg
          refine ⟨hxe, ?_⟩
          intro hc
          exact hxq (by rw [List.map_append]; exact List.mem_append_left _ hc)
        exact (hmemV' w).mpr (Or.inr (hinv.done_closed x h hxnot w lab hlab))
  · -- dest_q
    intro hdV
    rcases (hmemV' dest).mp hdV with h | h
    · rw [List.map_append]; exact List.mem_append_right _ h
    · have hmem := hinv.dest_q h
      rw [List.map_cons, List.mem_cons] at hmem
      rcases hmem with h' | h'
      · exact absurd h'.symm hne
      · rw [List.map_append]; exact List.mem_append_left _ h'
  · -- visited length
    simp [Nat.add_comm]
  · -- queue length
    simp

/-- The initial BFS state (start enqueued with the initial path, visited
`{start}`) satisfies the invariant. -/
theorem bfsInv_init [DecidableEq α] (nbrs : α → List (α × β)) (start dest : α)
    (p0 : List α) (D : Finset α) (hstart : start ∈ D) :
    BfsInv nbrs start dest p0 D [⟨start, p0, []⟩] [start] := by
  refine ⟨?_, ?_, ?_, ?_, ?_, ?_, ?_, ?_, ?_, ?_, ?_, ?_⟩
  · simp
  · intro x hx
    rw [List.mem_singleton] at hx
    exact hx ▸ hstart
  · simp
  · intro e he
    rw [List.mem_singleton] at he
    subst he
    simp
  · simp
  · intro e he
    rw [List.mem_singleton] at he
    subst he
    exact ⟨[], rfl, by simp⟩
  · intro e he
    rw [List.mem_singleton] at he
    subst he
    exact ⟨reaches_self nbrs start, fun m _ => Nat.zero_le m⟩
  · simp
  · intro f hf x hx
    rw [List.mem_singleton] at hx
    subst hx
    simp
  · intro f hf w n hn hle
    have hf' : f = ⟨start, p0, []⟩ := by
      simp only [List.head?_cons, Option.mem_def, Option.some.injEq] at hf
      exact hf.symm
    subst hf'
    simp only [List.length_nil, Nat.le_zero] at hle
    subst hle
    have := (reaches_zero_iff nbrs start w).mp hn.1
    simp [this]
  · intro x hx hq
    exfalso
    rw [List.mem_singleton] at hx
    exact hq (by simp [hx])
  · intro h
    rw [List.mem_singleton] at h
    simp [h]

/-- Soundness of the BFS loop under the invariant: a returned entry reaches
the destination along a carried walk whose hop count is the exact graph
distance. -/
theorem bfsLoop_sound [DecidableEq α] {nbrs : α → List (α × β)}
    {start dest : α} {p0 : List α} {D : Finset α}
    (hclosed : ∀ x ∈ D, ∀ w lab, (w, lab) ∈ nbrs x → w ∈ D) :
    ∀ (fuel : ℕ) (Q : List (BfsEntry α β)) (V : List α),
      BfsInv nbrs start dest p0 D Q V →
      ∀ e, bfsLoop nbrs dest fuel Q V = some e →
        e.node = dest ∧
        (∃ cs, LChain nbrs start cs e.labels dest ∧ e.path = p0 ++ cs) ∧
        IsDist nbrs start dest e.labels.length := by
  intro fuel
  induction fuel with
  | zero => intro Q V _ e h; simp [bfsLoop] at h
  | succ fuel ih =>
    intro Q V hinv e h
    cases Q with
    | nil => simp [bfsLoop] at h
    | cons f rest =>
      by_cases hfd : f.node = dest
      · have he : e = f := by
          simp only [bfsLoop, hfd, if_pos] at h
          exact (Option.some.injEq _ _ ▸ h).symm
        subst he
        obtain ⟨cs, hch, hpath⟩ := hinv.entry_ok e (List.mem_cons_self _ _)
        have hd := hinv.entry_dist e (List.mem_cons_self _ _)
        exact ⟨hfd, ⟨cs, hfd ▸ hch, hpath⟩, hfd ▸ hd⟩
      · have hstep := bfsInv_step hclosed hinv hfd
        have h' : bfsLoop nbrs dest fuel
            (bfsEnqueue f (nbrs f.node) (rest, V)).1
            (bfsEnqueue f (nbrs f.node) (rest, V)).2 = some e := by
          simpa [bfsLoop, hfd] using h
        exact ih _ _ hstep.1 e h'

/-- Completeness of the BFS loop: if the destination is reachable and the
fuel covers the loop's termination measure, the loop returns an entry. -/
theorem bfsLoop_complete [DecidableEq α] {nbrs : α → List (α × β)}
    {start dest : α} {p0 : List α} {D : Finset α}
    (hclosed : ∀ x ∈ D, ∀ w lab, (w, lab) ∈ nbrs x → w ∈ D) :
    ∀ (fuel : ℕ) (Q : List (BfsEntry α β)) (V : List α),
      BfsInv nbrs start dest p0 D Q V →
      (∃ n, Reaches nbrs start dest n) →
      2 * (D.card - V.length) + Q.length + 1 ≤ fuel →
      ∃ e, bfsLoop nbrs dest fuel Q V = some e := by
  intro fuel
  induction fuel with
  | zero => intro Q V _ _ hle; omega
  | succ fuel ih =>
    intro Q V hinv hreach hfuel
    cases Q with
    | nil =>
      exfalso
      obtain ⟨n, cs, hch, _⟩ := hreach
      have hcl : ∀ x ∈ V, ∀ w lab, (w, lab) ∈ nbrs x → w ∈ V := by
        intro x hx w lab hlab
        exact hinv.done_closed x hx (by simp) w lab hlab
      have hdV : dest ∈ V := chain_closed_mem hcl cs start dest hinv.start_mem hch
      have := hinv.dest_q hdV
      simp at this
    | cons f rest =>
      by_cases hfd : f.node = dest
      · exact ⟨f, by simp [bfsLoop, hfd]⟩
      · obtain ⟨hinv', k, hvlen, hqlen⟩ := bfsInv_step hclosed hinv hfd
        have hVD : (bfsEnqueue f (nbrs f.node) (rest, V)).2.length ≤ D.card :=
          nodup_sub_length_le hinv'.v_nodup hinv'.v_sub
        obtain ⟨e, he⟩ := ih _ _ hinv' hreach (by
          rw [hvlen, hqlen]
          rw [hvlen] at hVD
          simp only [List.length_cons] at hfuel
          omega)
        exact ⟨e, by simpa [bfsLoop, hfd] using he⟩

/-- Soundness of `bfsRun`. -/
theorem bfsRun_sound [DecidableEq α] {nbrs : α → List (α × β)}
    {start dest : α} {p0 : List α} {D : Finset α} {fuel : ℕ}
    (hstart : start ∈ D)
    (hclosed : ∀ x ∈ D, ∀ w lab, (w, lab) ∈ nbrs x → w ∈ D)
    {e : BfsEntry α β} (h : bfsRun nbrs start dest p0 fuel = some e) :
    e.node = dest ∧
    (∃ cs, LChain nbrs start cs e.labels dest ∧ e.path = p0 ++ cs) ∧
    IsDist nbrs start dest e.labels.length :=
  bfsLoop_sound hclosed fuel _ _ (bfsInv_init nbrs start dest p0 D hstart) e h

/-- Completeness of `bfsRun`. -/
theorem bfsRun_complete [DecidableEq α] {nbrs : α → List (α × β)}
    {start dest : α} {p0 : List α} {D : Finset α} {fuel n : ℕ}
    (hstart : start ∈ D)
    (hclosed : ∀ x ∈ D, ∀ w lab, (w, lab) ∈ nbrs x → w ∈ D)
    (hreach : Reaches nbrs start dest n)
    (hfuel : 2 * D.card + 2 ≤ fuel) :
    ∃ e, bfsRun nbrs start dest p0 fuel = some e := by
  refine bfsLoop_complete hclosed fuel _ _
    (bfsInv_init nbrs start dest p0 D hstart) ⟨n, hreach⟩ ?_
  simp only [List.length_singleton]
  omega

/-! ## RoutePlanner (src/pathfinding/RoutePlanner.ts)

`planTrip` and `buildStopGraph` read only `route.stops` from each route, so
this section takes the routes as their stop lists.  The JS `Map` keyed by the
string `` `${x},${y}` `` is modelled as an insertion-ordered association list
keyed by the coordinate pair (the string key is injective in the
coordinates). -/

/-- JS `Map.get` on an insertion-ordered association list. -/
def jsMapGet [DecidableEq κ] : List (κ × v) → κ → Option v
  | [], _ => none
  | p :: rest, k => if p.1 = k then some p.2 else jsMapGet rest k

/-- JS `Map.has`. -/
def jsMapHas [DecidableEq κ] : List (κ × v) → κ → Bool
  | [], _ => false
  | p :: rest, k => if p.1 = k then true else jsMapHas rest k

/-- JS `Map.set`: update in place when the key is present (the entry keeps
its position), else append at the end. -/
def jsMapSet [DecidableEq κ] (m : List (κ × v)) (k : κ) (val : v) :
    List (κ × v) :=
  if jsMapHas m k then m.map (fun p => if p.1 = k then (k, val) else p)
  else m ++ [(k, val)]

theorem jsMapGet_map_self [DecidableEq κ] (k : κ) (val : v) :
    ∀ m : List (κ × v), jsMapHas m k = true →
      jsMapGet (m.map (fun p => if p.1 = k then (k, val) else p)) k = some val := by
  intro m
  induction m with
  | nil => intro h; simp [jsMapHas] at h
  | cons p rest ih =>
    intro h
    by_cases hp : p.1 = k
    · simp [jsMapGet, hp]
    · have h' : jsMapHas rest k = true := by simpa [jsMapHas, hp] using h
      simpa [jsMapGet, hp] using ih h'

theorem jsMapGet_map_other [DecidableEq κ] (k k' : κ) (val : v) (hne : k' ≠ k) :
    ∀ m : List (κ × v),
      jsMapGet (m.map (fun p => if p.1 = k then (k, val) else p)) k' =
        jsMapGet m k' := by
  intro m
  induction m with
  | nil => rfl
  | cons p rest ih =>
    by_cases hp : p.1 = k
    · have : p.1 ≠ k' := by rw [hp]; exact fun h => hne h.symm
      simpa [jsMapGet, hp, Ne.symm hne, this] using ih
    · by_cases hp' : p.1 = k'
      · simp [jsMapGet, hp, hp', hne]
      · simpa [jsMapGet, hp, hp'] using ih

theorem jsMapGet_append_single [DecidableEq κ] (k k' : κ) (val : v) :
    ∀ m : List (κ × v),
      jsMapGet (m ++ [(k, val)]) k' =
        match jsMapGet m k' with
        | some x => some x
        | none => if k = k' then some val else none := by
  intro m
  induction m with
  | nil => rfl
  | cons p rest ih =>
    by_cases hp : p.1 = k'
    · simp [jsMapGet, hp]
    · simpa [jsMapGet, hp] using ih

theorem jsMapGet_eq_none_of_not_has [DecidableEq κ] (k : κ) :
    ∀ m : List (κ × v), jsMapHas m k = false → jsMapGet m k = none := by
  intro m
  induction m with
  | nil => intro _; rfl
  | cons p rest ih =>
    intro h
    by_cases hp : p.1 = k
    · simp [jsMapHas, hp] at h
    · have h' : jsMapHas rest k = false := by simpa [jsMapHas, hp] using h
      simpa [jsMapGet, hp] using ih h'

/-- `Map.get` after `Map.set`. -/
theorem jsMapGet_set [DecidableEq κ] (m : List (κ × v)) (k k' : κ) (val : v) :
    jsMapGet (jsMapSet m k val) k' =
      if k' = k then some val else jsMapGet m k' := by
  unfold jsMapSet
  by_cases hhas : jsMapHas m k
  · rw [if_pos hhas]
    by_cases hk : k' = k
    · subst hk
      rw [if_pos rfl]
      exact jsMapGet_map_self k' val m hhas
    · rw [if_neg hk]
      exact jsMapGet_map_other k k' val hk m
  · rw [if_neg hhas]
    have hf : jsMapHas m k = false := by simpa using hhas
    rw [jsMapGet_append_single k k' val m]
    by_cases hk : k' = k
    · subst hk
      rw [jsMapGet_eq_none_of_not_has k' m hf]
    · rw [if_neg hk]
      cases hg : jsMapGet m k' with
      | some x => simp
      | none => exact if_neg (fun h => hk h.symm)

/-- The innermost loop body of `buildStopGraph`: connect stop occurrence `i`
to stop occurrence `jp = (j, otherStop)` on route `routeIndex`, skipping
`i === j` and already-present `(otherStop, routeIndex)` pairs. -/
def connectStep (routeIndex : ℕ) (i : ℕ) (conns : List (GridPos × ℕ))
    (jp : ℕ × GridPos) : List (GridPos × ℕ) :=
  if i ≠ jp.1 then
    if conns.any (fun c => decide (c.1 = jp.2) && decide (c.2 = routeIndex)) then
      conns
    else conns ++ [(jp.2, routeIndex)]
  else conns

/-- Connections added for one stop occurrence: the inner
`route.stops.forEach((otherStop, j) => ...)` loop. -/
def connectStop (routeIndex : ℕ) (stops : List GridPos) (i : ℕ)
    (conns : List (GridPos × ℕ)) : List (GridPos × ℕ) :=
  stops.enum.foldl (connectStep routeIndex i) conns

/-- The `route.stops.forEach((stop, i) => ...)` loop body: read the stop's
connection list, extend it, store it back. -/
def stopStep (routeIndex : ℕ) (stops : List GridPos)
    (g : List (GridPos × List (GridPos × ℕ))) (ip : ℕ × GridPos) :
    List (GridPos × List (GridPos × ℕ)) :=
  jsMapSet g ip.2 (connectStop routeIndex stops ip.1 ((jsMapGet g ip.2).getD []))

/-- The `allRoutes.forEach((route, routeIndex) => ...)` loop body. -/
def routeStep (g : List (GridPos × List (GridPos × ℕ)))
    (rp : ℕ × List GridPos) : List (GridPos × List (GridPos × ℕ)) :=
  rp.2.enum.foldl (stopStep rp.1 rp.2) g

/-- `RoutePlanner.buildStopGraph`. -/
def buildStopGraph (allRoutes : List (List GridPos)) :
    List (GridPos × List (GridPos × ℕ)) :=
  allRoutes.enum.foldl routeStep []

/-- The neighbour lookup `graph.get(currentKey) || []` of `planTrip`'s BFS. -/
def plannerNbrs (g : List (GridPos × List (GridPos × ℕ))) (s : GridPos) :
    List (GridPos × ℕ) :=
  (jsMapGet g s).getD []

/-- `TransferPlan` (src/pathfinding/RoutePlanner.ts). -/
structure TransferPlan where
  stops : List GridPos
  routes : List ℕ
  totalTransfers : ℕ
deriving Repr, DecidableEq

/-- Enough loop iterations for `planTrip`'s BFS to terminate on its own
(every enqueueable stop lies in the routes' stop lists; see
`bfsLoop_complete`'s measure).  The TS `while` loop has no explicit bound. -/
def planTripFuel (allRoutes : List (List GridPos)) : ℕ :=
  2 * allRoutes.flatten.length + 4

/-- `RoutePlanner.planTrip`. -/
def planTrip (originStop destinationStop : GridPos)
    (allRoutes : List (List GridPos)) : Option TransferPlan :=
  if originStop = destinationStop then
    some ⟨[originStop], [], 0⟩
  else
    match bfsRun (plannerNbrs (buildStopGraph allRoutes)) originStop
        destinationStop [originStop] (planTripFuel allRoutes) with
    | some e => some ⟨e.path, e.labels, e.labels.length - 1⟩
    | none => none

/-! ### Characterisation of the stop graph -/

theorem foldl_preserve {P : γ → Prop} {f : γ → δ → γ} :
    ∀ {l : List δ} {g : γ}, P g → (∀ g' x, x ∈ l → P g' → P (f g' x)) →
      P (l.foldl f g) := by
  intro l
  induction l with
  | nil => intro g h _; exact h
  | cons x l ih =>
    intro g h hstep
    rw [List.foldl_cons]
    exact ih (hstep g x (List.mem_cons_self _ _) h)
      (fun g' y hy => hstep g' y (List.mem_cons_of_mem _ hy))

theorem snd_mem_of_mem_enum {l : List γ} {p : ℕ × γ} (h : p ∈ l.enum) :
    p.2 ∈ l := by
  have hm := List.mem_map_of_mem Prod.snd h
  rwa [List.enum_map_snd] at hm

theorem connectStep_mono (ri i : ℕ) (conns : List (GridPos × ℕ))
    (jp : ℕ × GridPos) {c : GridPos × ℕ} (h : c ∈ conns) :
    c ∈ connectStep ri i conns jp := by
  unfold connectStep
  split
  · split
    · exact h
    · exact List.mem_append_left _ h
  · exact h

theorem foldl_connectStep_mono (ri i : ℕ) :
    ∀ (l : List (ℕ × GridPos)) (conns : List (GridPos × ℕ)) (c : GridPos × ℕ),
      c ∈ conns → c ∈ l.foldl (connectStep ri i) conns := by
  intro l
  induction l with
  | nil => intro conns c h; exact h
  | cons jp l ih =>
    intro conns c h
    rw [List.foldl_cons]
    exact ih _ c (connectStep_mono ri i conns jp h)

theorem connectStep_subset (ri i : ℕ) (conns : List (GridPos × ℕ))
    (jp : ℕ × GridPos) {c : GridPos × ℕ} (h : c ∈ connectStep ri i conns jp) :
    c ∈ conns ∨ c = (jp.2, ri) := by
  unfold connectStep at h
  split at h
  · split at h
    · exact Or.inl h
    · rcases List.mem_append.mp h with h' | h'
      · exact Or.inl h'
      · exact Or.inr (List.mem_singleton.mp h')
  · exact Or.inl h

theorem foldl_connectStep_subset (ri i : ℕ) :
    ∀ (l : List (ℕ × GridPos)) (conns : List (GridPos × ℕ)) (c : GridPos × ℕ),
      c ∈ l.foldl (connectStep ri i) conns →
      c ∈ conns ∨ (c.2 = ri ∧ ∃ jp ∈ l, c.1 = jp.2) := by
  intro l
  induction l with
  | nil => intro conns c h; exact Or.inl h
  | cons jp l ih =>
    intro conns c h
    rw [List.foldl_cons] at h
    rcases ih _ c h with h' | h'
    · rcases connectStep_subset ri i conns jp h' with h'' | h''
      · exact Or.inl h''
      · subst h''
        exact Or.inr ⟨rfl, jp, List.mem_cons_self _ _, rfl⟩
    · obtain ⟨hr, jp', hjp', hfst⟩ := h'
      exact Or.inr ⟨hr, jp', List.mem_cons_of_mem _ hjp', hfst⟩

theorem connectStep_adds (ri i : ℕ) (conns : List (GridPos × ℕ))
    (jp : ℕ × GridPos) (hne : i ≠ jp.1) :
    (jp.2, ri) ∈ connectStep ri i conns jp := by
  unfold connectStep
  rw [if_pos hne]
  split
  · next hany =>
    obtain ⟨c, hc, hcp⟩ := List.any_eq_true.mp hany
    obtain ⟨h1, h2⟩ := Bool.and_eq_true_iff.mp hcp
    have h1' : c.1 = jp.2 := of_decide_eq_true h1
    have h2' : c.2 = ri := of_decide_eq_true h2
    have hcq : c = (jp.2, ri) := Prod.ext h1' h2'
    exact hcq ▸ hc
  · exact List.mem_append_right _ (List.mem_singleton.mpr rfl)

theorem connectStop_adds (ri : ℕ) (stops : List GridPos) (i j : ℕ)
    (w : GridPos) (conns : List (GridPos × ℕ))
    (hj : (j, w) ∈ stops.enum) (hne : i ≠ j) :
    (w, ri) ∈ connectStop ri stops i conns := by
  obtain ⟨l₁, l₂, hsplit⟩ := List.append_of_mem hj
  unfold connectStop
  rw [hsplit, List.foldl_append, List.foldl_cons]
  exact foldl_connectStep_mono ri i l₂ _ _ (connectStep_adds ri i _ (j, w) hne)

theorem plannerNbrs_stopStep (ri : ℕ) (stops : List GridPos)
    (g : List (GridPos × List (GridPos × ℕ))) (ip : ℕ × GridPos) (s : GridPos) :
    plannerNbrs (stopStep ri stops g ip) s =
      if s = ip.2 then connectStop ri stops ip.1 (plannerNbrs g ip.2)
      else plannerNbrs g s := by
  unfold stopStep plannerNbrs
  rw [jsMapGet_set]
  split <;> rfl

theorem stopStep_mono (ri : ℕ) (stops : List GridPos)
    (g : List (GridPos × List (GridPos × ℕ))) (ip : ℕ × GridPos) (s : GridPos)
    {x : GridPos × ℕ} (h : x ∈ plannerNbrs g s) :
    x ∈ plannerNbrs (stopStep ri stops g ip) s := by
  rw [plannerNbrs_stopStep]
  split
  · next heq =>
    rw [heq] at h
    exact foldl_connectStep_mono ri ip.1 stops.enum _ _ h
  · exact h

theorem foldl_stopStep_mono (ri : ℕ) (stops : List GridPos) :
    ∀ (l : List (ℕ × GridPos)) (g : List (GridPos × List (GridPos × ℕ)))
      (s : GridPos) (x : GridPos × ℕ), x ∈ plannerNbrs g s →
      x ∈ plannerNbrs (l.foldl (stopStep ri stops) g) s := by
  intro l
  induction l with
  | nil => intro g s x h; exact h
  | cons ip l ih =>
    intro g s x h
    rw [List.foldl_cons]
    exact ih _ s x (stopStep_mono ri stops g ip s h)

theorem routeStep_mono (g : List (GridPos × List (GridPos × ℕ)))
    (rp : ℕ × List GridPos) (s : GridPos) {x : GridPos × ℕ}
    (h : x ∈ plannerNbrs g s) : x ∈ plannerNbrs (routeStep g rp) s :=
  foldl_stopStep_mono rp.1 rp.2 rp.2.enum g s x h

theorem foldl_routeStep_mono :
    ∀ (l : List (ℕ × List GridPos)) (g : List (GridPos × List (GridPos × ℕ)))
      (s : GridPos) (x : GridPos × ℕ), x ∈ plannerNbrs g s →
      x ∈ plannerNbrs (l.foldl routeStep g) s := by
  intro l
  induction l with
  | nil => intro g s x h; exact h
  | cons rp l ih =>
    intro g s x h
    rw [List.foldl_cons]
    exact ih _ s x (routeStep_mono g rp s h)

/-- Completeness of the stop graph: distinct occurrences `i ≠ j` of stops
`s`, `w` on route `ri` yield the connection `(w, ri)` at `s`. -/
theorem buildStopGraph_adds (R : List (List GridPos)) (ri : ℕ)
    (stops : List GridPos) (hri : (ri, stops) ∈ R.enum) (i j : ℕ)
    (s w : GridPos) (hi : (i, s) ∈ stops.enum) (hj : (j, w) ∈ stops.enum)
    (hne : i ≠ j) : (w, ri) ∈ plannerNbrs (buildStopGraph R) s := by
  obtain ⟨l₁, l₂, hsplit⟩ := List.append_of_mem hri
  unfold buildStopGraph
  rw [hsplit, List.foldl_append, List.foldl_cons]
  apply foldl_routeStep_mono
  show (w, ri) ∈ plannerNbrs (routeStep _ (ri, stops)) s
  unfold routeStep
  obtain ⟨m₁, m₂, hsplit2⟩ := List.append_of_mem hi
  rw [hsplit2, List.foldl_append, List.foldl_cons]
  apply foldl_stopStep_mono
  rw [plannerNbrs_stopStep, if_pos rfl]
  exact connectStop_adds ri stops i j w _ hj hne

/-- Soundness shape of a stop graph for `R`: every connection `(w, ri)`
stored at `s` comes from a route `ri` of `R` containing both `s` and `w`. -/
def GraphOK (R : List (List GridPos))
    (g : List (GridPos × List (GridPos × ℕ))) : Prop :=
  ∀ s w ri, (w, ri) ∈ plannerNbrs g s →
    ∃ stops, R[ri]? = some stops ∧ s ∈ stops ∧ w ∈ stops

theorem graphOK_nil (R : List (List GridPos)) : GraphOK R [] := by
  intro s w ri h
  simp [plannerNbrs, jsMapGet] at h

theorem graphOK_stopStep {R : List (List GridPos)} (ri : ℕ)
    (stops : List GridPos) (g : List (GridPos × List (GridPos × ℕ)))
    (ip : ℕ × GridPos) (hstops : R[ri]? = some stops) (hip : ip.2 ∈ stops)
    (hok : GraphOK R g) : GraphOK R (stopStep ri stops g ip) := by
  intro s w ri' h
  rw [plannerNbrs_stopStep] at h
  split at h
  · next heq =>
    subst heq
    rcases foldl_connectStep_subset ri ip.1 stops.enum _ _ h with h' | h'
    · exact hok ip.2 w ri' h'
    · obtain ⟨hr, jp, hjp, hw⟩ := h'
      simp only at hr hw
      subst hr
      exact ⟨stops, hstops, hip, hw ▸ snd_mem_of_mem_enum hjp⟩
  · exact hok s w ri' h

theorem graphOK_build (R : List (List GridPos)) :
    GraphOK R (buildStopGraph R) := by
  unfold buildStopGraph
  refine foldl_preserve (graphOK_nil R) ?_
  intro g rp hrp hok
  unfold routeStep
  refine foldl_preserve hok ?_
  intro g' ip hip hok'
  have hget : R[rp.1]? = some rp.2 := by
    have := List.mk_mem_enum_iff_getElem?.mp (show (rp.1, rp.2) ∈ R.enum from hrp)
    exact this
  exact graphOK_stopStep rp.1 rp.2 g' ip hget (snd_mem_of_mem_enum hip) hok'

/-! ### The clique model and `planTrip`'s guarantee -/

/-- Two distinct stops lying on a common route: the adjacency of the clique
model of §4.3 of the spec ("every pair of stops on the same route is
mutually connected"). -/
def SharesRoute (allRoutes : List (List GridPos)) (a b : GridPos) : Prop :=
  a ≠ b ∧ ∃ r ∈ allRoutes, a ∈ r ∧ b ∈ r

/-- Walks in the clique model; `cs` lists the stops after `a`. -/
def CliqueChain (allRoutes : List (List GridPos)) :
    GridPos → List GridPos → GridPos → Prop
  | a, [], b => a = b
  | a, c :: cs, b => SharesRoute allRoutes a c ∧ CliqueChain allRoutes c cs b

/-- Leg-validity of a plan: each hop rides a single route of `allRoutes`
containing both of its endpoint stops. -/
def LegsOK (allRoutes : List (List GridPos)) :
    GridPos → List GridPos → List ℕ → Prop
  | _, [], [] => True
  | a, c :: cs, ri :: ris =>
      (∃ stops, allRoutes[ri]? = some stops ∧ a ∈ stops ∧ c ∈ stops) ∧
        LegsOK allRoutes c cs ris
  | _, _ :: _, [] => False
  | _, [], _ :: _ => False

theorem sharesRoute_adj (R : List (List GridPos)) (a b : GridPos)
    (h : SharesRoute R a b) :
    ∃ ri, (b, ri) ∈ plannerNbrs (buildStopGraph R) a := by
  obtain ⟨hne, r, hr, ha, hb⟩ := h
  obtain ⟨ri, hri⟩ := List.mem_iff_getElem?.mp hr
  obtain ⟨i, hi⟩ := List.mem_iff_getElem?.mp ha
  obtain ⟨j, hj⟩ := List.mem_iff_getElem?.mp hb
  have hij : i ≠ j := by
    intro h'
    subst h'
    rw [hi] at hj
    exact hne (Option.some.inj hj)
  exact ⟨ri, buildStopGraph_adds R ri r
    (List.mk_mem_enum_iff_getElem?.mpr hri) i j a b
    (List.mk_mem_enum_iff_getElem?.mpr hi)
    (List.mk_mem_enum_iff_getElem?.mpr hj) hij⟩

theorem cliqueChain_chain (R : List (List GridPos)) :
    ∀ (cs : List GridPos) (a b : GridPos), CliqueChain R a cs b →
      Chain (plannerNbrs (buildStopGraph R)) a cs b := by
  intro cs
  induction cs with
  | nil => intro a b h; exact h
  | cons c cs ih =>
    intro a b h
    obtain ⟨hsr, hrest⟩ := h
    obtain ⟨ri, hri⟩ := sharesRoute_adj R a c hsr
    exact ⟨⟨ri, hri⟩, ih c b hrest⟩

theorem lchain_legsOK (R : List (List GridPos)) :
    ∀ (cs : List GridPos) (ris : List ℕ) (a b : GridPos),
      LChain (plannerNbrs (buildStopGraph R)) a cs ris b →
      LegsOK R a cs ris := by
  intro cs
  induction cs with
  | nil =>
    intro ris a b h
    cases ris with
    | nil => trivial
    | cons ri ris => exact False.elim h
  | cons c cs ih =>
    intro ris a b h
    cases ris with
    | nil => exact False.elim h
    | cons ri ris =>
      obtain ⟨hmem, hrest⟩ := h
      obtain ⟨stops, h1, h2, h3⟩ := graphOK_build R a c ri hmem
      exact ⟨⟨stops, h1, h2, h3⟩, ih ris c b hrest⟩

theorem plannerNbrs_closed (R : List (List GridPos)) (o : GridPos) :
    ∀ x ∈ R.flatten.toFinset ∪ {o}, ∀ w lab,
      (w, lab) ∈ plannerNbrs (buildStopGraph R) x →
      w ∈ R.flatten.toFinset ∪ {o} := by
  intro x _ w ri h
  obtain ⟨stops, h1, _, h3⟩ := graphOK_build R x w ri h
  have hstops : stops ∈ R := by
    have hlt : ri < R.length := by
      by_contra hge
      push_neg at hge
      rw [List.getElem?_eq_none hge] at h1
      exact Option.noConfusion h1
    rw [List.getElem?_eq_getElem hlt, Option.some.injEq] at h1
    exact h1 ▸ List.getElem_mem (l := R) (n := ri) hlt
  exact Finset.mem_union_left _
    (List.mem_toFinset.mpr (List.mem_flatten.mpr ⟨stops, hstops, h3⟩))

theorem planner_domain_card (R : List (List GridPos)) (o : GridPos) :
    (R.flatten.toFinset ∪ {o}).card ≤ R.flatten.length + 1 := by
  refine le_trans (Finset.card_union_le _ _) ?_
  have h := List.toFinset_card_le R.flatten
  simp only [Finset.card_singleton]
  omega

/-- Core guarantee of `planTrip` at distinct, clique-connected stops. -/
theorem planTrip_found (R : List (List GridPos)) (o d : GridPos)
    (cs : List GridPos) (hne : o ≠ d) (hcc : CliqueChain R o cs d) :
    ∃ plan cs', planTrip o d R = some plan ∧
      plan.stops = o :: cs' ∧
      cs'.length = plan.routes.length ∧
      1 ≤ plan.routes.length ∧
      plan.totalTransfers = plan.routes.length - 1 ∧
      LegsOK R o cs' plan.routes ∧
      Chain (plannerNbrs (buildStopGraph R)) o cs' d ∧
      ∀ cs₂, CliqueChain R o cs₂ d → plan.routes.length ≤ cs₂.length := by
  have hchain := cliqueChain_chain R cs o d hcc
  have hreach : Reaches (plannerNbrs (buildStopGraph R)) o d cs.length :=
    ⟨cs, hchain, rfl⟩
  have hstart : o ∈ R.flatten.toFinset ∪ {o} :=
    Finset.mem_union_right _ (Finset.mem_singleton_self o)
  have hclosed := plannerNbrs_closed R o
  have hfuel : 2 * (R.flatten.toFinset ∪ {o}).card + 2 ≤ planTripFuel R := by
    have := planner_domain_card R o
    simp only [planTripFuel]
    omega
  obtain ⟨e, he⟩ := bfsRun_complete hstart hclosed hreach hfuel
  obtain ⟨hnode, ⟨cs', hlch, hpath⟩, hdist⟩ := bfsRun_sound hstart hclosed he
  obtain ⟨hch, hlen⟩ := lchain_to_chain cs' e.labels o d hlch
  refine ⟨⟨e.path, e.labels, e.labels.length - 1⟩, cs', ?_, ?_, hlen, ?_, rfl,
    lchain_legsOK R cs' e.labels o d hlch, hch, ?_⟩
  · unfold planTrip
    rw [if_neg hne, he]
  · rw [hpath]; rfl
  · show 1 ≤ e.labels.length
    by_contra h0
    push_neg at h0
    have h00 : e.labels.length = 0 := by omega
    have hz : Reaches (plannerNbrs (buildStopGraph R)) o d 0 := h00 ▸ hdist.1
    exact hne ((reaches_zero_iff _ o d).mp hz)
  · intro cs₂ hcc₂
    exact hdist.2 cs₂.length ⟨cs₂, cliqueChain_chain R cs₂ o d hcc₂, rfl⟩

/-- **C3**: over the clique model (every pair of stops on a common route is
adjacent), for distinct connected stops `planTrip` returns a plan whose legs
each ride one route, whose `totalTransfers` is its number of legs minus one,
and which no clique-model walk undercuts in leg count; two distinct stops
sharing a route get a one-leg zero-transfer plan; equal origin/destination
gets the zero-leg trivial plan. -/
theorem C3_planTrip_minimum_legs (R : List (List GridPos)) (o d : GridPos) :
    (∀ cs, o ≠ d → CliqueChain R o cs d →
      ∃ plan cs', planTrip o d R = some plan ∧
        plan.stops = o :: cs' ∧ cs'.length = plan.routes.length ∧
        1 ≤ plan.routes.length ∧
        plan.totalTransfers = plan.routes.length - 1 ∧
        LegsOK R o cs' plan.routes ∧
        ∀ cs₂, CliqueChain R o cs₂ d → plan.routes.length ≤ cs₂.length) ∧
    (SharesRoute R o d →
      ∃ plan, planTrip o d R = some plan ∧ plan.stops = [o, d] ∧
        plan.routes.length = 1 ∧ plan.totalTransfers = 0) ∧
    planTrip o o R = some ⟨[o], [], 0⟩ := by
  refine ⟨?_, ?_, ?_⟩
  · intro cs hne hcc
    obtain ⟨plan, cs', h1, h2, h3, h4, h5, h6, _, h8⟩ :=
      planTrip_found R o d cs hne hcc
    exact ⟨plan, cs', h1, h2, h3, h4, h5, h6, h8⟩
  · intro hsr
    have hne := hsr.1
    have hcc : CliqueChain R o [d] d := ⟨hsr, rfl⟩
    obtain ⟨plan, cs', h1, h2, h3, h4, h5, h6, h7, h8⟩ :=
      planTrip_found R o d [d] hne hcc
    have hle : plan.routes.length ≤ 1 := h8 [d] hcc
    have hlen1 : plan.routes.length = 1 := le_antisymm hle h4
    have hcs1 : cs'.length = 1 := by rw [h3, hlen1]
    obtain ⟨x, hx⟩ := List.length_eq_one.mp hcs1
    subst hx
    have hxd : x = d := h7.2
    subst hxd
    refine ⟨plan, h1, by rw [h2], hlen1, by rw [h5, hlen1]⟩
  · simp [planTrip]

/-- Witness for C3 at a concrete two-route network. -/
theorem C3_planTrip_minimum_legs_witness :
    ∃ plan, planTrip (0, 0) (1, 0) [[(0, 0), (1, 0)]] = some plan ∧
      plan.stops = [(0, 0), (1, 0)] ∧ plan.routes.length = 1 ∧
      plan.totalTransfers = 0 := by
  have h := (C3_planTrip_minimum_legs [[(0, 0), (1, 0)]] (0, 0) (1, 0)).2.1
  exact h ⟨by decide, [(0, 0), (1, 0)], by simp, by decide, by decide⟩

/-! ## PathfindingManager (src/pathfinding/PathfindingManager.ts) -/

/-- The four 4-connected step offsets in the source's order
(up, right, down, left). -/
def gridDirs : List (ℤ × ℤ) := [(0, -1), (1, 0), (0, 1), (-1, 0)]

/-- The bounds test `newX >= 0 && newX < COLS && newY >= 0 && newY < ROWS`. -/
def inGrid (c : GridPos) : Prop :=
  0 ≤ c.1 ∧ c.1 < COLS ∧ 0 ≤ c.2 ∧ c.2 < ROWS

instance (c : GridPos) : Decidable (inGrid c) := by
  unfold inGrid
  infer_instance

/-- Cells the grid BFS may enqueue from `c`: 4-adjacent, in bounds and road
(`this.cityGrid[newY][newX] === ZoneType.ROAD` is modelled by the predicate
`isRoad`); the `!visited` test lives in the shared `bfsEnqueue`. -/
def gridNbrs (isRoad : GridPos → Bool) (c : GridPos) : List (GridPos × Unit) :=
  gridDirs.filterMap (fun d =>
    let w : GridPos := (c.1 + d.1, c.2 + d.2)
    if inGrid w ∧ isRoad w then some (w, ()) else none)

/-- `Math.round(v / GRID_SIZE)` for both coordinates. -/
def toGridCell (x y : ℚ) : GridPos :=
  (jsRound (x / GRID_SIZE), jsRound (y / GRID_SIZE))

/-- Enough iterations for the grid BFS: at most `60 * 60` road cells plus the
(possibly off-grid or non-road) start cell can ever be enqueued, and
`2 * 3601 + 2 = 7204` covers the loop's termination measure
(`bfsLoop_complete`).  The TS `while` loop has no explicit bound. -/
def gridFuel : ℕ := 7204

/-- `PathfindingManager.bfsPathfinding`: round both endpoints to grid cells,
short-circuit equal cells, otherwise BFS over road cells; on success the
returned waypoints are the path cells scaled by `GRID_SIZE` followed by the
exact `end` point, on failure the single exact `end` point. -/
def bfsPathfinding (isRoad : GridPos → Bool) (startX startY endX endY : ℚ) :
    List Point :=
  if toGridCell startX startY = toGridCell endX endY then [(endX, endY)]
  else
    match bfsRun (gridNbrs isRoad) (toGridCell startX startY)
        (toGridCell endX endY) [] gridFuel with
    | some e =>
        e.path.map (fun p => ((p.1 : ℚ) * GRID_SIZE, (p.2 : ℚ) * GRID_SIZE)) ++
          [(endX, endY)]
    | none => [(endX, endY)]

/-- A road walk from `a`: each step moves to a 4-adjacent, in-bounds road
cell (the start cell itself need not be road — the source never tests it). -/
def RoadPath (isRoad : GridPos → Bool) : GridPos → List GridPos → GridPos → Prop
  | a, [], b => a = b
  | a, c :: cs, b =>
      ((c.1 - a.1, c.2 - a.2) ∈ gridDirs ∧ inGrid c ∧ isRoad c = true) ∧
        RoadPath isRoad c cs b

theorem adj_gridNbrs (isRoad : GridPos → Bool) (a c : GridPos) :
    Adj (gridNbrs isRoad) a c ↔
      ((c.1 - a.1, c.2 - a.2) ∈ gridDirs ∧ inGrid c ∧ isRoad c = true) := by
  constructor
  · rintro ⟨lab, hmem⟩
    obtain ⟨d, hd, hf⟩ := List.mem_filterMap.mp hmem
    by_cases hc : inGrid (a.1 + d.1, a.2 + d.2) ∧ isRoad (a.1 + d.1, a.2 + d.2)
    · rw [if_pos hc] at hf
      have hceq : c = (a.1 + d.1, a.2 + d.2) :=
        (congrArg Prod.fst (Option.some.inj hf)).symm
      have hc1 : c.1 = a.1 + d.1 := by rw [hceq]
      have hc2 : c.2 = a.2 + d.2 := by rw [hceq]
      refine ⟨?_, hceq ▸ hc.1, hceq ▸ hc.2⟩
      have : (c.1 - a.1, c.2 - a.2) = d := by
        rw [hc1, hc2]
        exact Prod.ext (by ring) (by ring)
      rwa [this]
    · rw [if_neg hc] at hf
      exact Option.noConfusion hf
  · rintro ⟨hd, hin, hr⟩
    refine ⟨(), List.mem_filterMap.mpr ⟨(c.1 - a.1, c.2 - a.2), hd, ?_⟩⟩
    have hw : (a.1 + (c.1 - a.1), a.2 + (c.2 - a.2)) = c :=
      Prod.ext (by ring) (by ring)
    rw [show ((a.1 + (c.1 - a.1), a.2 + (c.2 - a.2)) : GridPos) = c from hw]
    rw [if_pos ⟨hin, hr⟩]

theorem roadPath_iff_chain (isRoad : GridPos → Bool) :
    ∀ (cs : List GridPos) (a b : GridPos),
      RoadPath isRoad a cs b ↔ Chain (gridNbrs isRoad) a cs b := by
  intro cs
  induction cs with
  | nil => intro a b; exact Iff.rfl
  | cons c cs ih =>
    intro a b
    constructor
    · rintro ⟨hstep, hrest⟩
      exact ⟨(adj_gridNbrs isRoad a c).mpr hstep, (ih c b).mp hrest⟩
    · rintro ⟨hadj, hrest⟩
      exact ⟨(adj_gridNbrs isRoad a c).mp hadj, (ih c b).mpr hrest⟩

/-- The BFS domain for the grid: all in-bounds cells plus the start cell. -/
def gridDomain (startG : GridPos) : Finset GridPos :=
  (Finset.Icc (0 : ℤ) 59 ×ˢ Finset.Icc (0 : ℤ) 59) ∪ {startG}

theorem gridNbrs_closed (isRoad : GridPos → Bool) (startG : GridPos) :
    ∀ x ∈ gridDomain startG, ∀ w lab, (w, lab) ∈ gridNbrs isRoad x →
      w ∈ gridDomain startG := by
  intro x _ w lab hmem
  obtain ⟨d, hd, hf⟩ := List.mem_filterMap.mp hmem
  by_cases hc : inGrid (x.1 + d.1, x.2 + d.2) ∧ isRoad (x.1 + d.1, x.2 + d.2)
  · rw [if_pos hc] at hf
    have hw : w = (x.1 + d.1, x.2 + d.2) :=
      (congrArg Prod.fst (Option.some.inj hf)).symm
    obtain ⟨h1, h2, h3, h4⟩ := hc.1
    apply Finset.mem_union_left
    rw [Finset.mem_product]
    constructor
    · rw [Finset.mem_Icc]
      constructor
      · exact hw ▸ h1
      · have := hw ▸ h2
        simp only [COLS] at this
        omega
    · rw [Finset.mem_Icc]
      constructor
      · exact hw ▸ h3
      · have := hw ▸ h4
        simp only [ROWS] at this
        omega
  · rw [if_neg hc] at hf
    exact Option.noConfusion hf

theorem gridDomain_card (startG : GridPos) :
    (gridDomain startG).card ≤ 3601 := by
  refine le_trans (Finset.card_union_le _ _) ?_
  rw [Finset.card_product, Finset.card_singleton]
  rw [Int.card_Icc]
  simp

/-- **C4**: whenever start and end round to distinct grid cells joined by a
road walk, `bfsPathfinding` returns the scaled cells of a minimum-hop road
walk from the start cell to the end cell followed by the exact end point —
and no road walk with fewer hops exists. -/
theorem C4_bfsPathfinding_minimum_hops (isRoad : GridPos → Bool)
    (startX startY endX endY : ℚ)
    (hne : toGridCell startX startY ≠ toGridCell endX endY)
    (cs : List GridPos)
    (hpath : RoadPath isRoad (toGridCell startX startY) cs
      (toGridCell endX endY)) :
    ∃ cs', RoadPath isRoad (toGridCell startX startY) cs'
        (toGridCell endX endY) ∧
      bfsPathfinding isRoad startX startY endX endY =
        cs'.map (fun p => ((p.1 : ℚ) * GRID_SIZE, (p.2 : ℚ) * GRID_SIZE)) ++
          [(endX, endY)] ∧
      ∀ cs₂, RoadPath isRoad (toGridCell startX startY) cs₂
          (toGridCell endX endY) → cs'.length ≤ cs₂.length := by
  set startG := toGridCell startX startY with hsG
  set endG := toGridCell endX endY with heG
  have hchain := (roadPath_iff_chain isRoad cs startG endG).mp hpath
  have hreach : Reaches (gridNbrs isRoad) startG endG cs.length :=
    ⟨cs, hchain, rfl⟩
  have hstart : startG ∈ gridDomain startG :=
    Finset.mem_union_right _ (Finset.mem_singleton_self startG)
  have hclosed := gridNbrs_closed isRoad startG
  have hfuel : 2 * (gridDomain startG).card + 2 ≤ gridFuel := by
    have := gridDomain_card startG
    simp only [gridFuel]
    omega
  obtain ⟨e, he⟩ := bfsRun_complete hstart hclosed hreach hfuel
  obtain ⟨hnode, ⟨cs', hlch, hpath'⟩, hdist⟩ := bfsRun_sound hstart hclosed he
  obtain ⟨hch, hlen⟩ := lchain_to_chain cs' e.labels startG endG hlch
  refine ⟨cs', (roadPath_iff_chain isRoad cs' startG endG).mpr hch, ?_, ?_⟩
  · unfold bfsPathfinding
    rw [← hsG, ← heG, if_neg hne, he]
    simp [hpath']
  · intro cs₂ hcs₂
    have := hdist.2 cs₂.length
      ⟨cs₂, (roadPath_iff_chain isRoad cs₂ startG endG).mp hcs₂, rfl⟩
    omega

/-- Helper for C4's witness: a 2-cell straight road. -/
def demoRoad : GridPos → Bool := fun c =>
  decide (c = (1, 0)) || decide (c = (2, 0))

theorem jsRound_zero_div : jsRound (0 / GRID_SIZE) = 0 := by
  unfold jsRound GRID_SIZE
  rw [Int.floor_eq_iff]
  norm_num

theorem jsRound_sixty_div : jsRound (60 / GRID_SIZE) = 2 := by
  unfold jsRound GRID_SIZE
  rw [Int.floor_eq_iff]
  norm_num

/-- Witness for C4 on a concrete 2-step road. -/
theorem C4_bfsPathfinding_minimum_hops_witness :
    ∃ cs', RoadPath demoRoad (toGridCell 0 0) cs' (toGridCell 60 0) ∧
      bfsPathfinding demoRoad 0 0 60 0 =
        cs'.map (fun p => ((p.1 : ℚ) * GRID_SIZE, (p.2 : ℚ) * GRID_SIZE)) ++
          [(60, 0)] ∧
      ∀ cs₂, RoadPath demoRoad (toGridCell 0 0) cs₂ (toGridCell 60 0) →
        cs'.length ≤ cs₂.length := by
  have h00 : toGridCell 0 0 = (0, 0) := by
    unfold toGridCell
    rw [jsRound_zero_div]
  have h60 : toGridCell 60 0 = (2, 0) := by
    unfold toGridCell
    rw [jsRound_sixty_div, jsRound_zero_div]
  refine C4_bfsPathfinding_minimum_hops demoRoad 0 0 60 0 ?_ [(1, 0), (2, 0)] ?_
  · rw [h00, h60]
    decide
  · rw [h00, h60]
    refine ⟨⟨?_, ?_, ?_⟩, ⟨?_, ?_, ?_⟩, rfl⟩ <;> decide

/-! ## PathCache (src/pathfinding/PathCache.ts) and the cached `findPath` -/

/-- `PATH_CACHE_SIZE` from src/config/constants.ts. -/
def PATH_CACHE_SIZE : ℕ := 500

/-- A cache entry: the stored path and the insertion timestamp (never used
for expiry — capacity-based eviction only). -/
structure CacheEntry where
  path : List Point
  timestamp : ℚ

/-- The key `` `${startX},${startY}->${endX},${endY}` `` is injective in the
four coordinates, so it is modelled as the coordinate quadruple. -/
abbrev CacheKey := (ℚ × ℚ) × (ℚ × ℚ)

/-- `PathCache`: a JS `Map` (insertion-ordered association list) plus its
capacity. -/
structure PathCache where
  entries : List (CacheKey × CacheEntry)
  maxSize : ℕ

/-- `PathCache.get`: on a hit, delete and re-add the entry, moving it to the
end of the insertion order (the LRU refresh); on a miss return `null` and
leave the cache unchanged. -/
def cacheGet (c : PathCache) (k : CacheKey) :
    Option (List Point) × PathCache :=
  match jsMapGet c.entries k with
  | none => (none, c)
  | some entry =>
      (some entry.path,
        { c with entries :=
            c.entries.eraseP (fun p => decide (p.1 = k)) ++ [(k, entry)] })

/-- `PathCache.set`: when at capacity, delete the map's first key (the
least-recently-used entry; deleting the head entry of the insertion order
leaves the tail, and `keys().next().value` is undefined exactly when the map
is empty, where `tail` is also the identity), then `Map.set` the new entry
with the current timestamp. -/
def cacheSet (c : PathCache) (k : CacheKey) (path : List Point) (now : ℚ) :
    PathCache :=
  { c with entries :=
      (jsMapSet
        (if c.maxSize ≤ c.entries.length then c.entries.tail else c.entries)
        k ⟨path, now⟩) }

/-- `PathfindingManager`'s state: the road grid and the instance-owned
cache. -/
structure PFM where
  isRoad : GridPos → Bool
  cache : PathCache

/-- `PathfindingManager.findPath`: consult the cache; on a miss run
`bfsPathfinding` and store the result (the source's `cacheKey` and `path`
locals are inlined).  The middle component records whether the BFS actually
ran (for the search-invocation-counting property). -/
def PFM.findPath (m : PFM) (startX startY endX endY now : ℚ) :
    List Point × Bool × PFM :=
  match cacheGet m.cache ((startX, startY), (endX, endY)) with
  | (some cached, c') => (cached, false, { m with cache := c' })
  | (none, c') =>
      (bfsPathfinding m.isRoad startX startY endX endY, true,
        { m with cache := cacheSet c' ((startX, startY), (endX, endY)) (bfsPathfinding m.isRoad startX startY endX endY) now })

/-- `PathfindingManager.clearCache`. -/
def PFM.clearCache (m : PFM) : PFM :=
  { m with cache := { m.cache with entries := [] } }

/-- `PathfindingManager.updateCityGrid`: swap the grid and clear the cache
wholesale. -/
def PFM.updateCityGrid (m : PFM) (isRoad' : GridPos → Bool) : PFM :=
  ⟨isRoad', { m.cache with entries := [] }⟩

/-- Manager states reachable from construction (`new PathCache()` with the
default `PATH_CACHE_SIZE` capacity) through the public operations. -/
inductive PFMReach : PFM → Prop
  | init (isRoad : GridPos → Bool) : PFMReach ⟨isRoad, ⟨[], PATH_CACHE_SIZE⟩⟩
  | step (m : PFM) (sx sy ex ey now : ℚ) (h : PFMReach m) :
      PFMReach (m.findPath sx sy ex ey now).2.2
  | clear (m : PFM) (h : PFMReach m) : PFMReach m.clearCache
  | regen (m : PFM) (isRoad' : GridPos → Bool) (h : PFMReach m) :
      PFMReach (m.updateCityGrid isRoad')

/-- Well-formedness of a manager state: fixed capacity, unique keys, size
within capacity, and every stored path is the BFS answer for its key on the
current grid. -/
def CacheWF (m : PFM) : Prop :=
  m.cache.maxSize = PATH_CACHE_SIZE ∧
  (m.cache.entries.map (·.1)).Nodup ∧
  m.cache.entries.length ≤ m.cache.maxSize ∧
  ∀ k e, (k, e) ∈ m.cache.entries →
    e.path = bfsPathfinding m.isRoad k.1.1 k.1.2 k.2.1 k.2.2

theorem jsMapGet_mem [DecidableEq κ] {k : κ} {val : v} :
    ∀ {m : List (κ × v)}, jsMapGet m k = some val → (k, val) ∈ m := by
  intro m
  induction m with
  | nil => intro h; exact Option.noConfusion h
  | cons p rest ih =>
    intro h
    by_cases hp : p.1 = k
    · rw [jsMapGet, if_pos hp] at h
      have : p = (k, val) := by
        obtain ⟨p1, p2⟩ := p
        simp only at hp
        subst hp
        rw [Option.some.injEq] at h
        simpa using h
      exact this ▸ List.mem_cons_self _ _
    · rw [jsMapGet, if_neg hp] at h
      exact List.mem_cons_of_mem _ (ih h)

theorem jsMapGet_append [DecidableEq κ] (k : κ) :
    ∀ (l₁ l₂ : List (κ × v)),
      jsMapGet (l₁ ++ l₂) k =
        match jsMapGet l₁ k with
        | some x => some x
        | none => jsMapGet l₂ k := by
  intro l₁ l₂
  induction l₁ with
  | nil => rfl
  | cons p rest ih =>
    by_cases hp : p.1 = k
    · simp [jsMapGet, hp]
    · simpa [jsMapGet, hp] using ih

theorem jsMapGet_eq_none_of_all_ne [DecidableEq κ] (k : κ) :
    ∀ (m : List (κ × v)), (∀ p ∈ m, p.1 ≠ k) → jsMapGet m k = none := by
  intro m
  induction m with
  | nil => intro _; rfl
  | cons p rest ih =>
    intro h
    rw [jsMapGet, if_neg (h p (List.mem_cons_self _ _))]
    exact ih (fun q hq => h q (List.mem_cons_of_mem _ hq))

theorem jsMapGet_none_all_ne [DecidableEq κ] (k : κ) :
    ∀ (m : List (κ × v)), jsMapGet m k = none → ∀ p ∈ m, p.1 ≠ k := by
  intro m
  induction m with
  | nil => intro _ p hp; exact absurd hp (List.not_mem_nil p)
  | cons q rest ih =>
    intro h p hp
    by_cases hq : q.1 = k
    · rw [jsMapGet, if_pos hq] at h
      exact Option.noConfusion h
    · rw [jsMapGet, if_neg hq] at h
      rcases List.mem_cons.mp hp with h' | h'
      · exact h' ▸ hq
      · exact ih h p h'

theorem jsMapHas_eq_isSome [DecidableEq κ] (k : κ) :
    ∀ (m : List (κ × v)), jsMapHas m k = (jsMapGet m k).isSome := by
  intro m
  induction m with
  | nil => rfl
  | cons p rest ih =>
    by_cases hp : p.1 = k
    · simp [jsMapHas, jsMapGet, hp]
    · simpa [jsMapHas, jsMapGet, hp] using ih

theorem eraseP_key_ne [DecidableEq κ] (k : κ) :
    ∀ (m : List (κ × v)), (m.map (·.1)).Nodup →
      ∀ p ∈ m.eraseP (fun p => decide (p.1 = k)), p ∈ m ∧ (jsMapGet m k ≠ none → p.1 ≠ k) := by
  intro m
  induction m with
  | nil =>
    intro _ p hp
    simp [List.eraseP] at hp
  | cons q rest ih =>
    intro hnd p hp
    rw [List.map_cons, List.nodup_cons] at hnd
    by_cases hq : q.1 = k
    · rw [List.eraseP_cons_of_pos (by simpa using hq)] at hp
      refine ⟨List.mem_cons_of_mem _ hp, fun _ hpk => ?_⟩
      apply hnd.1
      have hmem : p.1 ∈ rest.map (·.1) := List.mem_map_of_mem (·.1) hp
      rwa [hpk, ← hq] at hmem
    · rw [List.eraseP_cons_of_neg (by simpa using hq)] at hp
      rcases List.mem_cons.mp hp with h' | h'
      · subst h'
        exact ⟨List.mem_cons_self _ _, fun _ => hq⟩
      · obtain ⟨hmem, hne⟩ := ih hnd.2 p h'
        refine ⟨List.mem_cons_of_mem _ hmem, fun hnn => hne ?_⟩
        rw [jsMapGet, if_neg hq] at hnn
        exact hnn

theorem length_eraseP_of_get [DecidableEq κ] (k : κ) {val : v} :
    ∀ (m : List (κ × v)), jsMapGet m k = some val →
      (m.eraseP (fun p => decide (p.1 = k))).length + 1 = m.length := by
  intro m
  induction m with
  | nil => intro h; exact Option.noConfusion h
  | cons q rest ih =>
    intro h
    by_cases hq : q.1 = k
    · rw [List.eraseP_cons_of_pos (by simpa using hq)]
      simp
    · rw [jsMapGet, if_neg hq] at h
      rw [List.eraseP_cons_of_neg (by simpa using hq)]
      simp only [List.length_cons]
      rw [ih h]

theorem keys_jsMapSet_of_has [DecidableEq κ] (k : κ) (val : v) :
    ∀ (m : List (κ × v)),
      ((m.map (fun p => if p.1 = k then (k, val) else p)).map (·.1)) =
        m.map (·.1) := by
  intro m
  induction m with
  | nil => rfl
  | cons p rest ih =>
    by_cases hp : p.1 = k
    · simp only [List.map_cons, if_pos hp, ih]
      rw [hp]
    · simp only [List.map_cons, if_neg hp, ih]

theorem jsMapSet_fresh [DecidableEq κ] (m : List (κ × v)) (k : κ) (val : v)
    (hfresh : ∀ p ∈ m, p.1 ≠ k) : jsMapSet m k val = m ++ [(k, val)] := by
  unfold jsMapSet
  rw [jsMapHas_eq_isSome, jsMapGet_eq_none_of_all_ne k m hfresh]
  simp

/-- Every reachable manager state is well-formed. -/
theorem pfmReach_wf (m : PFM) (h : PFMReach m) : CacheWF m := by
  induction h with
  | init isRoad =>
    exact ⟨rfl, by simp, by simp [PATH_CACHE_SIZE], fun k e hke => by simp at hke⟩
  | clear m _ ih =>
    exact ⟨ih.1, by simp [PFM.clearCache], by simp [PFM.clearCache],
      fun k e hke => by simp [PFM.clearCache] at hke⟩
  | regen m isRoad' _ ih =>
    exact ⟨ih.1, by simp [PFM.updateCityGrid], by simp [PFM.updateCityGrid],
      fun k e hke => by simp [PFM.updateCityGrid] at hke⟩
  | step m sx sy ex ey now _ ih =>
    obtain ⟨hmax, hnd, hlen, hval⟩ := ih
    unfold PFM.findPath
    cases hget : jsMapGet m.cache.entries ((sx, sy), (ex, ey)) with
    | some entry =>
      have hcg : cacheGet m.cache ((sx, sy), (ex, ey)) =
          (some entry.path,
            { m.cache with entries :=
                (m.cache.entries.eraseP fun p => decide (p.1 = ((sx, sy), (ex, ey)))) ++ [(((sx, sy), (ex, ey)), entry)] }) := by
        unfold cacheGet
        rw [hget]
      rw [hcg]
      refine ⟨hmax, ?_, ?_, ?_⟩
      · simp only [List.map_append]
        refine List.nodup_append.mpr ⟨?_, by simp, ?_⟩
        · exact hnd.sublist
            (List.Sublist.map (fun x : CacheKey × CacheEntry => x.1)
              (List.eraseP_sublist _))
        · intro a ha hb
          simp only [List.map_cons, List.map_nil, List.mem_singleton] at hb
          subst hb
          obtain ⟨p, hp, hpk⟩ := List.mem_map.mp ha
          exact (eraseP_key_ne _ m.cache.entries hnd p hp).2
            (by rw [hget]; exact fun hc => Option.noConfusion hc) hpk
      · simp only [List.length_append, List.length_cons, List.length_nil]
        have := length_eraseP_of_get _ m.cache.entries hget
        omega
      · intro k e hke
        simp only [List.mem_append, List.mem_singleton] at hke
        rcases hke with hke | hke
        · exact hval k e
            (List.Sublist.mem hke (List.eraseP_sublist _))
        · obtain ⟨hk1, hk2⟩ := Prod.mk.injEq .. ▸ hke
          subst hk1
          subst hk2
          exact hval _ _ (jsMapGet_mem hget)
    | none =>
      have hcg : cacheGet m.cache ((sx, sy), (ex, ey)) = (none, m.cache) := by
        unfold cacheGet
        rw [hget]
      rw [hcg]
      have hall : ∀ p ∈ m.cache.entries, p.1 ≠ ((sx, sy), (ex, ey)) :=
        jsMapGet_none_all_ne _ m.cache.entries hget
      have hes_sub : ∀ p ∈ (if m.cache.maxSize ≤ m.cache.entries.length then
          m.cache.entries.tail else m.cache.entries), p ∈ m.cache.entries := by
        intro p hp
        split at hp
        · exact (List.tail_sublist _).subset hp
        · exact hp
      show CacheWF ⟨m.isRoad, cacheSet m.cache ((sx, sy), (ex, ey)) (bfsPathfinding m.isRoad sx sy ex ey) now⟩
      unfold CacheWF cacheSet
      dsimp only
      rw [jsMapSet_fresh _ _ _ (fun p hp => hall p (hes_sub p hp))]
      refine ⟨hmax, ?_, ?_, ?_⟩
      · simp only [List.map_append]
        refine List.nodup_append.mpr ⟨?_, by simp, ?_⟩
        · split
          · exact hnd.sublist
              (List.Sublist.map (fun x : CacheKey × CacheEntry => x.1)
                (List.tail_sublist _))
          · exact hnd
        · intro a ha hb
          simp only [List.map_cons, List.map_nil, List.mem_singleton] at hb
          subst hb
          obtain ⟨p, hp, hpk⟩ := List.mem_map.mp ha
          exact hall p (hes_sub p hp) hpk
      · simp only [List.length_append, List.length_cons, List.length_nil]
        have hpos : 0 < PATH_CACHE_SIZE := by simp [PATH_CACHE_SIZE]
        split
        · next hfull =>
          have htl : m.cache.entries.tail.length = m.cache.entries.length - 1 :=
            List.length_tail _
          omega
        · next hnotfull =>
          push_neg at hnotfull
          omega
      · intro k e hke
        simp only [List.mem_append, List.mem_singleton] at hke
        rcases hke with hke | hke
        · exact hval k e (hes_sub _ hke)
        · obtain ⟨hk1, hk2⟩ := Prod.mk.injEq .. ▸ hke
          subst hk1
          subst hk2
          rfl

/-- `findPath` always returns exactly what an uncached `bfsPathfinding` run
would return, for any well-formed cache state. -/
theorem findPath_returns_bfs (m : PFM) (hwf : CacheWF m)
    (sx sy ex ey now : ℚ) :
    (m.findPath sx sy ex ey now).1 = bfsPathfinding m.isRoad sx sy ex ey := by
  obtain ⟨hmax, hnd, hlen, hval⟩ := hwf
  unfold PFM.findPath
  cases hget : jsMapGet m.cache.entries ((sx, sy), (ex, ey)) with
  | some entry =>
    have hcg : cacheGet m.cache ((sx, sy), (ex, ey)) =
        (some entry.path,
          { m.cache with entries :=
              (m.cache.entries.eraseP fun p => decide (p.1 = ((sx, sy), (ex, ey)))) ++ [(((sx, sy), (ex, ey)), entry)] }) := by
      unfold cacheGet
      rw [hget]
    rw [hcg]
    exact hval _ entry (jsMapGet_mem hget)
  | none =>
    have hcg : cacheGet m.cache ((sx, sy), (ex, ey)) = (none, m.cache) := by
      unfold cacheGet
      rw [hget]
    rw [hcg]

/-- After any `findPath` call its key is present, holding the returned path,
and the grid is unchanged. -/
theorem findPath_key_present (m : PFM) (hwf : CacheWF m)
    (sx sy ex ey now : ℚ) :
    ∃ entry : CacheEntry,
      jsMapGet (m.findPath sx sy ex ey now).2.2.cache.entries
        ((sx, sy), (ex, ey)) = some entry ∧
      entry.path = (m.findPath sx sy ex ey now).1 ∧
      (m.findPath sx sy ex ey now).2.2.isRoad = m.isRoad := by
  obtain ⟨hmax, hnd, hlen, hval⟩ := hwf
  unfold PFM.findPath
  cases hget : jsMapGet m.cache.entries ((sx, sy), (ex, ey)) with
  | some entry =>
    have hcg : cacheGet m.cache ((sx, sy), (ex, ey)) =
        (some entry.path,
          { m.cache with entries :=
              (m.cache.entries.eraseP fun p => decide (p.1 = ((sx, sy), (ex, ey)))) ++ [(((sx, sy), (ex, ey)), entry)] }) := by
      unfold cacheGet
      rw [hget]
    rw [hcg]
    refine ⟨entry, ?_, rfl, rfl⟩
    show jsMapGet
      ((m.cache.entries.eraseP fun p => decide (p.1 = ((sx, sy), (ex, ey)))) ++ [(((sx, sy), (ex, ey)), entry)]) ((sx, sy), (ex, ey)) = some entry
    rw [jsMapGet_append]
    rw [jsMapGet_eq_none_of_all_ne _ _ (fun p hp =>
      (eraseP_key_ne _ m.cache.entries hnd p hp).2
        (by rw [hget]; exact fun hc => Option.noConfusion hc))]
    simp [jsMapGet]
  | none =>
    have hcg : cacheGet m.cache ((sx, sy), (ex, ey)) = (none, m.cache) := by
      unfold cacheGet
      rw [hget]
    rw [hcg]
    refine ⟨⟨bfsPathfinding m.isRoad sx sy ex ey, now⟩, ?_, rfl, rfl⟩
    show jsMapGet
      (cacheSet m.cache ((sx, sy), (ex, ey)) (bfsPathfinding m.isRoad sx sy ex ey) now).entries ((sx, sy), (ex, ey)) = _
    unfold cacheSet
    dsimp only
    rw [jsMapGet_set]
    simp

/-- A `findPath` call whose key is cached returns the stored path without
running the search. -/
theorem findPath_hit (m : PFM) (sx sy ex ey now : ℚ) {entry : CacheEntry}
    (hget : jsMapGet m.cache.entries ((sx, sy), (ex, ey)) = some entry) :
    (m.findPath sx sy ex ey now).1 = entry.path ∧
    (m.findPath sx sy ex ey now).2.1 = false := by
  unfold PFM.findPath
  have hcg : cacheGet m.cache ((sx, sy), (ex, ey)) =
      (some entry.path,
        { m.cache with entries :=
            (m.cache.entries.eraseP fun p => decide (p.1 = ((sx, sy), (ex, ey)))) ++ [(((sx, sy), (ex, ey)), entry)] }) := by
    unfold cacheGet
    rw [hget]
  rw [hcg]
  exact ⟨rfl, rfl⟩

/-- **C9**: the cache is transparent (every `findPath` call returns the
uncached BFS answer), a repeated identical call returns the stored result
without running the search, the cache never exceeds its capacity of
`PATH_CACHE_SIZE` entries, a full cache evicts its least-recently-used
(first-ordered) entry on insertion, and a hit refreshes the entry to
most-recently-used position. -/
theorem C9_cache_transparent_bounded_lru (m : PFM) (hreach : PFMReach m) :
    (∀ sx sy ex ey now,
      (m.findPath sx sy ex ey now).1 = bfsPathfinding m.isRoad sx sy ex ey) ∧
    (∀ sx sy ex ey now now',
      ((m.findPath sx sy ex ey now).2.2.findPath sx sy ex ey now').1 =
        (m.findPath sx sy ex ey now).1 ∧
      ((m.findPath sx sy ex ey now).2.2.findPath sx sy ex ey now').2.1 =
        false) ∧
    m.cache.entries.length ≤ PATH_CACHE_SIZE ∧
    (∀ k path now, m.cache.entries.length = PATH_CACHE_SIZE →
      jsMapGet m.cache.entries k = none →
      (cacheSet m.cache k path now).entries =
        m.cache.entries.tail ++ [(k, ⟨path, now⟩)]) ∧
    (∀ k entry, jsMapGet m.cache.entries k = some entry →
      (cacheGet m.cache k).2.entries =
        (m.cache.entries.eraseP fun p => decide (p.1 = k)) ++ [(k, entry)]) := by
  have hwf := pfmReach_wf m hreach
  obtain ⟨hmax, hnd, hlen, hval⟩ := pfmReach_wf m hreach
  refine ⟨?_, ?_, ?_, ?_, ?_⟩
  · intro sx sy ex ey now
    exact findPath_returns_bfs m hwf sx sy ex ey now
  · intro sx sy ex ey now now'
    obtain ⟨entry, hkey, hpath, hroad⟩ := findPath_key_present m hwf sx sy ex ey now
    obtain ⟨h1, h2⟩ := findPath_hit _ sx sy ex ey now' hkey
    exact ⟨h1.trans hpath, h2⟩
  · rw [← hmax]
    exact hlen
  · intro k path now hfull hfresh
    have hall := jsMapGet_none_all_ne k m.cache.entries hfresh
    unfold cacheSet
    dsimp only
    rw [if_pos (by omega : m.cache.maxSize ≤ m.cache.entries.length)]
    exact jsMapSet_fresh _ _ _
      (fun p hp => hall p ((List.tail_sublist _).subset hp))
  · intro k entry hget
    unfold cacheGet
    rw [hget]

/-- No-road-path runs of the grid BFS return `none`. -/
theorem bfsRun_grid_none (isRoad : GridPos → Bool) (sG eG : GridPos)
    (hnone : ¬∃ cs, RoadPath isRoad sG cs eG) :
    bfsRun (gridNbrs isRoad) sG eG [] gridFuel = none := by
  cases hrun : bfsRun (gridNbrs isRoad) sG eG [] gridFuel with
  | none => rfl
  | some e =>
    exfalso
    obtain ⟨_, ⟨cs, hlch, _⟩, _⟩ := bfsRun_sound (D := gridDomain sG)
      (Finset.mem_union_right _ (Finset.mem_singleton_self _))
      (gridNbrs_closed isRoad sG) hrun
    exact hnone ⟨cs, (roadPath_iff_chain isRoad cs sG eG).mpr
      (lchain_to_chain cs e.labels sG eG hlch).1⟩

theorem bfsPathfinding_ends (isRoad : GridPos → Bool) (sx sy ex ey : ℚ) :
    ∃ pre, bfsPathfinding isRoad sx sy ex ey = pre ++ [(ex, ey)] := by
  unfold bfsPathfinding
  split
  · exact ⟨[], rfl⟩
  · split
    · next e _ => exact ⟨_, rfl⟩
    · exact ⟨[], rfl⟩

/-- **C5**: for every input and reachable manager state, `findPath` returns
a non-empty sequence ending in the exact `end` point; equal start/end cells
give exactly `[end]` (so `findPath(p, p) = [p]`), and a missing road path
degrades to the same `[end]` fallback rather than an error or empty
result. -/
theorem C5_findPath_nonempty_fallback (m : PFM) (hreach : PFMReach m)
    (sx sy ex ey now : ℚ) :
    (m.findPath sx sy ex ey now).1 ≠ [] ∧
    (∃ pre, (m.findPath sx sy ex ey now).1 = pre ++ [(ex, ey)]) ∧
    (toGridCell sx sy = toGridCell ex ey →
      (m.findPath sx sy ex ey now).1 = [(ex, ey)]) ∧
    ((¬∃ cs, RoadPath m.isRoad (toGridCell sx sy) cs (toGridCell ex ey)) →
      (m.findPath sx sy ex ey now).1 = [(ex, ey)]) := by
  have htr := findPath_returns_bfs m (pfmReach_wf m hreach) sx sy ex ey now
  rw [htr]
  obtain ⟨pre, hpre⟩ := bfsPathfinding_ends m.isRoad sx sy ex ey
  refine ⟨by rw [hpre]; simp, ⟨pre, hpre⟩, ?_, ?_⟩
  · intro hsame
    unfold bfsPathfinding
    rw [if_pos hsame]
  · intro hnone
    unfold bfsPathfinding
    split
    · rfl
    · rw [bfsRun_grid_none m.isRoad _ _ hnone]

/-- Witness for C9 at the freshly constructed manager. -/
theorem C9_cache_transparent_bounded_lru_witness :
    ((⟨demoRoad, ⟨[], PATH_CACHE_SIZE⟩⟩ : PFM).findPath 0 0 60 0 0).1 =
      bfsPathfinding demoRoad 0 0 60 0 ∧
    (⟨demoRoad, ⟨[], PATH_CACHE_SIZE⟩⟩ : PFM).cache.entries.length ≤
      PATH_CACHE_SIZE := by
  have h := C9_cache_transparent_bounded_lru ⟨demoRoad, ⟨[], PATH_CACHE_SIZE⟩⟩
    (PFMReach.init demoRoad)
  exact ⟨h.1 0 0 60 0 0, h.2.2.1⟩

/-- Witness for C5 at the freshly constructed manager: `findPath(p, p)` is
`[p]`. -/
theorem C5_findPath_nonempty_fallback_witness :
    ((⟨demoRoad, ⟨[], PATH_CACHE_SIZE⟩⟩ : PFM).findPath 7 7 7 7 0).1 =
      [(7, 7)] := by
  have h := C5_findPath_nonempty_fallback ⟨demoRoad, ⟨[], PATH_CACHE_SIZE⟩⟩
    (PFMReach.init demoRoad) 7 7 7 7 0
  exact h.2.2.1 rfl

/-! ## SpatialIndex (src/spatial/SpatialIndex.ts)

Stops are their grid coordinates (value identity), so the cell→stops
multimap keyed by `` `${stop.x},${stop.y}` `` maps a coordinate to the list
of stop occurrences at that coordinate. -/

/-- One `routes.forEach(route => route.stops.forEach(stop => ...))` body of
`rebuildIndex`: append the stop to its own cell's list. -/
def rebuildStep (g : List (GridPos × List GridPos)) (stop : GridPos) :
    List (GridPos × List GridPos) :=
  jsMapSet g stop ((jsMapGet g stop).getD [] ++ [stop])

/-- `SpatialIndex.rebuildIndex` (routes passed as their stop lists). -/
def rebuildIndex (routes : List (List GridPos)) :
    List (GridPos × List GridPos) :=
  routes.foldl (fun g route => route.foldl rebuildStep g) []

/-- The integers `lo, lo+1, …, hi` (the `for (let d = -radius; d <= radius;
d++)` iteration space). -/
def intRange (lo hi : ℤ) : List ℤ :=
  (List.range (hi + 1 - lo).toNat).map (fun k : ℕ => lo + (k : ℤ))

/-- The innermost body of `getStopsInRadius`: keep only the ring perimeter
(`Math.abs(dx) === radius || Math.abs(dy) === radius`), check bounds, and
collect the cell's stops. -/
def ringCellStep (idx : List (GridPos × List GridPos)) (centerX centerY : ℤ)
    (radius : ℕ) (dx : ℤ) (stops : List GridPos) (dy : ℤ) : List GridPos :=
  if |dx| = (radius : ℤ) ∨ |dy| = (radius : ℤ) then
    if 0 ≤ centerX + dx ∧ centerX + dx < COLS ∧
        0 ≤ centerY + dy ∧ centerY + dy < ROWS then
      stops ++ (jsMapGet idx (centerX + dx, centerY + dy)).getD []
    else stops
  else stops

/-- `SpatialIndex.getStopsInRadius`. -/
def getStopsInRadius (idx : List (GridPos × List GridPos))
    (centerX centerY : ℤ) (radius : ℕ) : List GridPos :=
  if radius = 0 then (jsMapGet idx (centerX, centerY)).getD []
  else
    (intRange (-(radius : ℤ)) radius).foldl (fun stops dx =>
      (intRange (-(radius : ℤ)) radius).foldl
        (ringCellStep idx centerX centerY radius dx) stops) []

/-- The pixel position of a stop, `(stop.x * GRID_SIZE, stop.y *
GRID_SIZE)`. -/
def stopPixel (s : GridPos) : Point :=
  ((s.1 : ℚ) * GRID_SIZE, (s.2 : ℚ) * GRID_SIZE)

/-- One comparison step of `SpatialIndex.findClosest` (`dist < minDist`);
`minDist` starts at `Infinity`, modelled by the `none` accumulator (cf. the
squared-distance convention in the file header). -/
def closestStep (q : Point) (acc : Option (GridPos × ℚ)) (stop : GridPos) :
    Option (GridPos × ℚ) :=
  match acc with
  | none => some (stop, distSq q (stopPixel stop))
  | some (best, bestD) =>
      if distSq q (stopPixel stop) < bestD then
        some (stop, distSq q (stopPixel stop))
      else some (best, bestD)

/-- `SpatialIndex.findClosest`. -/
def findClosest (stops : List GridPos) (q : Point) : Option GridPos :=
  (stops.foldl (closestStep q) none).map (·.1)

/-- `Math.ceil(Math.sqrt(COLS * COLS + ROWS * ROWS)) = ⌈√7200⌉ = 85`
(`84² = 7056 < 7200 ≤ 85² = 7225`). -/
def maxRadius : ℕ := 85

/-- The `for (let radius = 0; radius < maxRadius; radius++)` loop of
`findNearestStop`, with `remaining` iterations left. -/
def searchRadius (idx : List (GridPos × List GridPos)) (center : GridPos)
    (q : Point) : ℕ → ℕ → Option GridPos
  | _, 0 => none
  | r, remaining + 1 =>
    if 0 < (getStopsInRadius idx center.1 center.2 r).length then
      findClosest (getStopsInRadius idx center.1 center.2 r) q
    else searchRadius idx center q (r + 1) remaining

/-- `SpatialIndex.findNearestStop`. -/
def findNearestStop (idx : List (GridPos × List GridPos))
    (pixelX pixelY : ℚ) : Option GridPos :=
  if pixelX < 0 ∨ pixelY < 0 ∨ (COLS : ℚ) * GRID_SIZE ≤ pixelX ∨
      (COLS : ℚ) * GRID_SIZE ≤ pixelY then none
  else
    searchRadius idx
      (jsRound (pixelX / GRID_SIZE), jsRound (pixelY / GRID_SIZE))
      (pixelX, pixelY) 0 maxRadius

/-- Chebyshev distance between grid cells. -/
def chebDist (a b : GridPos) : ℕ :=
  max (a.1 - b.1).natAbs (a.2 - b.2).natAbs

/-! ### Characterisation of the ring search -/

theorem mem_intRange (lo hi z : ℤ) : z ∈ intRange lo hi ↔ lo ≤ z ∧ z ≤ hi := by
  unfold intRange
  rw [List.mem_map]
  constructor
  · rintro ⟨k, hk, rfl⟩
    rw [List.mem_range] at hk
    omega
  · rintro ⟨h1, h2⟩
    refine ⟨(z - lo).toNat, ?_, ?_⟩
    · rw [List.mem_range]
      omega
    · omega

theorem mem_ringCellStep (idx : List (GridPos × List GridPos))
    (cX cY : ℤ) (r : ℕ) (dx : ℤ) (stops : List GridPos) (dy : ℤ)
    (s : GridPos) :
    s ∈ ringCellStep idx cX cY r dx stops dy ↔
      s ∈ stops ∨
      ((|dx| = (r : ℤ) ∨ |dy| = (r : ℤ)) ∧
        (0 ≤ cX + dx ∧ cX + dx < COLS ∧ 0 ≤ cY + dy ∧ cY + dy < ROWS) ∧
        s ∈ (jsMapGet idx (cX + dx, cY + dy)).getD []) := by
  unfold ringCellStep
  split
  · next hperim =>
    split
    · next hbounds =>
      rw [List.mem_append]
      tauto
    · next hbounds => tauto
  · next hperim => tauto

theorem mem_ring_fold_inner (idx : List (GridPos × List GridPos))
    (cX cY : ℤ) (r : ℕ) (dx : ℤ) :
    ∀ (dys : List ℤ) (stops : List GridPos) (s : GridPos),
      s ∈ dys.foldl (ringCellStep idx cX cY r dx) stops ↔
        s ∈ stops ∨ ∃ dy ∈ dys,
          (|dx| = (r : ℤ) ∨ |dy| = (r : ℤ)) ∧
          (0 ≤ cX + dx ∧ cX + dx < COLS ∧ 0 ≤ cY + dy ∧ cY + dy < ROWS) ∧
          s ∈ (jsMapGet idx (cX + dx, cY + dy)).getD [] := by
  intro dys
  induction dys with
  | nil => intro stops s; simp
  | cons dy dys ih =>
    intro stops s
    rw [List.foldl_cons, ih, mem_ringCellStep]
    constructor
    · rintro ((h | h) | ⟨dy', hdy', h⟩)
      · exact Or.inl h
      · exact Or.inr ⟨dy, List.mem_cons_self _ _, h⟩
      · exact Or.inr ⟨dy', List.mem_cons_of_mem _ hdy', h⟩
    · rintro (h | ⟨dy', hdy', h⟩)
      · exact Or.inl (Or.inl h)
      · rcases List.mem_cons.mp hdy' with heq | hmem
        · subst heq
          exact Or.inl (Or.inr h)
        · exact Or.inr ⟨dy', hmem, h⟩

theorem mem_ring_fold_outer (idx : List (GridPos × List GridPos))
    (cX cY : ℤ) (r : ℕ) :
    ∀ (dxs : List ℤ) (stops : List GridPos) (s : GridPos),
      s ∈ dxs.foldl (fun stops dx =>
          (intRange (-(r : ℤ)) r).foldl
            (ringCellStep idx cX cY r dx) stops) stops ↔
        s ∈ stops ∨ ∃ dx ∈ dxs, ∃ dy : ℤ, -(r : ℤ) ≤ dy ∧ dy ≤ r ∧
          (|dx| = (r : ℤ) ∨ |dy| = (r : ℤ)) ∧
          (0 ≤ cX + dx ∧ cX + dx < COLS ∧ 0 ≤ cY + dy ∧ cY + dy < ROWS) ∧
          s ∈ (jsMapGet idx (cX + dx, cY + dy)).getD [] := by
  intro dxs
  induction dxs with
  | nil => intro stops s; simp
  | cons dx dxs ih =>
    intro stops s
    rw [List.foldl_cons, ih, mem_ring_fold_inner]
    constructor
    · rintro ((h | ⟨dy, hdy, h⟩) | ⟨dx', hdx', dy, hdy1, hdy2, h⟩)
      · exact Or.inl h
      · obtain ⟨hdy1, hdy2⟩ := (mem_intRange _ _ dy).mp hdy
        exact Or.inr ⟨dx, List.mem_cons_self _ _, dy, hdy1, hdy2, h⟩
      · exact Or.inr ⟨dx', List.mem_cons_of_mem _ hdx', dy, hdy1, hdy2, h⟩
    · rintro (h | ⟨dx', hdx', dy, hdy1, hdy2, h⟩)
      · exact Or.inl (Or.inl h)
      · rcases List.mem_cons.mp hdx' with heq | hmem
        · subst heq
          exact Or.inl (Or.inr ⟨dy, (mem_intRange _ _ dy).mpr ⟨hdy1, hdy2⟩, h⟩)
        · exact Or.inr ⟨dx', hmem, dy, hdy1, hdy2, h⟩

theorem mem_getStopsInRadius (idx : List (GridPos × List GridPos))
    (cX cY : ℤ) (r : ℕ) (s : GridPos) :
    s ∈ getStopsInRadius idx cX cY r ↔
      (r = 0 ∧ s ∈ (jsMapGet idx (cX, cY)).getD []) ∨
      (0 < r ∧ ∃ dx dy : ℤ, -(r : ℤ) ≤ dx ∧ dx ≤ r ∧ -(r : ℤ) ≤ dy ∧ dy ≤ r ∧
        (|dx| = (r : ℤ) ∨ |dy| = (r : ℤ)) ∧
        (0 ≤ cX + dx ∧ cX + dx < COLS ∧ 0 ≤ cY + dy ∧ cY + dy < ROWS) ∧
        s ∈ (jsMapGet idx (cX + dx, cY + dy)).getD []) := by
  unfold getStopsInRadius
  split
  · next hr0 =>
    subst hr0
    simp
  · next hr0 =>
    rw [mem_ring_fold_outer]
    constructor
    · rintro (h | ⟨dx, hdx, dy, hdy1, hdy2, h3, h4, h5⟩)
      · simp at h
      · obtain ⟨hdx1, hdx2⟩ := (mem_intRange _ _ dx).mp hdx
        exact Or.inr ⟨by omega, dx, dy, hdx1, hdx2, hdy1, hdy2, h3, h4, h5⟩
    · rintro (⟨h, _⟩ | ⟨_, dx, dy, hdx1, hdx2, hdy1, hdy2, h3, h4, h5⟩)
      · exact absurd h hr0
      · exact Or.inr ⟨dx, (mem_intRange _ _ dx).mpr ⟨hdx1, hdx2⟩, dy,
          hdy1, hdy2, h3, h4, h5⟩

/-- Index soundness: every stored stop sits under its own coordinate key and
comes from the routes. -/
def IdxOK (routes : List (List GridPos))
    (g : List (GridPos × List GridPos)) : Prop :=
  ∀ c s, s ∈ (jsMapGet g c).getD [] → s = c ∧ s ∈ routes.flatten

theorem rebuildStep_get (g : List (GridPos × List GridPos))
    (stop c : GridPos) :
    (jsMapGet (rebuildStep g stop) c).getD [] =
      if c = stop then (jsMapGet g stop).getD [] ++ [stop]
      else (jsMapGet g c).getD [] := by
  unfold rebuildStep
  rw [jsMapGet_set]
  split
  · rfl
  · rfl

theorem idxOK_build (routes : List (List GridPos)) :
    IdxOK routes (rebuildIndex routes) := by
  unfold rebuildIndex
  refine foldl_preserve (P := IdxOK routes) ?_ ?_
  · intro c s hs
    simp [jsMapGet] at hs
  · intro g route hroute hok
    refine foldl_preserve hok ?_
    intro g' stop hstop hok'
    intro c s hs
    rw [rebuildStep_get] at hs
    split at hs
    · next heq =>
      rcases List.mem_append.mp hs with h | h
      · obtain ⟨h1, h2⟩ := hok' stop s h
        exact ⟨heq ▸ h1, h2⟩
      · rw [List.mem_singleton] at h
        subst h
        exact ⟨heq.symm, List.mem_flatten.mpr ⟨route, hroute, hstop⟩⟩
    · exact hok' c s hs

theorem foldl_rebuildStep_mono (c s : GridPos) :
    ∀ (stops : List GridPos) (g : List (GridPos × List GridPos)),
      s ∈ (jsMapGet g c).getD [] →
      s ∈ (jsMapGet (stops.foldl rebuildStep g) c).getD [] := by
  intro stops
  induction stops with
  | nil => intro g h; exact h
  | cons st stops ih =>
    intro g h
    rw [List.foldl_cons]
    refine ih _ ?_
    rw [rebuildStep_get]
    split
    · next heq => exact List.mem_append_left _ (heq ▸ h)
    · exact h

theorem foldl_routes_mono (c s : GridPos) :
    ∀ (rts : List (List GridPos)) (g : List (GridPos × List GridPos)),
      s ∈ (jsMapGet g c).getD [] →
      s ∈ (jsMapGet (rts.foldl (fun g route => route.foldl rebuildStep g) g) c).getD [] := by
  intro rts
  induction rts with
  | nil => intro g h; exact h
  | cons rt rts ih =>
    intro g h
    rw [List.foldl_cons]
    exact ih _ (foldl_rebuildStep_mono c s rt g h)

/-- Index completeness: every stop of the routes is stored under its own
coordinate. -/
theorem idx_adds (routes : List (List GridPos)) (c : GridPos)
    (hc : c ∈ routes.flatten) :
    c ∈ (jsMapGet (rebuildIndex routes) c).getD [] := by
  obtain ⟨route, hroute, hcr⟩ := List.mem_flatten.mp hc
  unfold rebuildIndex
  obtain ⟨l₁, l₂, hsplit⟩ := List.append_of_mem hroute
  rw [hsplit, List.foldl_append, List.foldl_cons]
  refine foldl_routes_mono c c l₂ _ ?_
  obtain ⟨m₁, m₂, hsplit2⟩ := List.append_of_mem hcr
  rw [hsplit2, List.foldl_append, List.foldl_cons]
  refine foldl_rebuildStep_mono c c m₂ _ ?_
  rw [rebuildStep_get, if_pos rfl]
  exact List.mem_append_right _ (List.mem_singleton.mpr rfl)

theorem closestStep_some (q : Point) (b : GridPos) (d : ℚ) (stop : GridPos) :
    closestStep q (some (b, d)) stop =
      if distSq q (stopPixel stop) < d then
        some (stop, distSq q (stopPixel stop))
      else some (b, d) := rfl

theorem closestStep_fold (q : Point) :
    ∀ (stops : List GridPos) (b : GridPos),
      ∃ s, stops.foldl (closestStep q) (some (b, distSq q (stopPixel b))) =
          some (s, distSq q (stopPixel s)) ∧
        (s = b ∨ s ∈ stops) ∧
        distSq q (stopPixel s) ≤ distSq q (stopPixel b) ∧
        ∀ s' ∈ stops, distSq q (stopPixel s) ≤ distSq q (stopPixel s') := by
  intro stops
  induction stops with
  | nil =>
    intro b
    exact ⟨b, rfl, Or.inl rfl, le_refl _, by simp⟩
  | cons c cs ih =>
    intro b
    rw [List.foldl_cons, closestStep_some]
    split
    · next hlt =>
      obtain ⟨s, heq, hmem, hle, hall⟩ := ih c
      refine ⟨s, heq, ?_, ?_, ?_⟩
      · rcases hmem with h | h
        · exact Or.inr (h ▸ List.mem_cons_self _ _)
        · exact Or.inr (List.mem_cons_of_mem _ h)
      · exact le_trans hle (le_of_lt hlt)
      · intro s' hs'
        rcases List.mem_cons.mp hs' with h | h
        · exact h ▸ hle
        · exact hall s' h
    · next hnlt =>
      push_neg at hnlt
      obtain ⟨s, heq, hmem, hle, hall⟩ := ih b
      refine ⟨s, heq, ?_, hle, ?_⟩
      · rcases hmem with h | h
        · exact Or.inl h
        · exact Or.inr (List.mem_cons_of_mem _ h)
      · intro s' hs'
        rcases List.mem_cons.mp hs' with h | h
        · exact h ▸ le_trans hle hnlt
        · exact hall s' h

/-- `findClosest` on a non-empty candidate list returns a candidate at
minimum (squared) distance. -/
theorem findClosest_spec (stops : List GridPos) (q : Point)
    (hne : stops ≠ []) :
    ∃ s, findClosest stops q = some s ∧ s ∈ stops ∧
      ∀ s' ∈ stops, distSq q (stopPixel s) ≤ distSq q (stopPixel s') := by
  cases stops with
  | nil => exact absurd rfl hne
  | cons c cs =>
    obtain ⟨s, heq, hmem, hle, hall⟩ := closestStep_fold q cs c
    refine ⟨s, ?_, ?_, ?_⟩
    · unfold findClosest
      rw [List.foldl_cons]
      rw [show closestStep q none c = some (c, distSq q (stopPixel c)) from rfl]
      rw [heq]
      rfl
    · rcases hmem with h | h
      · exact h ▸ List.mem_cons_self _ _
      · exact List.mem_cons_of_mem _ h
    · intro s' hs'
      rcases List.mem_cons.mp hs' with h | h
      · exact h ▸ hle
      · exact hall s' h

/-- The radius loop returns the closest stop of the first non-empty ring,
provided some ring within reach is non-empty. -/
theorem searchRadius_finds (idx : List (GridPos × List GridPos))
    (center : GridPos) (q : Point) :
    ∀ (remaining r₀ : ℕ),
      (∃ r, r₀ ≤ r ∧ r < r₀ + remaining ∧
        getStopsInRadius idx center.1 center.2 r ≠ []) →
      ∃ s r, r₀ ≤ r ∧ r < r₀ + remaining ∧
        searchRadius idx center q r₀ remaining = some s ∧
        (∀ r', r₀ ≤ r' → r' < r →
          getStopsInRadius idx center.1 center.2 r' = []) ∧
        s ∈ getStopsInRadius idx center.1 center.2 r ∧
        ∀ s' ∈ getStopsInRadius idx center.1 center.2 r,
          distSq q (stopPixel s) ≤ distSq q (stopPixel s') := by
  intro remaining
  induction remaining with
  | zero =>
    rintro r₀ ⟨r, h1, h2, _⟩
    omega
  | succ remaining ih =>
    intro r₀ hex
    by_cases hr₀ : getStopsInRadius idx center.1 center.2 r₀ = []
    · have hstep : searchRadius idx center q r₀ (remaining + 1) =
          searchRadius idx center q (r₀ + 1) remaining := by
        show (if 0 < (getStopsInRadius idx center.1 center.2 r₀).length then
            findClosest (getStopsInRadius idx center.1 center.2 r₀) q
          else searchRadius idx center q (r₀ + 1) remaining) =
          searchRadius idx center q (r₀ + 1) remaining
        rw [if_neg (by simp [hr₀])]
      obtain ⟨r, hr1, hr2, hr3⟩ := hex
      have hrne : r ≠ r₀ := fun h => hr3 (h ▸ hr₀)
      obtain ⟨s, r', ha, hb, hc, hd, he, hf⟩ :=
        ih (r₀ + 1) ⟨r, by omega, by omega, hr3⟩
      refine ⟨s, r', by omega, by omega, hstep ▸ hc, ?_, he, hf⟩
      intro r'' h1 h2
      by_cases h : r'' = r₀
      · exact h ▸ hr₀
      · exact hd r'' (by omega) h2
    · have hlen : 0 < (getStopsInRadius idx center.1 center.2 r₀).length :=
        List.length_pos.mpr hr₀
      have hstep : searchRadius idx center q r₀ (remaining + 1) =
          findClosest (getStopsInRadius idx center.1 center.2 r₀) q := by
        show (if 0 < (getStopsInRadius idx center.1 center.2 r₀).length then
            findClosest (getStopsInRadius idx center.1 center.2 r₀) q
          else searchRadius idx center q (r₀ + 1) remaining) =
          findClosest (getStopsInRadius idx center.1 center.2 r₀) q
        rw [if_pos hlen]
      obtain ⟨s, hfc, hmem, hmin⟩ := findClosest_spec _ q hr₀
      exact ⟨s, r₀, le_refl _, by omega, hstep ▸ hfc,
        fun r' h1 h2 => absurd h1 (by omega), hmem, hmin⟩

/-- The radius loop finds nothing when every ring is empty. -/
theorem searchRadius_empty (idx : List (GridPos × List GridPos))
    (center : GridPos) (q : Point)
    (hempty : ∀ r, getStopsInRadius idx center.1 center.2 r = []) :
    ∀ (remaining r₀ : ℕ), searchRadius idx center q r₀ remaining = none := by
  intro remaining
  induction remaining with
  | zero => intro r₀; rfl
  | succ remaining ih =>
    intro r₀
    show (if 0 < (getStopsInRadius idx center.1 center.2 r₀).length then
        findClosest (getStopsInRadius idx center.1 center.2 r₀) q
      else searchRadius idx center q (r₀ + 1) remaining) = none
    rw [if_neg (by simp [hempty r₀])]
    exact ih (r₀ + 1)

/-- The rounded grid cell of an in-bounds pixel coordinate lies in
`[0, 60]`. -/
theorem jsRound_cell_range {px : ℚ} (h0 : 0 ≤ px)
    (h1 : px < (COLS : ℚ) * GRID_SIZE) :
    0 ≤ jsRound (px / GRID_SIZE) ∧ jsRound (px / GRID_SIZE) ≤ 60 := by
  have hCG : (COLS : ℚ) * GRID_SIZE = 1800 := by
    norm_num [COLS, GRID_SIZE]
  rw [hCG] at h1
  unfold jsRound GRID_SIZE
  constructor
  · apply Int.floor_nonneg.mpr
    have : (0 : ℚ) ≤ px / 30 := by positivity
    linarith
  · have hlt : px / 30 < 60 := by
      rw [div_lt_iff₀ (by norm_num : (0 : ℚ) < 30)]
      linarith
    have h61 : px / 30 + 1 / 2 < ((61 : ℤ) : ℚ) := by
      push_cast
      linarith
    have := Int.floor_lt.mpr h61
    omega

/-- Ring membership over a rebuilt index is exactly flatten-membership at
the given Chebyshev distance (for in-bounds stops and a center cell in
`[0, 60]²`). -/
theorem ring_char (routes : List (List GridPos))
    (hin : ∀ s ∈ routes.flatten, inGrid s) (c : GridPos)
    (hc : 0 ≤ c.1 ∧ c.1 ≤ 60 ∧ 0 ≤ c.2 ∧ c.2 ≤ 60) (r : ℕ) (s : GridPos) :
    s ∈ getStopsInRadius (rebuildIndex routes) c.1 c.2 r ↔
      (s ∈ routes.flatten ∧ chebDist s c = r) := by
  rw [mem_getStopsInRadius]
  constructor
  · rintro (⟨hr0, hcell⟩ | ⟨hrpos, dx, dy, h1, h2, h3, h4, hperim, hbounds, hcell⟩)
    · obtain ⟨hsc, hsf⟩ := idxOK_build routes _ s hcell
      subst hr0
      refine ⟨hsf, ?_⟩
      rw [hsc]
      simp [chebDist]
    · obtain ⟨hsc, hsf⟩ := idxOK_build routes _ s hcell
      refine ⟨hsf, ?_⟩
      rw [hsc]
      unfold chebDist
      simp only
      rw [Int.abs_eq_natAbs, Int.abs_eq_natAbs] at hperim
      have e1 : c.1 + dx - c.1 = dx := by ring
      have e2 : c.2 + dy - c.2 = dy := by ring
      rw [e1, e2]
      omega
  · rintro ⟨hsf, hcheb⟩
    have hsin := hin s hsf
    unfold inGrid COLS ROWS at hsin
    by_cases hr0 : r = 0
    · subst hr0
      left
      have hs_eq : s = (c.1, c.2) := by
        unfold chebDist at hcheb
        obtain ⟨s1, s2⟩ := s
        simp only at hcheb ⊢
        have h1 : (s1 - c.1).natAbs = 0 := by omega
        have h2 : (s2 - c.2).natAbs = 0 := by omega
        have e1 : s1 - c.1 = 0 := Int.natAbs_eq_zero.mp h1
        have e2 : s2 - c.2 = 0 := Int.natAbs_eq_zero.mp h2
        refine Prod.ext ?_ ?_
        · show s1 = c.1
          omega
        · show s2 = c.2
          omega
      exact ⟨rfl, hs_eq ▸ idx_adds routes s hsf⟩
    · right
      unfold chebDist at hcheb
      rw [show s = (c.1 + (s.1 - c.1), c.2 + (s.2 - c.2)) from
        Prod.ext (by ring) (by ring)] at hsf ⊢
      refine ⟨by omega, s.1 - c.1, s.2 - c.2, by omega, by omega, by omega,
        by omega, ?_, ?_, ?_⟩
      · rw [Int.abs_eq_natAbs, Int.abs_eq_natAbs]
        omega
      · unfold COLS ROWS
        constructor
        · omega
        constructor
        · omega
        constructor
        · omega
        · omega
      · exact idx_adds routes _ hsf

/-- **C6**: `findNearestStop` snaps the query to its grid cell, scans
Chebyshev rings of radius 0, 1, 2, … (bounded by the grid diagonal) and
returns a stop of minimum true Euclidean distance among the stops of the
first non-empty ring; out-of-bounds queries and an empty index yield
`null`. -/
theorem C6_findNearestStop_ring_search (routes : List (List GridPos))
    (hin : ∀ s ∈ routes.flatten, inGrid s) (px py : ℚ) :
    ((px < 0 ∨ py < 0 ∨ (COLS : ℚ) * GRID_SIZE ≤ px ∨
        (COLS : ℚ) * GRID_SIZE ≤ py) →
      findNearestStop (rebuildIndex routes) px py = none) ∧
    (¬(px < 0 ∨ py < 0 ∨ (COLS : ℚ) * GRID_SIZE ≤ px ∨
        (COLS : ℚ) * GRID_SIZE ≤ py) →
      (routes.flatten = [] →
        findNearestStop (rebuildIndex routes) px py = none) ∧
      (routes.flatten ≠ [] →
        ∃ s r, findNearestStop (rebuildIndex routes) px py = some s ∧
          s ∈ routes.flatten ∧
          chebDist s (toGridCell px py) = r ∧
          (∀ s' ∈ routes.flatten, r ≤ chebDist s' (toGridCell px py)) ∧
          (∀ s' ∈ routes.flatten, chebDist s' (toGridCell px py) = r →
            distSq (px, py) (stopPixel s) ≤ distSq (px, py) (stopPixel s')))) := by
  constructor
  · intro h
    unfold findNearestStop
    rw [if_pos h]
  · intro h
    have hng := h
    push_neg at h
    obtain ⟨h1, h2, h3, h4⟩ := h
    have hcx := jsRound_cell_range h1 h3
    have hcy := jsRound_cell_range h2 h4
    have hfind : findNearestStop (rebuildIndex routes) px py =
        searchRadius (rebuildIndex routes) (toGridCell px py) (px, py) 0
          maxRadius := by
      unfold findNearestStop toGridCell
      rw [if_neg hng]
    have hcenter : 0 ≤ (toGridCell px py).1 ∧ (toGridCell px py).1 ≤ 60 ∧
        0 ≤ (toGridCell px py).2 ∧ (toGridCell px py).2 ≤ 60 :=
      ⟨hcx.1, hcx.2, hcy.1, hcy.2⟩
    constructor
    · intro hempty
      rw [hfind]
      apply searchRadius_empty
      intro r
      rw [List.eq_nil_iff_forall_not_mem]
      intro s hs
      obtain ⟨hsf, _⟩ :=
        (ring_char routes hin (toGridCell px py) hcenter r s).mp hs
      rw [hempty] at hsf
      exact absurd hsf (List.not_mem_nil s)
    · intro hne
      obtain ⟨s₀, hs₀⟩ := List.exists_mem_of_ne_nil routes.flatten hne
      have hcheb_bound : chebDist s₀ (toGridCell px py) ≤ 60 := by
        have hsin := hin s₀ hs₀
        unfold inGrid COLS ROWS at hsin
        unfold chebDist
        refine Nat.max_le.mpr ⟨?_, ?_⟩
        · omega
        · omega
      have hring₀ : getStopsInRadius (rebuildIndex routes)
          (toGridCell px py).1 (toGridCell px py).2
          (chebDist s₀ (toGridCell px py)) ≠ [] := by
        intro hnil
        have hm := (ring_char routes hin (toGridCell px py) hcenter _
          s₀).mpr ⟨hs₀, rfl⟩
        rw [hnil] at hm
        exact absurd hm (List.not_mem_nil s₀)
      obtain ⟨s, r, ha, hb, hc, hd, he, hf⟩ :=
        searchRadius_finds (rebuildIndex routes) (toGridCell px py) (px, py)
          maxRadius 0
          ⟨chebDist s₀ (toGridCell px py), Nat.zero_le _,
            by unfold maxRadius; omega, hring₀⟩
      obtain ⟨hsf, hscheb⟩ :=
        (ring_char routes hin (toGridCell px py) hcenter r s).mp he
      refine ⟨s, r, ?_, hsf, hscheb, ?_, ?_⟩
      · rw [hfind]
        exact hc
      · intro s' hs'
        by_contra hlt
        push_neg at hlt
        have hmem := (ring_char routes hin (toGridCell px py) hcenter _
          s').mpr ⟨hs', rfl⟩
        rw [hd (chebDist s' (toGridCell px py)) (Nat.zero_le _) hlt] at hmem
        exact absurd hmem (List.not_mem_nil s')
      · intro s' hs' hcheb'
        exact hf s' ((ring_char routes hin (toGridCell px py) hcenter r
          s').mpr ⟨hs', hcheb'⟩)

/-- Witness for C6 on a concrete two-stop index and an in-bounds query. -/
theorem C6_findNearestStop_ring_search_witness :
    ∃ s r,
      findNearestStop (rebuildIndex [[(3, 3), (10, 10)]]) 100 100 = some s ∧
      s ∈ ([[(3, 3), (10, 10)]] : List (List GridPos)).flatten ∧
      chebDist s (toGridCell 100 100) = r ∧
      (∀ s' ∈ ([[(3, 3), (10, 10)]] : List (List GridPos)).flatten,
        r ≤ chebDist s' (toGridCell 100 100)) ∧
      (∀ s' ∈ ([[(3, 3), (10, 10)]] : List (List GridPos)).flatten,
        chebDist s' (toGridCell 100 100) = r →
          distSq (100, 100) (stopPixel s) ≤ distSq (100, 100) (stopPixel s')) := by
  have h := (C6_findNearestStop_ring_search [[(3, 3), (10, 10)]]
    (by decide) 100 100).2
  refine (h ?_).2 (by simp)
  push_neg
  refine ⟨by norm_num, by norm_num, ?_, ?_⟩
  · norm_num [COLS, GRID_SIZE]
  · norm_num [COLS, GRID_SIZE]

/-! ## Entity model (src/types/entities.ts)

`id`, `name`, `originZone` and the walking path/cursor are omitted: none of
the embedded operations below reads or writes them. -/

inductive NpcState
  | walking
  | waiting
  | traveling
  | arrived
deriving DecidableEq, Repr

/-- `NPC.plannedRoute`. -/
structure PlannedRoute where
  stops : List GridPos
  routes : List ℕ
  currentStopIndex : ℕ
deriving DecidableEq, Repr

/-- A zone rectangle in grid units (src/types/city.ts); only the geometry
consumed by `getDestinationCenter` is kept. -/
structure Zone where
  x : ℚ
  y : ℚ
  w : ℚ
  h : ℚ
deriving DecidableEq, Repr

structure NPC where
  x : ℚ
  y : ℚ
  state : NpcState
  waitTime : ℚ
  transportStartTime : Option ℚ
  nearestStop : Option GridPos
  atStop : Bool
  destinationZone : Zone
  destinationStop : Option GridPos
  finalDestinationStop : Option GridPos
  transferCount : ℕ
  maxTransfersWarned : Bool
  plannedRoute : Option PlannedRoute
deriving DecidableEq, Repr

structure Bus where
  x : ℚ
  y : ℚ
  currentStopIndex : ℕ
  passengers : List NPC
  path : List Point
  pathIndex : ℕ
  angle : ℚ
  stoppedAtStop : Bool
  stopTimer : ℚ
  currentSpeed : ℚ
deriving DecidableEq, Repr

structure Route where
  stops : List GridPos
  buses : List Bus
  color : String
deriving DecidableEq, Repr

/-! ## GameEngine route/bus operations (src/core/GameEngine.ts) -/

/-- Constants from src/config/constants.ts. -/
def MAX_ROUTES : ℕ := 8

def ROUTE_COST : ℚ := 500

def BUS_COST : ℚ := 300

def STARTING_MONEY : ℚ := 5000

def ROUTE_COLORS : List String :=
  ["#ff4444", "#44ff44", "#4444ff", "#ffff44",
   "#ff44ff", "#44ffff", "#ff8844", "#8844ff"]

/-- `GameEngine.addRoute`: guarded by the route cap and the cost of a route
plus its initial bus; on success pushes a route with exactly one bus.  The
result is (routes, money, succeeded). -/
def addRoute (routes : List Route) (money : ℚ) : List Route × ℚ × Bool :=
  if MAX_ROUTES ≤ routes.length then (routes, money, false)
  else if money < ROUTE_COST + BUS_COST then (routes, money, false)
  else
    (routes ++
      [{ stops := [],
         buses := [⟨0, 0, 0, [], [], 0, 0, false, 0, 0⟩],
         color := ROUTE_COLORS.getD (routes.length % ROUTE_COLORS.length) "" }],
      money - (ROUTE_COST + BUS_COST), true)

/-- `GameEngine.addBusToRoute`: index/cap/cost guards, then push a new bus
positioned at an evenly distributed stop. -/
def addBusToRoute (routes : List Route) (money : ℚ) (routeIndex : ℤ) :
    List Route × ℚ × Bool :=
  if routeIndex < 0 ∨ (routes.length : ℤ) ≤ routeIndex then
    (routes, money, false)
  else
    match routes.get? routeIndex.toNat with
    | none => (routes, money, false)
    | some route =>
      if 10 ≤ route.buses.length then (routes, money, false)
      else if money < BUS_COST then (routes, money, false)
      else
        let busCount := route.buses.length
        let stopCount := route.stops.length
        let ssi0 := busCount * stopCount / (busCount + 1)
        let startStopIndex :=
          if 0 < stopCount then
            if stopCount ≤ ssi0 then stopCount - 1 else ssi0
          else 0
        let startStop := route.stops.get? startStopIndex
        (routes.set routeIndex.toNat
          { route with buses := route.buses ++
              [{ x := match startStop with
                   | some s => (s.1 : ℚ) * 30 + 15
                   | none => 0,
                 y := match startStop with
                   | some s => (s.2 : ℚ) * 30 + 15
                   | none => 0,
                 currentStopIndex := startStopIndex, passengers := [],
                 path := [], pathIndex := 0, angle := 0,
                 stoppedAtStop := false, stopTimer := 0,
                 currentSpeed := 0 }] },
          money - BUS_COST, true)

/-- The passenger reset applied by `removeBusFromRoute` to each passenger of
the removed bus: force-return to waiting with no stop reference. -/
def resetPassenger (p : NPC) : NPC :=
  { p with
    state := .waiting, waitTime := 0, nearestStop := none,
    atStop := false, destinationStop := none, finalDestinationStop := none }

/-- `GameEngine.removeBusFromRoute`: refuses on a bad index or when the
route has at most one bus; otherwise pops the last bus and force-returns its
passengers.  In the source the reset mutates NPC objects shared with
`state.npcs`; the model returns the reset passengers as the second
component. -/
def removeBusFromRoute (routes : List Route) (routeIndex : ℤ) :
    List Route × List NPC :=
  if routeIndex < 0 ∨ (routes.length : ℤ) ≤ routeIndex then (routes, [])
  else
    match routes.get? routeIndex.toNat with
    | none => (routes, [])
    | some route =>
      if route.buses.length ≤ 1 then (routes, [])
      else
        match route.buses.getLast? with
        | none => (routes, [])
        | some removed =>
          (routes.set routeIndex.toNat
              { route with buses := route.buses.dropLast },
            removed.passengers.map resetPassenger)

/-- `GameEngine.deleteRoute` (on the active route index). -/
def deleteRoute (routes : List Route) (activeRouteIndex : ℕ) : List Route :=
  if routes.length = 0 then routes
  else routes.eraseIdx activeRouteIndex

/-- Engine states (routes, money) reachable from construction
(`routes: []`, `STARTING_MONEY`) through the route/bus operations. -/
inductive EngineReach : List Route × ℚ → Prop
  | init : EngineReach ([], STARTING_MONEY)
  | add (s : List Route × ℚ) (h : EngineReach s) :
      EngineReach ((addRoute s.1 s.2).1, (addRoute s.1 s.2).2.1)
  | addBus (s : List Route × ℚ) (ri : ℤ) (h : EngineReach s) :
      EngineReach ((addBusToRoute s.1 s.2 ri).1, (addBusToRoute s.1 s.2 ri).2.1)
  | removeBus (s : List Route × ℚ) (ri : ℤ) (h : EngineReach s) :
      EngineReach ((removeBusFromRoute s.1 ri).1, s.2)
  | delRoute (s : List Route × ℚ) (i : ℕ) (h : EngineReach s) :
      EngineReach (deleteRoute s.1 i, s.2)

/-- Bus-count invariant: every route holds at least one bus. -/
def BusInv (routes : List Route) : Prop :=
  ∀ route ∈ routes, 1 ≤ route.buses.length

lemma addRoute_cases (routes : List Route) (money : ℚ) :
    ((addRoute routes money).1 = routes ∧ (addRoute routes money).2.2 = false) ∨
    ∃ nr, (addRoute routes money).1 = routes ++ [nr] ∧ nr.buses.length = 1 ∧
      (addRoute routes money).2.2 = true := by
  unfold addRoute
  split
  · exact Or.inl ⟨rfl, rfl⟩
  split
  · exact Or.inl ⟨rfl, rfl⟩
  · exact Or.inr ⟨_, rfl, rfl, rfl⟩

lemma addBusToRoute_cases (routes : List Route) (money : ℚ) (ri : ℤ) :
    (addBusToRoute routes money ri).1 = routes ∨
    ∃ route nb, routes.get? ri.toNat = some route ∧
      (addBusToRoute routes money ri).1 =
        routes.set ri.toNat { route with buses := route.buses ++ [nb] } := by
  unfold addBusToRoute
  split
  · exact Or.inl rfl
  split
  · exact Or.inl rfl
  next route heq =>
    split
    · exact Or.inl rfl
    split
    · exact Or.inl rfl
    · exact Or.inr ⟨route, _, heq, rfl⟩

lemma removeBus_cases (routes : List Route) (ri : ℤ) :
    (removeBusFromRoute routes ri).1 = routes ∨
    ∃ route, routes.get? ri.toNat = some route ∧ 2 ≤ route.buses.length ∧
      (removeBusFromRoute routes ri).1 =
        routes.set ri.toNat { route with buses := route.buses.dropLast } := by
  unfold removeBusFromRoute
  split
  · exact Or.inl rfl
  split
  · exact Or.inl rfl
  next route heq =>
    split
    · exact Or.inl rfl
    next hgt =>
      split
      · exact Or.inl rfl
      · exact Or.inr ⟨route, heq, by omega, rfl⟩

lemma busInv_addRoute (routes : List Route) (money : ℚ) (h : BusInv routes) :
    BusInv (addRoute routes money).1 := by
  rcases addRoute_cases routes money with ⟨he, -⟩ | ⟨nr, he, hlen, -⟩
  · rw [he]; exact h
  · rw [he]
    intro route hr
    rcases List.mem_append.mp hr with hl | hr2
    · exact h route hl
    · rw [List.mem_singleton.mp hr2, hlen]

lemma busInv_addBus (routes : List Route) (money : ℚ) (ri : ℤ)
    (h : BusInv routes) : BusInv (addBusToRoute routes money ri).1 := by
  rcases addBusToRoute_cases routes money ri with he | ⟨route, nb, -, he⟩
  · rw [he]; exact h
  · rw [he]
    intro r hr
    rcases List.mem_or_eq_of_mem_set hr with hl | rfl
    · exact h r hl
    · simp

lemma busInv_removeBus (routes : List Route) (ri : ℤ) (h : BusInv routes) :
    BusInv (removeBusFromRoute routes ri).1 := by
  rcases removeBus_cases routes ri with he | ⟨route, -, hlen, he⟩
  · rw [he]; exact h
  · rw [he]
    intro r hr
    rcases List.mem_or_eq_of_mem_set hr with hl | rfl
    · exact h r hl
    · show 1 ≤ route.buses.dropLast.length
      rw [List.length_dropLast]
      omega

lemma busInv_deleteRoute (routes : List Route) (i : ℕ) (h : BusInv routes) :
    BusInv (deleteRoute routes i) := by
  unfold deleteRoute
  split
  · exact h
  · exact fun route hr => h route ((List.eraseIdx_sublist routes i).subset hr)

/-- **C10**: every route reachable through the engine operations holds at
least one bus: `addRoute` only succeeds by appending a route with exactly one
bus, `addBusToRoute` never shrinks any route's bus list, and
`removeBusFromRoute` on a route with at most one bus is a state-preserving
no-op. -/
theorem C10_route_always_has_bus :
    (∀ s, EngineReach s → ∀ route ∈ s.1, 1 ≤ route.buses.length) ∧
    (∀ routes money, (addRoute routes money).2.2 = true →
      ∃ newRoute, (addRoute routes money).1 = routes ++ [newRoute] ∧
        newRoute.buses.length = 1) ∧
    (∀ routes money ri i r r', routes.get? i = some r →
      (addBusToRoute routes money ri).1.get? i = some r' →
        r.buses.length ≤ r'.buses.length) ∧
    (∀ routes ri route, routes.get? ri.toNat = some route →
      route.buses.length ≤ 1 → removeBusFromRoute routes ri = (routes, [])) := by
  refine ⟨?_, ?_, ?_, ?_⟩
  · intro s hs
    induction hs with
    | init => intro route hr; exact absurd hr (List.not_mem_nil route)
    | add s h ih => exact busInv_addRoute s.1 s.2 ih
    | addBus s ri h ih => exact busInv_addBus s.1 s.2 ri ih
    | removeBus s ri h ih => exact busInv_removeBus s.1 ri ih
    | delRoute s i h ih => exact busInv_deleteRoute s.1 i ih
  · intro routes money hok
    rcases addRoute_cases routes money with ⟨-, hf⟩ | ⟨nr, he, hlen, -⟩
    · rw [hok] at hf; exact absurd hf (by simp)
    · exact ⟨nr, he, hlen⟩
  · intro routes money ri i r r' hget hget'
    rcases addBusToRoute_cases routes money ri with he | ⟨route, nb, hgr, he⟩
    · rw [he, hget] at hget'
      rw [Option.some.inj hget']
    · rw [he] at hget'
      by_cases hi : i = ri.toNat
      · subst hi
        rw [hget] at hgr
        have hrr : r = route := Option.some.inj hgr
        have hlt : ri.toNat < routes.length := (List.get?_eq_some.mp hget).1
        rw [List.get?_eq_getElem?,
          List.getElem?_set_self (by simpa using hlt)] at hget'
        rw [← Option.some.inj hget', hrr]
        simp
      · rw [List.get?_eq_getElem?, List.getElem?_set_ne (fun hc => hi hc.symm),
          ← List.get?_eq_getElem?, hget] at hget'
        rw [Option.some.inj hget']
  · intro routes ri route hget hle
    unfold removeBusFromRoute
    split
    · rfl
    · rw [hget]
      simp only [hle, if_pos]

/-- Witness for C10: from a fresh engine, `addRoute` yields a state whose
single route carries one bus, and removing that route's sole bus is refused. -/
theorem C10_route_always_has_bus_witness :
    (∀ route ∈ (addRoute [] STARTING_MONEY).1, 1 ≤ route.buses.length) ∧
    removeBusFromRoute (addRoute [] STARTING_MONEY).1 0 =
      ((addRoute [] STARTING_MONEY).1, []) := by
  constructor
  · exact C10_route_always_has_bus.1 _
      (EngineReach.add ([], STARTING_MONEY) EngineReach.init)
  · have haddr : (addRoute [] STARTING_MONEY).1 =
        [{ stops := [], buses := [⟨0, 0, 0, [], [], 0, 0, false, 0, 0⟩],
           color := "#ff4444" }] := by
      unfold addRoute
      norm_num [MAX_ROUTES, STARTING_MONEY, ROUTE_COST, BUS_COST, ROUTE_COLORS]
    exact C10_route_always_has_bus.2.2.2 (addRoute [] STARTING_MONEY).1 0
      { stops := [], buses := [⟨0, 0, 0, [], [], 0, 0, false, 0, 0⟩],
        color := "#ff4444" }
      (by rw [haddr]; rfl) (by decide)

/-! ## C2: removing a bus that carries passengers -/

def demoZone : Zone := ⟨0, 0, 2, 2⟩

/-- A passenger currently riding a bus. -/
def demoTraveler : NPC :=
  { x := 45, y := 15, state := .traveling, waitTime := 3,
    transportStartTime := some 1, nearestStop := none, atStop := false,
    destinationZone := demoZone, destinationStop := some (5, 5),
    finalDestinationStop := some (5, 5), transferCount := 1,
    maxTransfersWarned := false, plannedRoute := none }

def demoLoadedBus : Bus := ⟨45, 15, 0, [demoTraveler], [], 0, 0, false, 0, 0⟩

def demoIdleBus : Bus := ⟨15, 15, 0, [], [], 0, 0, false, 0, 0⟩

/-- A route whose sole bus carries a passenger. -/
def demoSoloRoute : Route := ⟨[(1, 0), (5, 5)], [demoLoadedBus], "#ff4444"⟩

/-- A route with two buses; the last-listed one carries a passenger. -/
def demoDuoRoute : Route :=
  ⟨[(1, 0), (5, 5)], [demoIdleBus, demoLoadedBus], "#44ff44"⟩

/-- **C2** (counterexample): the claim asserts that `removeBusFromRoute`
removes the bus and resets its passengers even when it is the route's sole
bus.  On a route whose single bus carries a traveling passenger, the call is
a complete no-op: the bus stays, no passenger is displaced, and the
passenger remains `traveling` on board. -/
theorem C2_remove_sole_bus_counterexample :
    demoSoloRoute.buses = [demoLoadedBus] ∧
    demoLoadedBus.passengers = [demoTraveler] ∧
    demoTraveler.state = .traveling ∧
    removeBusFromRoute [demoSoloRoute] 0 = ([demoSoloRoute], []) :=
  ⟨rfl, rfl, rfl, rfl⟩

/-- **C2** (amended): `removeBusFromRoute` at a valid index is a no-op when
the target route has at most one bus; with at least two buses it removes the
last-listed bus and force-returns exactly that bus's passengers to waiting
with all stop references cleared. -/
theorem C2_remove_bus_amended (routes : List Route) (ri : ℤ) (route : Route)
    (hri : 0 ≤ ri) (hget : routes.get? ri.toNat = some route) :
    (route.buses.length ≤ 1 → removeBusFromRoute routes ri = (routes, [])) ∧
    (∀ removed, route.buses.getLast? = some removed →
      2 ≤ route.buses.length →
      (removeBusFromRoute routes ri).1.get? ri.toNat =
        some { route with buses := route.buses.dropLast } ∧
      (∀ j, j ≠ ri.toNat →
        (removeBusFromRoute routes ri).1.get? j = routes.get? j) ∧
      (removeBusFromRoute routes ri).2 =
        removed.passengers.map resetPassenger ∧
      ∀ q ∈ (removeBusFromRoute routes ri).2,
        q.state = .waiting ∧ q.nearestStop = none ∧ q.atStop = false ∧
        q.waitTime = 0 ∧ q.destinationStop = none ∧
        q.finalDestinationStop = none) := by
  have hlt : ri.toNat < routes.length := (List.get?_eq_some.mp hget).1
  have hguard : ¬ (ri < 0 ∨ (routes.length : ℤ) ≤ ri) := by
    push_neg
    refine ⟨hri, ?_⟩
    have : (ri.toNat : ℤ) = ri := Int.toNat_of_nonneg hri
    omega
  constructor
  · intro hle
    unfold removeBusFromRoute
    rw [if_neg hguard, hget]
    simp only [hle, if_pos]
  · intro removed hlast h2
    have hres : removeBusFromRoute routes ri =
        (routes.set ri.toNat { route with buses := route.buses.dropLast },
          removed.passengers.map resetPassenger) := by
      unfold removeBusFromRoute
      rw [if_neg hguard, hget]
      simp only [hlast]
      rw [if_neg (by omega)]
    rw [hres]
    refine ⟨?_, ?_, rfl, ?_⟩
    · rw [List.get?_eq_getElem?, List.getElem?_set_self (by simpa using hlt)]
    · intro j hj
      rw [List.get?_eq_getElem?, List.getElem?_set_ne (fun hc => hj hc.symm),
        ← List.get?_eq_getElem?]
    · intro q hq
      rcases List.mem_map.mp hq with ⟨p, -, rfl⟩
      exact ⟨rfl, rfl, rfl, rfl, rfl, rfl⟩

/-! ## RouteManager boarding and alighting (src/core/RouteManager.ts) and
the NPC branches of EntityManager.updateNPCs (src/core/EntityManager.ts)

All straight-line distance comparisons (`this.distance(...) < d`) are
embedded as squared-distance comparisons, per the convention in the file
header.  `route.stops.some(stop => stop.x === s.x && stop.y === s.y)` is
embedded as list membership. -/

def MAX_TRANSFERS : ℕ := 5

def BUS_CAPACITY : ℕ := 10

def NPC_MAX_WAIT_TIME : ℚ := 60

/-- JS truthiness of an optional number: `undefined` and `0` are falsy. -/
def jsTruthyQ (o : Option ℚ) : Bool :=
  match o with
  | none => false
  | some t => decide (t ≠ 0)

/-- `if (!npc.transportStartTime) npc.transportStartTime = state.time` —
a truthiness check, so a stored boarding time of `0` is also overwritten. -/
def tstUpdate (tst : Option ℚ) (time : ℚ) : Option ℚ :=
  if jsTruthyQ tst then tst else some time

/-- `getDestinationCenter` (textually identical in RouteManager and
EntityManager): the zone centre in pixels, clamped to `[5, 1794]` on both
axes (`GRID_SIZE * 60 - 1 - 5 = COLS * GRID_SIZE - 1 - 5`). -/
def getDestinationCenter (zone : Zone) : Point :=
  (max 5 (min ((zone.x + zone.w / 2) * GRID_SIZE) (GRID_SIZE * 60 - 1 - 5)),
   max 5 (min ((zone.y + zone.h / 2) * GRID_SIZE) (GRID_SIZE * 60 - 1 - 5)))

/-- One iteration of the `route.stops.forEach` accumulation that looks for
the on-route stop closest to `finalDestStop` (fallback boarding, lines
556–573): skip the current stop, keep the strictly closest so far. -/
def transferStep (currentStop finalDestStop : GridPos)
    (acc : Option GridPos × ℚ) (stop : GridPos) : Option GridPos × ℚ :=
  if stop = currentStop then acc
  else if distSq (stopPixel stop) (stopPixel finalDestStop) < acc.2 then
    (some stop, distSq (stopPixel stop) (stopPixel finalDestStop))
  else acc

/-- The `closestStop` computed by the fallback boarding logic; the running
minimum starts at the distance from the current stop to `finalDestStop`. -/
def closestTransfer (routeStops : List GridPos)
    (currentStop finalDestStop : GridPos) : Option GridPos :=
  (routeStops.foldl (transferStep currentStop finalDestStop)
    (none, distSq (stopPixel currentStop) (stopPixel finalDestStop))).1

/-- The per-bus context of the pick-up loop of `handleBusAtStop`:
`currentStop = route.stops[bus.currentStopIndex]`, the served route's stop
list, `state.routes.indexOf(route)` (non-negative, as the route is a member
of `state.routes`), the spatial index, the game clock and the bus's current
passenger count. -/
structure BoardCtx where
  currentStop : GridPos
  routeStops : List GridPos
  routeIndexInState : ℕ
  idx : List (GridPos × List GridPos)
  time : ℚ
  busPassengers : ℕ

/-- The `FALLBACK: Old greedy logic` branch of the pick-up loop (lines
498–593), entered when the plan or the final-destination stop is absent:
validate the nearest stop to the zone centre, board directly when this
route serves it, else board toward the strictly closest on-route stop. -/
def greedyBoard (ctx : BoardCtx) (npc : NPC) : NPC × Bool :=
  match findNearestStop ctx.idx
      (getDestinationCenter npc.destinationZone).1
      (getDestinationCenter npc.destinationZone).2 with
  | none => (npc, false)
  | some finalDestStop =>
    if (8 * GRID_SIZE) ^ 2 <
        distSq (stopPixel finalDestStop)
          (getDestinationCenter npc.destinationZone) then
      (npc, false)
    else if finalDestStop ∈ ctx.routeStops ∧
        finalDestStop ≠ ctx.currentStop then
      ({ npc with
         destinationStop := some finalDestStop,
         finalDestinationStop := some finalDestStop,
         state := .traveling, atStop := false,
         transportStartTime :=
           tstUpdate npc.transportStartTime ctx.time }, true)
    else
      match closestTransfer ctx.routeStops ctx.currentStop
          finalDestStop with
      | some transferStop =>
        ({ npc with
           destinationStop := some transferStop,
           finalDestinationStop := some finalDestStop,
           state := .traveling, atStop := false,
           transportStartTime :=
             tstUpdate npc.transportStartTime ctx.time }, true)
      | none => (npc, false)

/-- One NPC considered by the pick-up loop of `handleBusAtStop` (lines
419–595).  Returns the updated NPC and whether it boarded
(`bus.passengers.push`).  When the plan's current stop index is out of
range the source faults reading `.x` of `undefined`; the model leaves the
NPC unchanged (plans produced by `planTrip` keep the index in range). -/
def boardNpc (ctx : BoardCtx) (npc : NPC) : NPC × Bool :=
  if npc.state = .waiting ∧ npc.atStop = true ∧
      npc.nearestStop = some ctx.currentStop ∧
      ctx.busPassengers < BUS_CAPACITY then
    if MAX_TRANSFERS ≤ npc.transferCount then
      if 10 < npc.waitTime ∧ npc.maxTransfersWarned = false then
        ({ npc with maxTransfersWarned := true }, false)
      else (npc, false)
    else
      match npc.plannedRoute, npc.finalDestinationStop with
      | some plan, some _ =>
        (match plan.stops.get? plan.currentStopIndex with
         | none => (npc, false)
         | some currentPlanStop =>
           if currentPlanStop ≠ ctx.currentStop then (npc, false)
           else if plan.routes.get? plan.currentStopIndex =
               some ctx.routeIndexInState then
             if plan.currentStopIndex + 1 < plan.stops.length then
               match plan.stops.get? (plan.currentStopIndex + 1),
                   plan.stops.getLast? with
               | some nextStop, some lastStop =>
                 ({ npc with
                    destinationStop := some nextStop,
                    finalDestinationStop := some lastStop,
                    state := .traveling, atStop := false,
                    transportStartTime :=
                      tstUpdate npc.transportStartTime ctx.time }, true)
               | _, _ => (npc, false)
             else (npc, false)
           else (npc, false))
      | _, _ => greedyBoard ctx npc
  else (npc, false)

/-- Context of the drop-off loop of `handleBusAtStop`. -/
structure AlightCtx where
  currentStop : GridPos
  idx : List (GridPos × List GridPos)
  time : ℚ
  ticketPrice : ℚ

/-- The statistic counters touched by the embedded code paths:
`state.stats.{tripsCompleted, totalWaitTime, totalTransportTime,
npcsGaveUp}` and `state.economics.{money, totalIncome}`. -/
structure Stats where
  tripsCompleted : ℕ
  totalWaitTime : ℚ
  totalTransportTime : ℚ
  npcsGaveUp : ℕ
  money : ℚ
  totalIncome : ℚ
deriving DecidableEq, Repr

/-- The body of the drop-off branch once the passenger has been spliced off
the bus and a final-destination stop is known (lines 338–416): legitimate
arrival with its one-time statistics, the far-from-zone defensive transfer,
or an intermediate transfer advancing the plan cursor. -/
def alightCore (ctx : AlightCtx) (stats : Stats) (p : NPC)
    (finalDestStop : GridPos) : NPC × Stats :=
  if finalDestStop = ctx.currentStop then
    if (8 * GRID_SIZE) ^ 2 <
        distSq (stopPixel ctx.currentStop)
          (getDestinationCenter p.destinationZone) then
      ({ p with
         state := .waiting,
         x := (ctx.currentStop.1 : ℚ) * GRID_SIZE,
         y := (ctx.currentStop.2 : ℚ) * GRID_SIZE,
         nearestStop := some ctx.currentStop, atStop := true,
         transferCount := p.transferCount + 1,
         plannedRoute := none }, stats)
    else
      ({ p with state := .arrived },
       { stats with
         tripsCompleted := stats.tripsCompleted + 1,
         totalWaitTime := stats.totalWaitTime + p.waitTime,
         totalTransportTime := stats.totalTransportTime +
           (if jsTruthyQ p.transportStartTime = true then
             (ctx.time - p.transportStartTime.getD 0) / 1000
           else 0),
         money := stats.money + ctx.ticketPrice,
         totalIncome := stats.totalIncome + ctx.ticketPrice })
  else
    ({ p with
       state := .waiting,
       x := (ctx.currentStop.1 : ℚ) * GRID_SIZE,
       y := (ctx.currentStop.2 : ℚ) * GRID_SIZE,
       nearestStop := some ctx.currentStop, atStop := true,
       transferCount := p.transferCount + 1,
       plannedRoute :=
         match p.plannedRoute with
         | some plan =>
           some { plan with currentStopIndex := plan.currentStopIndex + 1 }
         | none => none }, stats)

/-- Drop-off once `destStop` matches the current stop: the passenger is
spliced off the bus; a missing final destination is recalculated via the
spatial index, and if none is found the `continue` path (line 328) leaves
the spliced passenger `traveling` off any bus. -/
def alightAt (ctx : AlightCtx) (stats : Stats) (p : NPC) :
    NPC × Bool × Stats :=
  match p.finalDestinationStop with
  | some fd =>
    ((alightCore ctx stats p fd).1, true, (alightCore ctx stats p fd).2)
  | none =>
    match findNearestStop ctx.idx
        (getDestinationCenter p.destinationZone).1
        (getDestinationCenter p.destinationZone).2 with
    | some recalculated =>
      ((alightCore ctx stats
          { p with finalDestinationStop := some recalculated }
          recalculated).1,
       true,
       (alightCore ctx stats
          { p with finalDestinationStop := some recalculated }
          recalculated).2)
    | none => (p, true, stats)

/-- One passenger considered by the drop-off loop of `handleBusAtStop`
(lines 295–416): the updated NPC, whether it was spliced off the bus, and
the updated statistics. -/
def alightPassenger (ctx : AlightCtx) (stats : Stats) (p0 : NPC) :
    NPC × Bool × Stats :=
  match p0.destinationStop with
  | some destStop =>
    if destStop = ctx.currentStop then alightAt ctx stats p0
    else (p0, false, stats)
  | none =>
    match findNearestStop ctx.idx
        (getDestinationCenter p0.destinationZone).1
        (getDestinationCenter p0.destinationZone).2 with
    | some foundStop =>
      if foundStop = ctx.currentStop then
        alightAt ctx stats { p0 with destinationStop := some foundStop }
      else ({ p0 with destinationStop := some foundStop }, false, stats)
    | none => (p0, false, stats)

/-- The missing-nearest-stop recovery of the `waiting` branch of
`updateNPCs` (lines 397–485), entered with the wait time already accrued:
re-acquire a nearest stop, validate the destination stop, then either
complete the trip on the spot (recording the arrival statistics) or plan
it.  The third component records the early `return` taken when the
destination zone is uncovered (line 430), which in the source also aborts
the remainder of this tick's NPC loop and skips the give-up check. -/
def waitingRecovered (idx : List (GridPos × List GridPos))
    (allRoutes : List (List GridPos)) (ticketPrice : ℚ) (stats : Stats)
    (npc : NPC) : NPC × Stats × Bool :=
  match findNearestStop idx npc.x npc.y with
  | none => ({ npc with nearestStop := none }, stats, false)
  | some ns =>
    match findNearestStop idx
        (getDestinationCenter npc.destinationZone).1
        (getDestinationCenter npc.destinationZone).2 with
    | none => ({ npc with nearestStop := some ns, atStop := true },
        stats, false)
    | some finalDestStop =>
      if (8 * GRID_SIZE) ^ 2 <
          distSq (stopPixel finalDestStop)
            (getDestinationCenter npc.destinationZone) then
        ({ npc with nearestStop := some ns, atStop := true }, stats, true)
      else if ns = finalDestStop then
        ({ npc with
           nearestStop := some ns, atStop := true,
           finalDestinationStop := some finalDestStop,
           state := .arrived },
         { stats with
           tripsCompleted := stats.tripsCompleted + 1,
           totalWaitTime := stats.totalWaitTime + npc.waitTime,
           money := stats.money + ticketPrice,
           totalIncome := stats.totalIncome + ticketPrice }, false)
      else
        match planTrip ns finalDestStop allRoutes with
        | some plan =>
          ({ npc with
             nearestStop := some ns, atStop := true,
             finalDestinationStop := some finalDestStop,
             plannedRoute := some ⟨plan.stops, plan.routes, 0⟩ },
           stats, false)
        | none =>
          ({ npc with
             nearestStop := some ns, atStop := true,
             finalDestinationStop := some finalDestStop }, stats, false)

/-- Wait-time accrual plus the conditional recovery block of the `waiting`
branch (`if (!npc.nearestStop && state.routes.length > 0)`). -/
def waitingPre (idx : List (GridPos × List GridPos))
    (allRoutes : List (List GridPos)) (ticketPrice dt : ℚ) (stats : Stats)
    (npc0 : NPC) : NPC × Stats × Bool :=
  if npc0.nearestStop = none ∧ allRoutes ≠ [] then
    waitingRecovered idx allRoutes ticketPrice stats
      { npc0 with waitTime := npc0.waitTime + dt / 1000 }
  else ({ npc0 with waitTime := npc0.waitTime + dt / 1000 }, stats, false)

/-- The `waiting` branch of `EntityManager.updateNPCs` (lines 392–495):
wait-time accrual, the recovery block, and the give-up removal (skipped on
the early-`return` path).  Returns the updated NPC, whether it was removed
from `state.npcs`, and the statistics. -/
def waitingStep (idx : List (GridPos × List GridPos))
    (allRoutes : List (List GridPos)) (ticketPrice dt : ℚ) (stats : Stats)
    (npc0 : NPC) : NPC × Bool × Stats :=
  if (waitingPre idx allRoutes ticketPrice dt stats npc0).2.2 = false ∧
      NPC_MAX_WAIT_TIME <
        (waitingPre idx allRoutes ticketPrice dt stats npc0).1.waitTime then
    ((waitingPre idx allRoutes ticketPrice dt stats npc0).1, true,
     { (waitingPre idx allRoutes ticketPrice dt stats npc0).2.1 with
       npcsGaveUp :=
         (waitingPre idx allRoutes ticketPrice dt stats
           npc0).2.1.npcsGaveUp + 1 })
  else ((waitingPre idx allRoutes ticketPrice dt stats npc0).1, false,
    (waitingPre idx allRoutes ticketPrice dt stats npc0).2.1)

/-- The `arrived` branch of `updateNPCs` (lines 492–495): the NPC is
spliced out of `state.npcs` and no statistic is touched. -/
def arrivedStep (stats : Stats) (npc : NPC) : NPC × Bool × Stats :=
  (npc, true, stats)

/-- The end-of-walking-path transition of the `walking` branch (lines
322–385): switch to waiting at the stop, then immediately either complete
the trip on the spot (recording the arrival statistics) or plan it. -/
def walkArriveStep (idx : List (GridPos × List GridPos))
    (allRoutes : List (List GridPos)) (ticketPrice : ℚ) (stats : Stats)
    (npc : NPC) : NPC × Stats :=
  match npc.nearestStop with
  | none => ({ npc with state := .waiting, atStop := true }, stats)
  | some ns =>
    match findNearestStop idx
        (getDestinationCenter npc.destinationZone).1
        (getDestinationCenter npc.destinationZone).2 with
    | none => ({ npc with state := .waiting, atStop := true }, stats)
    | some finalDestStop =>
      if (8 * GRID_SIZE) ^ 2 <
          distSq (stopPixel finalDestStop)
            (getDestinationCenter npc.destinationZone) then
        ({ npc with state := .waiting, atStop := true }, stats)
      else if ns = finalDestStop then
        ({ npc with
           state := .arrived, atStop := true,
           finalDestinationStop := some finalDestStop },
         { stats with
           tripsCompleted := stats.tripsCompleted + 1,
           totalWaitTime := stats.totalWaitTime + npc.waitTime,
           money := stats.money + ticketPrice,
           totalIncome := stats.totalIncome + ticketPrice })
      else
        match planTrip ns finalDestStop allRoutes with
        | some plan =>
          ({ npc with
             state := .waiting, atStop := true,
             finalDestinationStop := some finalDestStop,
             plannedRoute := some ⟨plan.stops, plan.routes, 0⟩ }, stats)
        | none =>
          ({ npc with
             state := .waiting, atStop := true,
             finalDestinationStop := some finalDestStop }, stats)

/-- The NPC literal pushed by `EntityManager.createNPC` (lines 123–139),
restricted to the modelled fields. -/
def spawnNPC (x y : ℚ) (destinationZone : Zone) : NPC :=
  { x := x, y := y, state := .walking, waitTime := 0,
    transportStartTime := none, nearestStop := none, atStop := false,
    destinationZone := destinationZone, destinationStop := none,
    finalDestinationStop := none, transferCount := 0,
    maxTransfersWarned := false, plannedRoute := none }

/-- One source-level transition of a single NPC: the pick-up and drop-off
passes of `handleBusAtStop`, the `waiting` and `arrived` branches of
`updateNPCs`, the `walking` branch (stop assignment, movement — abstracted
to arbitrary repositioning —, the no-path teleport, and the path-end
transition), and the passenger reset of `removeBusFromRoute`. -/
inductive NpcStep : NPC → NPC → Prop
  | board (ctx : BoardCtx) (p : NPC) : NpcStep p (boardNpc ctx p).1
  | alight (ctx : AlightCtx) (stats : Stats) (p : NPC)
      (h : p.state = .traveling) :
      NpcStep p (alightPassenger ctx stats p).1
  | waitTick (idx : List (GridPos × List GridPos))
      (routes : List (List GridPos)) (tp dt : ℚ) (stats : Stats) (p : NPC)
      (h : p.state = .waiting) :
      NpcStep p (waitingStep idx routes tp dt stats p).1
  | walkAssign (p : NPC) (s : Option GridPos) (h : p.state = .walking) :
      NpcStep p { p with nearestStop := s }
  | walkTeleport (p : NPC) (s : GridPos) (h : p.state = .walking)
      (hs : p.nearestStop = some s) :
      NpcStep p { p with
        x := (s.1 : ℚ) * GRID_SIZE, y := (s.2 : ℚ) * GRID_SIZE,
        state := .waiting, atStop := true }
  | walkMove (p : NPC) (x' y' : ℚ) (h : p.state = .walking) :
      NpcStep p { p with x := x', y := y' }
  | walkEnd (idx : List (GridPos × List GridPos))
      (routes : List (List GridPos)) (tp : ℚ) (stats : Stats) (p : NPC)
      (h : p.state = .walking) :
      NpcStep p (walkArriveStep idx routes tp stats p).1
  | displaced (p : NPC) (h : p.state = .traveling) :
      NpcStep p (resetPassenger p)

/-- NPCs reachable from spawn through the embedded transitions. -/
inductive NpcReach : NPC → Prop
  | spawn (x y : ℚ) (zone : Zone) : NpcReach (spawnNPC x y zone)
  | step (p p' : NPC) (h : NpcReach p) (hs : NpcStep p p') : NpcReach p'

/-- The pick-up pass never changes the transfer counter, changes the state
only by boarding, and only boards NPCs strictly under the transfer cap. -/
lemma boardNpc_char (ctx : BoardCtx) (p : NPC) :
    (boardNpc ctx p).1.transferCount = p.transferCount ∧
    ((boardNpc ctx p).1.state = p.state ∨
      ((boardNpc ctx p).2 = true ∧ (boardNpc ctx p).1.state = .traveling)) ∧
    ((boardNpc ctx p).2 = true → p.transferCount < MAX_TRANSFERS) := by
  unfold boardNpc greedyBoard
  repeat' split
  all_goals refine ⟨rfl, ?_, ?_⟩
  all_goals try exact Or.inl rfl
  all_goals try exact Or.inr ⟨rfl, rfl⟩
  all_goals intro hb
  all_goals first
    | (exfalso; simp at hb; done)
    | omega

lemma alightCore_char (ctx : AlightCtx) (stats : Stats) (p : NPC)
    (fd : GridPos) :
    ((alightCore ctx stats p fd).1.transferCount = p.transferCount ∧
      (alightCore ctx stats p fd).1.state = .arrived) ∨
    ((alightCore ctx stats p fd).1.transferCount = p.transferCount + 1 ∧
      (alightCore ctx stats p fd).1.state = .waiting) := by
  unfold alightCore
  split
  · split
    · exact Or.inr ⟨rfl, rfl⟩
    · exact Or.inl ⟨rfl, rfl⟩
  · exact Or.inr ⟨rfl, rfl⟩

lemma alightAt_char (ctx : AlightCtx) (stats : Stats) (p : NPC) :
    ((alightAt ctx stats p).1.transferCount = p.transferCount ∧
      (alightAt ctx stats p).1.state = p.state) ∨
    ((alightAt ctx stats p).1.transferCount = p.transferCount ∧
      (alightAt ctx stats p).1.state = .arrived) ∨
    ((alightAt ctx stats p).1.transferCount = p.transferCount + 1 ∧
      (alightAt ctx stats p).1.state = .waiting) := by
  unfold alightAt
  split
  next fd hfd =>
    rcases alightCore_char ctx stats p fd with ⟨h1, h2⟩ | ⟨h1, h2⟩
    · exact Or.inr (Or.inl ⟨h1, h2⟩)
    · exact Or.inr (Or.inr ⟨h1, h2⟩)
  next hfd =>
    split
    next recalc hre =>
      rcases alightCore_char ctx stats
          { p with finalDestinationStop := some recalc } recalc with
        ⟨h1, h2⟩ | ⟨h1, h2⟩
      · exact Or.inr (Or.inl ⟨h1, h2⟩)
      · exact Or.inr (Or.inr ⟨h1, h2⟩)
    next hre => exact Or.inl ⟨rfl, rfl⟩

/-- The drop-off pass increments the transfer counter exactly on the
transfer-to-waiting paths and otherwise leaves it unchanged. -/
lemma alightPassenger_char (ctx : AlightCtx) (stats : Stats) (p0 : NPC) :
    ((alightPassenger ctx stats p0).1.transferCount = p0.transferCount ∧
      (alightPassenger ctx stats p0).1.state = p0.state) ∨
    ((alightPassenger ctx stats p0).1.transferCount = p0.transferCount ∧
      (alightPassenger ctx stats p0).1.state = .arrived) ∨
    ((alightPassenger ctx stats p0).1.transferCount =
        p0.transferCount + 1 ∧
      (alightPassenger ctx stats p0).1.state = .waiting) := by
  unfold alightPassenger
  split
  next destStop hds =>
    split
    · exact alightAt_char ctx stats p0
    · exact Or.inl ⟨rfl, rfl⟩
  next hds =>
    split
    next found hf =>
      split
      · exact alightAt_char ctx stats
          { p0 with destinationStop := some found }
      · exact Or.inl ⟨rfl, rfl⟩
    next hf => exact Or.inl ⟨rfl, rfl⟩

lemma waitingRecovered_char (idx : List (GridPos × List GridPos))
    (allRoutes : List (List GridPos)) (ticketPrice : ℚ) (stats : Stats)
    (npc : NPC) :
    (waitingRecovered idx allRoutes ticketPrice stats
        npc).1.transferCount = npc.transferCount ∧
    ((waitingRecovered idx allRoutes ticketPrice stats npc).1.state =
        npc.state ∨
      (waitingRecovered idx allRoutes ticketPrice stats npc).1.state =
        .arrived) := by
  unfold waitingRecovered
  repeat' split
  all_goals refine ⟨rfl, ?_⟩
  all_goals first
    | exact Or.inl rfl
    | exact Or.inr rfl

lemma waitingStep_char (idx : List (GridPos × List GridPos))
    (allRoutes : List (List GridPos)) (ticketPrice dt : ℚ) (stats : Stats)
    (npc0 : NPC) :
    (waitingStep idx allRoutes ticketPrice dt stats
        npc0).1.transferCount = npc0.transferCount ∧
    ((waitingStep idx allRoutes ticketPrice dt stats npc0).1.state =
        npc0.state ∨
      (waitingStep idx allRoutes ticketPrice dt stats npc0).1.state =
        .arrived) := by
  have hpre : (waitingPre idx allRoutes ticketPrice dt stats
        npc0).1.transferCount = npc0.transferCount ∧
      ((waitingPre idx allRoutes ticketPrice dt stats npc0).1.state =
          npc0.state ∨
        (waitingPre idx allRoutes ticketPrice dt stats npc0).1.state =
          .arrived) := by
    unfold waitingPre
    split
    · exact waitingRecovered_char idx allRoutes ticketPrice stats
        { npc0 with waitTime := npc0.waitTime + dt / 1000 }
    · exact ⟨rfl, Or.inl rfl⟩
  unfold waitingStep
  split
  · exact hpre
  · exact hpre

lemma walkArriveStep_char (idx : List (GridPos × List GridPos))
    (allRoutes : List (List GridPos)) (ticketPrice : ℚ) (stats : Stats)
    (npc : NPC) :
    (walkArriveStep idx allRoutes ticketPrice stats
        npc).1.transferCount = npc.transferCount ∧
    ((walkArriveStep idx allRoutes ticketPrice stats npc).1.state =
        .waiting ∨
      (walkArriveStep idx allRoutes ticketPrice stats npc).1.state =
        .arrived) := by
  unfold walkArriveStep
  repeat' split
  all_goals refine ⟨rfl, ?_⟩
  all_goals first
    | exact Or.inl rfl
    | exact Or.inr rfl

/-- **C7**: across every reachable NPC execution the transfer counter stays
at or below `MAX_TRANSFERS = 5`, and the pick-up pass never boards an NPC
whose counter has reached the cap, plan or no plan. -/
theorem C7_transfer_cap :
    (∀ p, NpcReach p → p.transferCount ≤ MAX_TRANSFERS) ∧
    (∀ ctx p, MAX_TRANSFERS ≤ p.transferCount →
      (boardNpc ctx p).2 = false) := by
  have hcap : ∀ (ctx : BoardCtx) (p : NPC),
      MAX_TRANSFERS ≤ p.transferCount → (boardNpc ctx p).2 = false := by
    intro ctx p h
    by_contra hb
    rw [Bool.not_eq_false] at hb
    have := (boardNpc_char ctx p).2.2 hb
    omega
  have key : ∀ p, NpcReach p →
      p.transferCount ≤ MAX_TRANSFERS ∧
        (p.state = .traveling → p.transferCount < MAX_TRANSFERS) := by
    intro p hp
    induction hp with
    | spawn x y zone =>
      refine ⟨Nat.zero_le _, fun h => ?_⟩
      simp [spawnNPC] at h
    | step p p' hr hs ih =>
      cases hs with
      | board ctx p =>
        obtain ⟨htc, hst, hbc⟩ := boardNpc_char ctx p
        refine ⟨by rw [htc]; exact ih.1, fun htrav => ?_⟩
        rw [htc]
        rcases hst with hst | ⟨hb2, -⟩
        · rw [hst] at htrav
          exact ih.2 htrav
        · exact hbc hb2
      | alight ctx stats p h =>
        rcases alightPassenger_char ctx stats p with
          ⟨h1, h2⟩ | ⟨h1, h2⟩ | ⟨h1, h2⟩
        · refine ⟨by rw [h1]; exact ih.1, fun htrav => ?_⟩
          rw [h2] at htrav
          rw [h1]
          exact ih.2 htrav
        · refine ⟨by rw [h1]; exact ih.1, fun htrav => ?_⟩
          rw [h2] at htrav
          exact absurd htrav (by simp)
        · have hlt := ih.2 h
          refine ⟨by rw [h1]; omega, fun htrav => ?_⟩
          rw [h2] at htrav
          exact absurd htrav (by simp)
      | waitTick idx routes tp dt stats p h =>
        obtain ⟨h1, h2⟩ := waitingStep_char idx routes tp dt stats p
        refine ⟨by rw [h1]; exact ih.1, fun htrav => ?_⟩
        rcases h2 with h2 | h2
        · rw [h2, h] at htrav
          exact absurd htrav (by simp)
        · rw [h2] at htrav
          exact absurd htrav (by simp)
      | walkAssign p s h =>
        refine ⟨ih.1, fun htrav => ?_⟩
        have htrav' : p.state = .traveling := htrav
        rw [h] at htrav'
        exact absurd htrav' (by simp)
      | walkTeleport p s h hs =>
        exact ⟨ih.1, fun htrav => absurd htrav (by simp)⟩
      | walkMove p x' y' h =>
        refine ⟨ih.1, fun htrav => ?_⟩
        have htrav' : p.state = .traveling := htrav
        rw [h] at htrav'
        exact absurd htrav' (by simp)
      | walkEnd idx routes tp stats p h =>
        obtain ⟨h1, h2⟩ := walkArriveStep_char idx routes tp stats p
        refine ⟨by rw [h1]; exact ih.1, fun htrav => ?_⟩
        rcases h2 with h2 | h2 <;>
          · rw [h2] at htrav
            exact absurd htrav (by simp)
      | displaced p h =>
        exact ⟨ih.1, fun htrav => absurd htrav (by simp [resetPassenger])⟩
  exact ⟨fun p hp => (key p hp).1, hcap⟩

/-- An NPC already at the transfer cap, waiting at the demo stop. -/
def demoMaxedNpc : NPC :=
  { x := 30, y := 0, state := .waiting, waitTime := 20,
    transportStartTime := none, nearestStop := some (1, 0), atStop := true,
    destinationZone := demoZone, destinationStop := none,
    finalDestinationStop := some (5, 5), transferCount := 5,
    maxTransfersWarned := false,
    plannedRoute := some ⟨[(1, 0), (5, 5)], [0], 0⟩ }

/-- The demo boarding context: a bus of route 0 dwelling at stop (1,0). -/
def demoBCtx : BoardCtx :=
  { currentStop := (1, 0), routeStops := [(1, 0), (5, 5)],
    routeIndexInState := 0, idx := rebuildIndex [[(1, 0), (5, 5)]],
    time := 0, busPassengers := 0 }

/-- Witness for C7: a freshly spawned NPC is under the cap, and a maxed-out
NPC holding a valid plan for the dwelling bus is still not boarded. -/
theorem C7_transfer_cap_witness :
    (spawnNPC 0 0 demoZone).transferCount ≤ MAX_TRANSFERS ∧
    (boardNpc demoBCtx demoMaxedNpc).2 = false := by
  constructor
  · exact C7_transfer_cap.1 _ (NpcReach.spawn 0 0 demoZone)
  · exact C7_transfer_cap.2 demoBCtx demoMaxedNpc (by decide)

/-! ### One-time arrival statistics (C8) -/

lemma alightAt_stats (ctx : AlightCtx) (stats : Stats) (p : NPC)
    (htrav : p.state = .traveling) :
    ((alightAt ctx stats p).1.state = .arrived →
      (alightAt ctx stats p).2.2.tripsCompleted =
          stats.tripsCompleted + 1 ∧
        (alightAt ctx stats p).2.2.totalWaitTime =
          stats.totalWaitTime + p.waitTime ∧
        (alightAt ctx stats p).2.2.money = stats.money + ctx.ticketPrice ∧
        (alightAt ctx stats p).2.2.totalIncome =
          stats.totalIncome + ctx.ticketPrice) ∧
    ((alightAt ctx stats p).1.state ≠ .arrived →
      (alightAt ctx stats p).2.2 = stats) := by
  unfold alightAt alightCore
  repeat' split
  all_goals first
    | exact ⟨fun _ => ⟨rfl, rfl, rfl, rfl⟩, fun hne => absurd rfl hne⟩
    | exact ⟨fun h => absurd (htrav ▸ h : NpcState.traveling = .arrived)
        (by simp), fun _ => rfl⟩
    | exact ⟨fun h => absurd h (by simp), fun _ => rfl⟩

lemma alightPassenger_stats (ctx : AlightCtx) (stats : Stats) (p : NPC)
    (htrav : p.state = .traveling) :
    ((alightPassenger ctx stats p).1.state = .arrived →
      (alightPassenger ctx stats p).2.2.tripsCompleted =
          stats.tripsCompleted + 1 ∧
        (alightPassenger ctx stats p).2.2.totalWaitTime =
          stats.totalWaitTime + p.waitTime ∧
        (alightPassenger ctx stats p).2.2.money =
          stats.money + ctx.ticketPrice ∧
        (alightPassenger ctx stats p).2.2.totalIncome =
          stats.totalIncome + ctx.ticketPrice) ∧
    ((alightPassenger ctx stats p).1.state ≠ .arrived →
      (alightPassenger ctx stats p).2.2 = stats) := by
  unfold alightPassenger
  split
  next destStop hds =>
    split
    · exact alightAt_stats ctx stats p htrav
    · exact ⟨fun h => absurd (htrav ▸ h : NpcState.traveling = .arrived)
        (by simp), fun _ => rfl⟩
  next hds =>
    split
    next found hf =>
      split
      · exact alightAt_stats ctx stats
          { p with destinationStop := some found } htrav
      · exact ⟨fun h => absurd (htrav ▸ h : NpcState.traveling = .arrived)
          (by simp), fun _ => rfl⟩
    next hf =>
      exact ⟨fun h => absurd (htrav ▸ h : NpcState.traveling = .arrived)
        (by simp), fun _ => rfl⟩

lemma waitingRecovered_stats (idx : List (GridPos × List GridPos))
    (allRoutes : List (List GridPos)) (tp : ℚ) (stats : Stats) (npc : NPC)
    (hw : npc.state = .waiting) :
    ((waitingRecovered idx allRoutes tp stats npc).1.state = .arrived →
      (waitingRecovered idx allRoutes tp stats npc).2.1.tripsCompleted =
          stats.tripsCompleted + 1 ∧
        (waitingRecovered idx allRoutes tp stats npc).2.1.totalWaitTime =
          stats.totalWaitTime + npc.waitTime ∧
        (waitingRecovered idx allRoutes tp stats npc).2.1.money =
          stats.money + tp ∧
        (waitingRecovered idx allRoutes tp stats npc).2.1.totalIncome =
          stats.totalIncome + tp) ∧
    ((waitingRecovered idx allRoutes tp stats npc).1.state ≠ .arrived →
      (waitingRecovered idx allRoutes tp stats npc).2.1 = stats) := by
  unfold waitingRecovered
  repeat' split
  all_goals first
    | exact ⟨fun _ => ⟨rfl, rfl, rfl, rfl⟩, fun hne => absurd rfl hne⟩
    | exact ⟨fun h => absurd (hw ▸ h : NpcState.waiting = .arrived)
        (by simp), fun _ => rfl⟩

lemma waitingPre_stats (idx : List (GridPos × List GridPos))
    (allRoutes : List (List GridPos)) (tp dt : ℚ) (stats : Stats)
    (npc0 : NPC) (hw : npc0.state = .waiting) :
    ((waitingPre idx allRoutes tp dt stats npc0).1.state = .arrived →
      (waitingPre idx allRoutes tp dt stats npc0).2.1.tripsCompleted =
          stats.tripsCompleted + 1 ∧
        (waitingPre idx allRoutes tp dt stats npc0).2.1.totalWaitTime =
          stats.totalWaitTime + (npc0.waitTime + dt / 1000) ∧
        (waitingPre idx allRoutes tp dt stats npc0).2.1.money =
          stats.money + tp ∧
        (waitingPre idx allRoutes tp dt stats npc0).2.1.totalIncome =
          stats.totalIncome + tp) ∧
    ((waitingPre idx allRoutes tp dt stats npc0).1.state ≠ .arrived →
      (waitingPre idx allRoutes tp dt stats npc0).2.1 = stats) := by
  unfold waitingPre
  split
  · exact waitingRecovered_stats idx allRoutes tp stats
      { npc0 with waitTime := npc0.waitTime + dt / 1000 } hw
  · exact ⟨fun h => absurd (hw ▸ h : NpcState.waiting = .arrived)
      (by simp), fun _ => rfl⟩

/-- **C8**: arrival statistics are recorded exactly once, at the moment of
arrival.  A traveling passenger processed by the drop-off pass has
`tripsCompleted` incremented by exactly one, `totalWaitTime` increased by
its accumulated wait time, and `money` and `totalIncome` each increased by
exactly the ticket price precisely when it ends the pass `arrived`, and the
trip counters are untouched otherwise; the same holds for the
already-at-destination arrival of the `waiting` branch of `updateNPCs`
(whose wait time was first accrued by `dt / 1000`); and the `arrived`
branch of `updateNPCs` removes the NPC without touching any statistic. -/
theorem C8_arrival_stats_once :
    (∀ ctx stats p, p.state = .traveling →
      ((alightPassenger ctx stats p).1.state = .arrived →
        (alightPassenger ctx stats p).2.2.tripsCompleted =
            stats.tripsCompleted + 1 ∧
          (alightPassenger ctx stats p).2.2.totalWaitTime =
            stats.totalWaitTime + p.waitTime ∧
          (alightPassenger ctx stats p).2.2.money =
            stats.money + ctx.ticketPrice ∧
          (alightPassenger ctx stats p).2.2.totalIncome =
            stats.totalIncome + ctx.ticketPrice) ∧
      ((alightPassenger ctx stats p).1.state ≠ .arrived →
        (alightPassenger ctx stats p).2.2 = stats)) ∧
    (∀ idx routes tp dt stats p, p.state = .waiting →
      ((waitingStep idx routes tp dt stats p).1.state = .arrived →
        (waitingStep idx routes tp dt stats p).2.2.tripsCompleted =
            stats.tripsCompleted + 1 ∧
          (waitingStep idx routes tp dt stats p).2.2.totalWaitTime =
            stats.totalWaitTime + (p.waitTime + dt / 1000) ∧
          (waitingStep idx routes tp dt stats p).2.2.money =
            stats.money + tp ∧
          (waitingStep idx routes tp dt stats p).2.2.totalIncome =
            stats.totalIncome + tp) ∧
      ((waitingStep idx routes tp dt stats p).1.state ≠ .arrived →
        (waitingStep idx routes tp dt stats p).2.2.tripsCompleted =
            stats.tripsCompleted ∧
          (waitingStep idx routes tp dt stats p).2.2.totalWaitTime =
            stats.totalWaitTime ∧
          (waitingStep idx routes tp dt stats p).2.2.money = stats.money ∧
          (waitingStep idx routes tp dt stats p).2.2.totalIncome =
            stats.totalIncome)) ∧
    (∀ stats p, p.state = .arrived → arrivedStep stats p = (p, true, stats)) := by
  refine ⟨?_, ?_, fun stats p _ => rfl⟩
  · intro ctx stats p htrav
    exact alightPassenger_stats ctx stats p htrav
  · intro idx routes tp dt stats p hw
    obtain ⟨hA, hB⟩ := waitingPre_stats idx routes tp dt stats p hw
    unfold waitingStep
    split
    · constructor
      · intro harr
        exact hA harr
      · intro hne
        rw [hB hne]
        exact ⟨rfl, rfl, rfl, rfl⟩
    · constructor
      · intro harr
        exact hA harr
      · intro hne
        rw [hB hne]
        exact ⟨rfl, rfl, rfl, rfl⟩

/-- The drop-off context for the C8 witness: a bus dwelling at stop (1,1)
with ticket price 1.5. -/
def demoAlightCtx : AlightCtx :=
  { currentStop := (1, 1), idx := [], time := 2000, ticketPrice := 3 / 2 }

/-- A passenger one stop away from legitimate arrival. -/
def demoArriving : NPC :=
  { x := 30, y := 30, state := .traveling, waitTime := 7,
    transportStartTime := some 1000, nearestStop := none, atStop := false,
    destinationZone := demoZone, destinationStop := some (1, 1),
    finalDestinationStop := some (1, 1), transferCount := 0,
    maxTransfersWarned := false, plannedRoute := none }

def demoStats0 : Stats := ⟨0, 0, 0, 0, 0, 0⟩

/-- Witness for C8 at a concrete arriving passenger. -/
theorem C8_arrival_stats_once_witness :
    (alightPassenger demoAlightCtx demoStats0 demoArriving).1.state =
      .arrived ∧
    (alightPassenger demoAlightCtx demoStats0
      demoArriving).2.2.tripsCompleted = 1 ∧
    (alightPassenger demoAlightCtx demoStats0
      demoArriving).2.2.totalWaitTime = 7 ∧
    (alightPassenger demoAlightCtx demoStats0 demoArriving).2.2.money =
      3 / 2 ∧
    (alightPassenger demoAlightCtx demoStats0
      demoArriving).2.2.totalIncome = 3 / 2 := by
  have hfar : ¬ (8 * GRID_SIZE) ^ 2 <
      distSq (stopPixel (demoAlightCtx.currentStop))
        (getDestinationCenter demoArriving.destinationZone) := by
    show ¬ (8 * GRID_SIZE) ^ 2 <
      distSq (stopPixel (1, 1)) (getDestinationCenter demoZone)
    unfold getDestinationCenter demoZone distSq stopPixel GRID_SIZE
    norm_num [min_def, max_def]
  have harr : (alightPassenger demoAlightCtx demoStats0
      demoArriving).1.state = .arrived := by
    show (alightCore demoAlightCtx demoStats0 demoArriving (1, 1)).1.state =
      .arrived
    unfold alightCore
    rw [if_pos (show ((1, 1) : GridPos) = demoAlightCtx.currentStop from
      rfl), if_neg hfar]
  have h := (C8_arrival_stats_once.1 demoAlightCtx demoStats0 demoArriving
    rfl).1 harr
  refine ⟨harr, ?_, ?_, ?_, ?_⟩
  · rw [h.1]
    rfl
  · rw [h.2.1]
    show (0 : ℚ) + 7 = 7
    norm_num
  · rw [h.2.2.1]
    show (0 : ℚ) + 3 / 2 = 3 / 2
    norm_num
  · rw [h.2.2.2]
    show (0 : ℚ) + 3 / 2 = 3 / 2
    norm_num

/-- Witness for the amended C2 theorem at the two-bus demo route. -/
theorem C2_remove_bus_amended_witness :
    (removeBusFromRoute [demoDuoRoute] 0).1.get? 0 =
      some { demoDuoRoute with buses := demoDuoRoute.buses.dropLast } ∧
    (removeBusFromRoute [demoDuoRoute] 0).2 =
      demoLoadedBus.passengers.map resetPassenger ∧
    ∀ q ∈ (removeBusFromRoute [demoDuoRoute] 0).2,
      q.state = .waiting ∧ q.nearestStop = none := by
  have h := (C2_remove_bus_amended [demoDuoRoute] 0 demoDuoRoute (by decide)
    rfl).2 demoLoadedBus rfl (by decide)
  exact ⟨h.1, h.2.2.1, fun q hq => ⟨(h.2.2.2 q hq).1, (h.2.2.2 q hq).2.1⟩⟩

/-! ### C1: boarding with a mismatched plan, and the greedy fallback -/

lemma transferStep_fold_min (cur fd : GridPos) :
    ∀ (l : List GridPos) (acc : Option GridPos × ℚ),
      (l.foldl (transferStep cur fd) acc).2 ≤ acc.2 ∧
      ∀ s ∈ l, s ≠ cur →
        (l.foldl (transferStep cur fd) acc).2 ≤
          distSq (stopPixel s) (stopPixel fd) := by
  intro l
  induction l with
  | nil =>
    intro acc
    exact ⟨le_refl _, by simp⟩
  | cons a t ih =>
    intro acc
    simp only [List.foldl_cons]
    have hstep : (transferStep cur fd acc a).2 ≤ acc.2 ∧
        (a ≠ cur → (transferStep cur fd acc a).2 ≤
          distSq (stopPixel a) (stopPixel fd)) := by
      unfold transferStep
      split
      next hac => exact ⟨le_refl _, fun hne => absurd hac hne⟩
      next hac =>
        split
        next hlt => exact ⟨le_of_lt hlt, fun _ => le_refl _⟩
        next hlt => exact ⟨le_refl _, fun _ => le_of_not_lt hlt⟩
    obtain ⟨h1, h2⟩ := ih (transferStep cur fd acc a)
    refine ⟨le_trans h1 hstep.1, ?_⟩
    intro s hs hsne
    rcases List.mem_cons.mp hs with rfl | hmem
    · exact le_trans h1 (hstep.2 hsne)
    · exact h2 s hmem hsne

lemma transferStep_fold_cases (cur fd : GridPos) :
    ∀ (l : List GridPos) (acc : Option GridPos × ℚ),
      l.foldl (transferStep cur fd) acc = acc ∨
      ∃ b ∈ l, b ≠ cur ∧
        l.foldl (transferStep cur fd) acc =
          (some b, distSq (stopPixel b) (stopPixel fd)) ∧
        distSq (stopPixel b) (stopPixel fd) < acc.2 := by
  intro l
  induction l with
  | nil =>
    intro acc
    exact Or.inl rfl
  | cons a t ih =>
    intro acc
    simp only [List.foldl_cons]
    have hstep : transferStep cur fd acc a = acc ∨
        (a ≠ cur ∧ transferStep cur fd acc a =
          (some a, distSq (stopPixel a) (stopPixel fd)) ∧
          distSq (stopPixel a) (stopPixel fd) < acc.2) := by
      unfold transferStep
      split
      · exact Or.inl rfl
      next hac =>
        split
        next hlt => exact Or.inr ⟨hac, rfl, hlt⟩
        · exact Or.inl rfl
    rcases hstep with heq | ⟨hane, heq, hlt⟩
    · rw [heq]
      rcases ih acc with h | ⟨b, hb, hbne, hfe, hflt⟩
      · exact Or.inl h
      · exact Or.inr ⟨b, List.mem_cons_of_mem a hb, hbne, hfe, hflt⟩
    · rw [heq]
      rcases ih (some a, distSq (stopPixel a) (stopPixel fd)) with
        h | ⟨b, hb, hbne, hfe, hflt⟩
      · exact Or.inr ⟨a, List.mem_cons_self a t, hane, h, hlt⟩
      · refine Or.inr ⟨b, List.mem_cons_of_mem a hb, hbne, hfe, ?_⟩
        exact lt_trans hflt hlt

/-- A found ad-hoc transfer stop is on the route, differs from the current
stop, strictly improves on the current stop's distance to the final
destination, and minimises that distance among on-route candidates. -/
lemma closestTransfer_some (routeStops : List GridPos) (cur fd t : GridPos)
    (h : closestTransfer routeStops cur fd = some t) :
    t ∈ routeStops ∧ t ≠ cur ∧
      distSq (stopPixel t) (stopPixel fd) <
        distSq (stopPixel cur) (stopPixel fd) ∧
      ∀ s ∈ routeStops, s ≠ cur →
        distSq (stopPixel t) (stopPixel fd) ≤
          distSq (stopPixel s) (stopPixel fd) := by
  unfold closestTransfer at h
  rcases transferStep_fold_cases cur fd routeStops
      (none, distSq (stopPixel cur) (stopPixel fd)) with
    heq | ⟨b, hb, hbne, hfe, hflt⟩
  · rw [heq] at h
    exact absurd h (by simp)
  · rw [hfe] at h
    have hbt : b = t := Option.some.inj h
    subst hbt
    obtain ⟨-, hmin2⟩ := transferStep_fold_min cur fd routeStops
      (none, distSq (stopPixel cur) (stopPixel fd))
    refine ⟨hb, hbne, hflt, ?_⟩
    intro s hs hsne
    have hle := hmin2 s hs hsne
    rw [hfe] at hle
    exact hle

/-- When no ad-hoc transfer stop is found, no on-route stop other than the
current one is strictly closer to the final destination. -/
lemma closestTransfer_none (routeStops : List GridPos) (cur fd : GridPos)
    (h : closestTransfer routeStops cur fd = none) :
    ∀ s ∈ routeStops, s ≠ cur →
      distSq (stopPixel cur) (stopPixel fd) ≤
        distSq (stopPixel s) (stopPixel fd) := by
  unfold closestTransfer at h
  rcases transferStep_fold_cases cur fd routeStops
      (none, distSq (stopPixel cur) (stopPixel fd)) with
    heq | ⟨b, hb, hbne, hfe, hflt⟩
  · intro s hs hsne
    obtain ⟨-, hmin2⟩ := transferStep_fold_min cur fd routeStops
      (none, distSq (stopPixel cur) (stopPixel fd))
    have hle := hmin2 s hs hsne
    rw [heq] at hle
    exact hle
  · rw [hfe] at h
    exact absurd h (by simp)

/-- A waiting NPC at the demo stop (1,0) whose plan expects it to be at
(2,2): the plan's current stop does not match the bus's stop, although the
route does serve the plan's final stop (5,5). -/
def demoMismatchNpc : NPC :=
  { x := 30, y := 0, state := .waiting, waitTime := 0,
    transportStartTime := none, nearestStop := some (1, 0), atStop := true,
    destinationZone := ⟨4, 4, 2, 2⟩, destinationStop := none,
    finalDestinationStop := some (5, 5), transferCount := 0,
    maxTransfersWarned := false,
    plannedRoute := some ⟨[(2, 2), (5, 5)], [0], 0⟩ }

/-- **C1** (counterexample): the claim asserts that a waiting NPC whose
plan is mismatched at boarding time has the plan discarded and is boarded
by the greedy fallback.  On a concrete mismatched plan whose final stop the
route serves directly, the pick-up pass instead leaves the NPC entirely
unchanged: not boarded, plan retained, still waiting. -/
theorem C1_mismatched_plan_counterexample :
    demoMismatchNpc.plannedRoute =
      some ⟨[(2, 2), (5, 5)], [0], 0⟩ ∧
    ((2, 2) : GridPos) ≠ demoBCtx.currentStop ∧
    demoMismatchNpc.finalDestinationStop = some (5, 5) ∧
    ((5, 5) : GridPos) ∈ demoBCtx.routeStops ∧
    boardNpc demoBCtx demoMismatchNpc = (demoMismatchNpc, false) :=
  ⟨rfl, by decide, rfl, by decide, rfl⟩

/-- **C1** (amended): at dwell time with a waiting NPC at the current stop
and capacity and transfer-cap checks passed: holding a plan and a final
destination whose current-plan stop differs from the bus's stop leaves the
NPC waiting, unchanged, with the plan retained; the greedy fallback applies
only when the plan is absent — then the NPC boards directly when this route
serves its (validated, in-range) final-destination stop other than the
current stop, else toward the on-route stop strictly closest to the final
destination when one strictly improves on the current stop, else it is not
boarded. -/
theorem C1_plan_mismatch_and_greedy_fallback (ctx : BoardCtx) (npc : NPC)
    (hguard : npc.state = .waiting ∧ npc.atStop = true ∧
      npc.nearestStop = some ctx.currentStop ∧
      ctx.busPassengers < BUS_CAPACITY)
    (htc : npc.transferCount < MAX_TRANSFERS) :
    (∀ plan fd cps, npc.plannedRoute = some plan →
      npc.finalDestinationStop = some fd →
      plan.stops.get? plan.currentStopIndex = some cps →
      cps ≠ ctx.currentStop →
      boardNpc ctx npc = (npc, false)) ∧
    (npc.plannedRoute = none →
      ∀ fd, findNearestStop ctx.idx
          (getDestinationCenter npc.destinationZone).1
          (getDestinationCenter npc.destinationZone).2 = some fd →
        ¬ (8 * GRID_SIZE) ^ 2 <
            distSq (stopPixel fd)
              (getDestinationCenter npc.destinationZone) →
        ((fd ∈ ctx.routeStops ∧ fd ≠ ctx.currentStop →
          boardNpc ctx npc =
            ({ npc with
               destinationStop := some fd,
               finalDestinationStop := some fd, state := .traveling,
               atStop := false,
               transportStartTime :=
                 tstUpdate npc.transportStartTime ctx.time }, true)) ∧
        (¬ (fd ∈ ctx.routeStops ∧ fd ≠ ctx.currentStop) →
          (∀ t, closestTransfer ctx.routeStops ctx.currentStop fd =
              some t →
            boardNpc ctx npc =
              ({ npc with
                 destinationStop := some t,
                 finalDestinationStop := some fd, state := .traveling,
                 atStop := false,
                 transportStartTime :=
                   tstUpdate npc.transportStartTime ctx.time }, true) ∧
            t ∈ ctx.routeStops ∧ t ≠ ctx.currentStop ∧
            distSq (stopPixel t) (stopPixel fd) <
              distSq (stopPixel ctx.currentStop) (stopPixel fd) ∧
            ∀ s ∈ ctx.routeStops, s ≠ ctx.currentStop →
              distSq (stopPixel t) (stopPixel fd) ≤
                distSq (stopPixel s) (stopPixel fd)) ∧
          (closestTransfer ctx.routeStops ctx.currentStop fd = none →
            boardNpc ctx npc = (npc, false) ∧
            ∀ s ∈ ctx.routeStops, s ≠ ctx.currentStop →
              distSq (stopPixel ctx.currentStop) (stopPixel fd) ≤
                distSq (stopPixel s) (stopPixel fd))))) := by
  have hnotc : ¬ MAX_TRANSFERS ≤ npc.transferCount := by omega
  constructor
  · intro plan fd cps hplan hfd hcps hne
    unfold boardNpc
    rw [if_pos hguard, if_neg hnotc]
    simp only [hplan, hfd, hcps]
    rw [if_pos hne]
  · intro hnoplan fd hfind hrange
    have hred : boardNpc ctx npc = greedyBoard ctx npc := by
      unfold boardNpc
      rw [if_pos hguard, if_neg hnotc]
      rcases hfde : npc.finalDestinationStop with _ | fd0 <;>
        simp only [hnoplan, hfde]
    have hgr : ∀ r : NPC × Bool, greedyBoard ctx npc = r →
        boardNpc ctx npc = r := by
      intro r hr
      rw [hred, hr]
    refine ⟨?_, ?_⟩
    · intro hdir
      apply hgr
      unfold greedyBoard
      simp only [hfind]
      rw [if_neg hrange, if_pos hdir]
    · intro hnot
      constructor
      · intro t hct
        obtain ⟨ht1, ht2, ht3, ht4⟩ :=
          closestTransfer_some ctx.routeStops ctx.currentStop fd t hct
        refine ⟨?_, ht1, ht2, ht3, ht4⟩
        apply hgr
        unfold greedyBoard
        simp only [hfind]
        rw [if_neg hrange, if_neg hnot]
        simp only [hct]
      · intro hct
        refine ⟨?_, closestTransfer_none ctx.routeStops ctx.currentStop
          fd hct⟩
        apply hgr
        unfold greedyBoard
        simp only [hfind]
        rw [if_neg hrange, if_neg hnot]
        simp only [hct]

theorem jsRound_thirty_div : jsRound (30 / GRID_SIZE) = 1 := by
  unfold jsRound GRID_SIZE
  rw [Int.floor_eq_iff]
  norm_num

/-- A plan-less waiting NPC at stop (0,0) whose destination zone centres on
the cell of stop (2,1). -/
def demoGreedyNpc : NPC :=
  { x := 0, y := 0, state := .waiting, waitTime := 1,
    transportStartTime := none, nearestStop := some (0, 0), atStop := true,
    destinationZone := ⟨1, 0, 2, 2⟩, destinationStop := none,
    finalDestinationStop := none, transferCount := 0,
    maxTransfersWarned := false, plannedRoute := none }

/-- A bus of the route [(0,0), (2,1)] dwelling at (0,0). -/
def demoGreedyCtx : BoardCtx :=
  { currentStop := (0, 0), routeStops := [(0, 0), (2, 1)],
    routeIndexInState := 0, idx := rebuildIndex [[(0, 0), (2, 1)]],
    time := 0, busPassengers := 0 }

/-- Witness for the amended C1 theorem: the plan-less demo NPC is boarded
directly toward the route-served stop nearest its zone centre. -/
theorem C1_plan_mismatch_and_greedy_fallback_witness :
    boardNpc demoGreedyCtx demoGreedyNpc =
      ({ demoGreedyNpc with
         destinationStop := some (2, 1),
         finalDestinationStop := some (2, 1), state := .traveling,
         atStop := false, transportStartTime := some 0 }, true) := by
  have hcenter : getDestinationCenter demoGreedyNpc.destinationZone =
      (60, 30) := by
    show getDestinationCenter ⟨1, 0, 2, 2⟩ = (60, 30)
    unfold getDestinationCenter GRID_SIZE
    norm_num [min_def, max_def]
  have hfind0 : findNearestStop (rebuildIndex [[(0, 0), (2, 1)]]) 60 30 =
      some (2, 1) := by
    unfold findNearestStop
    rw [if_neg (by norm_num [COLS, GRID_SIZE])]
    rw [jsRound_sixty_div, jsRound_thirty_div]
    rfl
  have hfind : findNearestStop demoGreedyCtx.idx
      (getDestinationCenter demoGreedyNpc.destinationZone).1
      (getDestinationCenter demoGreedyNpc.destinationZone).2 =
      some (2, 1) := by
    rw [hcenter]
    exact hfind0
  have hrange : ¬ (8 * GRID_SIZE) ^ 2 <
      distSq (stopPixel (2, 1))
        (getDestinationCenter demoGreedyNpc.destinationZone) := by
    rw [hcenter]
    unfold distSq stopPixel GRID_SIZE
    norm_num
  have h := (C1_plan_mismatch_and_greedy_fallback demoGreedyCtx
    demoGreedyNpc ⟨rfl, rfl, rfl, by decide⟩ (by decide)).2 rfl (2, 1)
    hfind hrange
  exact h.1 ⟨by decide, by decide⟩

end Funbus
